import Mathlib

/-
Verification development for the wildfire wavefront simulator
(`Antigravity/fire_model.py`).

The simulator is shallow-embedded as follows.

* Machine floats are modelled as exact real numbers (`ℝ`); float literals of
  the source (`0.02`, `1.414`, `0.0693`, ...) become the corresponding exact
  rationals.
* The grids (`elevation`, `fuel`, `ignition_time`, `visited`) are total
  functions from `ℤ × ℤ`; the simulator only ever reads them inside bounds.
* `heapq` is modelled by a list kept sorted in the lexicographic order of the
  pushed `(time, row, col)` tuples; `heappop` takes the head, which is exactly
  the minimum that `heapq` returns, and `heappush` is ordered insertion, which
  preserves the queue's multiset and sortedness.
* `np.random` is a process-global generator; it is modelled by an infinite
  stream `ℕ → ℝ` of draw results together with a cursor.  Each call of
  `np.random.random()` / `np.random.normal(...)` returns the value at the
  cursor and advances it.  `np.random.randint(low, high)` consumes one stream
  value `v` and returns `low + (⌊v⌋ % (high - low))`, a surjection onto the
  interval `[low, high)` that numpy samples uniformly; when `high ≤ low` it
  raises `ValueError`, modelled as the crash outcome `none`.
* A Python exception escaping `run_simulation` is modelled by the `Option`
  monad: the run returns `none` exactly when `randint` raises.
* The scheduler loop is written with an explicit fuel argument; the chosen
  fuel provably exceeds the loop's step count, so the fuel never runs out.

The scheduler loop is stated generically over an ordered field `K` and over
the two arithmetic callbacks (edge travel time and ember-spot computation);
the program itself is the instantiation at `K := ℝ` with the faithful
callbacks `FireModel.travelTime` and `FireModel.spotEvent`, which use
`Real.exp`, `Real.arctan`, `Real.cos`, `Real.sin` just as the source uses
`np.exp`, `np.arctan2`, `np.cos`, `np.sin`.  Concrete runs are evaluated by
transporting them to an equal computable `ℚ` instantiation.
-/

namespace Wildfire

/-- Fuel codes follow the source: 0 = Urban, 1 = Grass, 2 = Forest, 3 = Water. -/
abbrev FuelTy := ℕ

/-- Source `self.base_rates` dictionary; `dict.get(fuel_type, 0.5)` supplies the
default `0.5` for unknown codes. -/
def baseRate {K : Type} [LinearOrderedField K] (f : FuelTy) : K :=
  if f = 0 then 1/10 else if f = 1 then 3/2 else if f = 2 then 1/2
  else if f = 3 then 0 else 1/2

/-- Source `self.wind_sensitivity` dictionary; `dict.get(fuel_type, 0.1)`
supplies the default `0.1`. -/
def windSens {K : Type} [LinearOrderedField K] (f : FuelTy) : K :=
  if f = 0 then 1/20 else if f = 1 then 1/4 else if f = 2 then 1/10
  else if f = 3 then 0 else 1/10

/-- Scalar `np.clip(x, lo, hi)`. -/
def clip {K : Type} [LinearOrder K] (x lo hi : K) : K := max lo (min x hi)

/-- Python `int(...)`: truncation toward zero. -/
def truncInt {K : Type} [LinearOrderedRing K] [FloorRing K] (x : K) : ℤ :=
  if x < 0 then ⌈x⌉ else ⌊x⌋

/-- The source's `neighbors` list: 8 offsets with distance multipliers, in
source order; the diagonal multiplier is the literal `1.414`. -/
def neighborsList (K : Type) [LinearOrderedField K] : List (ℤ × ℤ × K) :=
  [(-1, 0, 1), (1, 0, 1), (0, -1, 1), (0, 1, 1),
   (-1, -1, 1414/1000), (-1, 1, 1414/1000), (1, -1, 1414/1000), (1, 1, 1414/1000)]

/-- The total order in which `heapq` compares the pushed `(time, row, col)`
tuples: lexicographic. -/
def leE {K : Type} [LinearOrder K] (a b : K × ℤ × ℤ) : Prop :=
  a.1 < b.1 ∨ (a.1 = b.1 ∧ (a.2.1 < b.2.1 ∨ (a.2.1 = b.2.1 ∧ a.2.2 ≤ b.2.2)))

instance {K : Type} [LinearOrder K] : DecidableRel (leE (K := K)) := fun a b => by
  unfold leE; exact inferInstance

/-- Strict comparison of a candidate time against a cell of the ignition-time
field (`none` is `np.inf`, so every finite time beats it). -/
def ltOpt {K : Type} [LinearOrder K] (a : K) : Option K → Prop
  | none => True
  | some b => a < b

instance {K : Type} [LinearOrder K] (a : K) : (o : Option K) → Decidable (ltOpt a o)
  | none => isTrue trivial
  | some _ => inferInstanceAs (Decidable (_ < _))

/-- Outcome of one ember-spotting attempt: `crash` models the `ValueError`
raised by `np.random.randint(2, 2)`, `skip` a failed Bernoulli draw, `cand`
a computed candidate `(landing time, target row, target col)`. -/
inductive SpotRes (K : Type) where
  | crash : SpotRes K
  | skip : SpotRes K
  | cand : K → ℤ → ℤ → SpotRes K

/-- Static data of one scheduler run: grid shape, fuel raster, wind speed (for
the spotting guard), and the two arithmetic callbacks. `travel r c dr dc mult`
is the edge travel time from `(r, c)` to `(r + dr, c + dc)`;
`spot t r c i` performs the ember computation at rng cursor `i`. -/
structure LoopCfg (K : Type) where
  rows : ℕ
  cols : ℕ
  fuel : ℤ → ℤ → FuelTy
  windSpeed : K
  travel : ℤ → ℤ → ℤ → ℤ → K → K
  spot : K → ℤ → ℤ → ℕ → SpotRes K × ℕ

/-- Mutable state of a run: the ignition-time field, the settled set, the
event queue (sorted by `leE`), the trace of popped entries, and the rng
cursor. -/
structure SimState (K : Type) where
  tmap : ℤ → ℤ → Option K
  visited : ℤ → ℤ → Bool
  pq : List (K × ℤ × ℤ)
  pops : List (K × ℤ × ℤ)
  rngIdx : ℕ

/-- One iteration of the `for dr, dc, dist_mult in neighbors` body. -/
def relaxOne {K : Type} [LinearOrderedField K] (cfg : LoopCfg K) (t : K) (r c : ℤ)
    (s : SimState K) (nb : ℤ × ℤ × K) : SimState K :=
  let nr := r + nb.1
  let nc := c + nb.2.1
  if 0 ≤ nr ∧ nr < (cfg.rows : ℤ) ∧ 0 ≤ nc ∧ nc < (cfg.cols : ℤ) ∧ s.visited nr nc = false then
    if cfg.fuel nr nc = 3 then s
    else
      let nt := t + cfg.travel r c nb.1 nb.2.1 nb.2.2
      if ltOpt nt (s.tmap nr nc) then
        { s with tmap := fun x y => if x = nr ∧ y = nc then some nt else s.tmap x y,
                 pq := List.orderedInsert leE (nt, nr, nc) s.pq }
      else s
  else s

/-- The in-bounds / ignitable-fuel / update-if-lower filter applied to an
ember-spot candidate before it is pushed. -/
def pushCand {K : Type} [LinearOrderedField K] (cfg : LoopCfg K) (s : SimState K)
    (st : K) (sr sc : ℤ) : SimState K :=
  if 0 ≤ sr ∧ sr < (cfg.rows : ℤ) ∧ 0 ≤ sc ∧ sc < (cfg.cols : ℤ) then
    if cfg.fuel sr sc = 1 ∨ cfg.fuel sr sc = 2 then
      if ltOpt st (s.tmap sr sc) then
        { s with tmap := fun x y => if x = sr ∧ y = sc then some st else s.tmap x y,
                 pq := List.orderedInsert leE (st, sr, sc) s.pq }
      else s
    else s
  else s

/-- One iteration of the `while pq` loop. `none` = exception; `Sum.inr` =
the loop finished (empty queue, or `curr_time > max_time` break); `Sum.inl` =
continue with the new state. -/
def step {K : Type} [LinearOrderedField K] (cfg : LoopCfg K) (max_time : K)
    (s : SimState K) : Option (SimState K ⊕ SimState K) :=
  match s.pq with
  | [] => some (Sum.inr s)
  | (t, r, c) :: rest =>
    let s₁ : SimState K := { s with pq := rest, pops := s.pops ++ [(t, r, c)] }
    if max_time < t then some (Sum.inr s₁)
    else if s₁.visited r c then some (Sum.inl s₁)
    else
      let s₂ : SimState K :=
        { s₁ with visited := fun x y => if x = r ∧ y = c then true else s₁.visited x y }
      let s₃ := (neighborsList K).foldl (relaxOne cfg t r c) s₂
      if cfg.fuel r c = 2 ∧ (5 : K) < cfg.windSpeed then
        match cfg.spot t r c s₃.rngIdx with
        | (SpotRes.crash, _) => none
        | (SpotRes.skip, j) => some (Sum.inl { s₃ with rngIdx := j })
        | (SpotRes.cand st sr sc, j) =>
            some (Sum.inl (pushCand cfg { s₃ with rngIdx := j } st sr sc))
      else some (Sum.inl s₃)

/-- The `while pq` loop, driven by fuel (the fuel chosen by `run_simulation`
provably exceeds the number of iterations). -/
def loopSim {K : Type} [LinearOrderedField K] (cfg : LoopCfg K) (max_time : K) :
    ℕ → SimState K → Option (SimState K)
  | 0, s => some s
  | n + 1, s =>
    match step cfg max_time s with
    | none => none
    | some (Sum.inr sF) => some sF
    | some (Sum.inl s₁) => loopSim cfg max_time n s₁

/-- `np.argwhere(self.ignition_time < np.inf)` in row-major order, paired with
the stored times: the entries pushed to seed the queue. -/
def initEntries {K : Type} (rows cols : ℕ) (tm : ℤ → ℤ → Option K) : List (K × ℤ × ℤ) :=
  (List.range rows).flatMap (fun r =>
    (List.range cols).filterMap (fun c =>
      (tm (r : ℤ) (c : ℤ)).map (fun t => (t, (r : ℤ), (c : ℤ)))))

/-- Building the heap by successive pushes: as a sorted list. -/
def heapify {K : Type} [LinearOrder K] (l : List (K × ℤ × ℤ)) : List (K × ℤ × ℤ) :=
  l.foldl (fun q e => List.orderedInsert leE e q) []

/-- Fuel bound: one pop per iteration, at most 9 pushes per settlement and at
most `rows * cols` settlements, so this strictly bounds the iteration count. -/
def loopFuel {K : Type} (rows cols : ℕ) (q : List (K × ℤ × ℤ)) : ℕ :=
  q.length + 9 * (rows * cols) + 1

/-- Scalar `np.arctan2(y, x)`. -/
noncomputable def atan2 (y x : ℝ) : ℝ :=
  if 0 < x then Real.arctan (y / x)
  else if x < 0 then
    (if 0 ≤ y then Real.arctan (y / x) + Real.pi else Real.arctan (y / x) - Real.pi)
  else if 0 < y then Real.pi / 2 else if y < 0 then -(Real.pi / 2) else 0

/-- Source `self.k_slope = 0.0693 / (np.pi/180)`. -/
noncomputable def kSlope : ℝ := (693/10000) / (Real.pi / 180)

/-- The `FireModel` object: constructor inputs plus the mutable
`ignition_time` field (the `burnt` array is never used by the source). -/
structure FireModel where
  rows : ℕ
  cols : ℕ
  elevation : ℤ → ℤ → ℝ
  fuel : ℤ → ℤ → FuelTy
  cell_size : ℝ
  ignition_time : ℤ → ℤ → Option ℝ
  wind_speed : ℝ
  wind_dir : ℝ

/-- `FireModel.__init__`: stores the rasters, converts `wind_dir` from degrees
to radians, and initialises `ignition_time` to all-`np.inf`. -/
noncomputable def FireModel.init (rows cols : ℕ) (elevation : ℤ → ℤ → ℝ)
    (fuel : ℤ → ℤ → FuelTy) (wind_speed wind_dir cell_size : ℝ) : FireModel :=
  { rows := rows, cols := cols, elevation := elevation, fuel := fuel,
    cell_size := cell_size,
    ignition_time := fun _ _ => none,
    wind_speed := wind_speed,
    wind_dir := wind_dir * (Real.pi / 180) }

/-- `FireModel.ignite`: in-bounds, non-Water targets get their time assigned;
anything else is a silent no-op. -/
def FireModel.ignite (m : FireModel) (r c : ℤ) (start_time : ℝ) : FireModel :=
  if (0 ≤ r ∧ r < (m.rows : ℤ) ∧ 0 ≤ c ∧ c < (m.cols : ℤ)) ∧ m.fuel r c ≠ 3 then
    { m with ignition_time :=
        fun x y => if x = r ∧ y = c then some start_time else m.ignition_time x y }
  else m

/-- The edge travel time computed by the neighbour loop of `run_simulation`:
slope factor from `atan2`/`exp`/`clip`, wind factor from the dot product with
the wind vector `(cos dir, -sin dir)`, then `dist / final_rate`. -/
noncomputable def FireModel.travelTime (m : FireModel) (r c dr dc : ℤ) (dist_mult : ℝ) : ℝ :=
  let fuel_type := m.fuel (r + dr) (c + dc)
  let base_rate : ℝ := baseRate fuel_type
  let dist := m.cell_size * dist_mult
  let elev_diff := m.elevation (r + dr) (c + dc) - m.elevation r c
  let slope_angle := atan2 elev_diff dist
  let slope_factor := clip (Real.exp (kSlope * slope_angle)) (1/10) 8
  let sensitivity : ℝ := windSens fuel_type
  let wind_factor : ℝ :=
    if 0 < m.wind_speed then
      max (1/10) (1 + sensitivity * m.wind_speed *
        ((Real.cos m.wind_dir * (dr : ℝ) + (- Real.sin m.wind_dir) * (dc : ℝ)) / dist_mult))
    else 1
  dist / (base_rate * slope_factor * wind_factor)

/-- Source `int(self.wind_speed * 0.5)`, the exclusive upper bound handed to
`np.random.randint`. -/
def windHalfInt {K : Type} [LinearOrderedField K] [FloorRing K] (ws : K) : ℤ :=
  truncInt (ws * (1/2))

/-- Source `np.random.randint(2, hi) + 1` with the randint draw modelled from
one stream value `v` as `2 + (⌊v⌋ % (hi - 2))`, a surjection onto the uniform
range `[2, hi)`. -/
def spotDistPx {K : Type} [LinearOrderedField K] [FloorRing K] (hi : ℤ) (v : K) : ℤ :=
  (2 + ⌊v⌋ % (hi - 2)) + 1

/-- The ember-spotting block of `run_simulation`, after its outer
`fuel == 2 and wind_speed > 5` guard: Bernoulli draw against `0.02`, distance
draw (raising `ValueError` when `int(wind_speed*0.5) ≤ 2`), Gaussian angle
scatter around the wind bearing, landing-point truncation, flight time in
`[10, 30)`. -/
noncomputable def FireModel.spotEvent (m : FireModel) (stream : ℕ → ℝ) (t : ℝ)
    (r c : ℤ) (i : ℕ) : SpotRes ℝ × ℕ :=
  if stream i < 1/50 then
    let hi := windHalfInt m.wind_speed
    if hi ≤ 2 then (SpotRes.crash, i + 2)
    else
      let d := spotDistPx hi (stream (i + 1))
      let ang := m.wind_dir + stream (i + 2)
      let sp_r := truncInt ((r : ℝ) + Real.cos ang * (d : ℝ))
      let sp_c := truncInt ((c : ℝ) - Real.sin ang * (d : ℝ))
      let ft := 10 + stream (i + 3) * 20
      (SpotRes.cand (t + ft) sp_r sp_c, i + 4)
  else (SpotRes.skip, i + 1)

/-- The scheduler configuration of a `FireModel` run. -/
noncomputable def FireModel.cfg (m : FireModel) (stream : ℕ → ℝ) : LoopCfg ℝ :=
  { rows := m.rows, cols := m.cols, fuel := m.fuel, windSpeed := m.wind_speed,
    travel := fun r c dr dc mult => m.travelTime r c dr dc mult,
    spot := fun t r c j => m.spotEvent stream t r c j }

/-- `FireModel.run_simulation`: seeds the queue from the finite cells of the
ignition-time field and drains it.  `stream`/`i` model the state of the
process-global `np.random` generator when the run starts; the result is the
final simulation state (`none` if `ValueError` was raised). -/
noncomputable def FireModel.run_simulation (m : FireModel) (stream : ℕ → ℝ) (i : ℕ)
    (max_time : ℝ) : Option (SimState ℝ) :=
  let q := heapify (initEntries m.rows m.cols m.ignition_time)
  loopSim (m.cfg stream) max_time (loopFuel m.rows m.cols q)
    { tmap := m.ignition_time, visited := fun _ _ => false, pq := q, pops := [], rngIdx := i }

/-! ### Transport of the scheduler to `ℚ`

Concrete runs with flat terrain, wind bearing `0` and suitably rational
random streams take place entirely in the rationals.  The following
computable `ℚ` configuration and the cast lemmas below transport such runs
from the `ℝ` model to `ℚ`, where the kernel can evaluate them. -/

/-- Cast of a field cell. -/
def castOpt (o : Option ℚ) : Option ℝ := o.map (fun t : ℚ => (t : ℝ))

/-- Cast of a queue entry. -/
def castE (e : ℚ × ℤ × ℤ) : ℝ × ℤ × ℤ := ((e.1 : ℝ), e.2.1, e.2.2)

/-- Cast of a spot outcome. -/
def castSpotRes : SpotRes ℚ → SpotRes ℝ
  | SpotRes.crash => SpotRes.crash
  | SpotRes.skip => SpotRes.skip
  | SpotRes.cand t r c => SpotRes.cand (t : ℝ) r c

/-- Cast of a spot outcome paired with the new rng cursor. -/
def castSpotPair (p : SpotRes ℚ × ℕ) : SpotRes ℝ × ℕ := (castSpotRes p.1, p.2)

/-- Cast of a whole simulation state. -/
def castState (s : SimState ℚ) : SimState ℝ :=
  { tmap := fun r c => castOpt (s.tmap r c),
    visited := s.visited,
    pq := s.pq.map castE,
    pops := s.pops.map castE,
    rngIdx := s.rngIdx }

/-- What `FireModel.travelTime` evaluates to on flat terrain with wind bearing
`0`: the slope factor is `clip (exp 0) = 1` and the wind dot product is
`dr / dist_mult`. -/
def ratTravelFlat (fuel : ℤ → ℤ → FuelTy) (ws cs : ℚ) (r c dr dc : ℤ) (mult : ℚ) : ℚ :=
  let f := fuel (r + dr) (c + dc)
  let wf : ℚ := if 0 < ws then max (1/10) (1 + windSens f * ws * ((dr : ℚ) / mult)) else 1
  (cs * mult) / (baseRate f * 1 * wf)

/-- What `FireModel.spotEvent` evaluates to with wind bearing `0` when the
Gaussian scatter draw is `0`: `cos = 1`, `sin = 0`, so the target is
`(r + distance, c)`. -/
def ratSpotZero (ws : ℚ) (stream : ℕ → ℚ) (t : ℚ) (r c : ℤ) (i : ℕ) : SpotRes ℚ × ℕ :=
  if stream i < 1/50 then
    let hi := windHalfInt ws
    if hi ≤ 2 then (SpotRes.crash, i + 2)
    else
      let d := spotDistPx hi (stream (i + 1))
      (SpotRes.cand (t + (10 + stream (i + 3) * 20)) (r + d) c, i + 4)
  else (SpotRes.skip, i + 1)

/-- Computable `ℚ` scheduler configuration that agrees with the `ℝ` model on
flat terrain with wind bearing `0` (so `cos = 1`, `sin = 0`, slope factor `1`)
whenever every Gaussian scatter draw actually consumed is `0`. -/
def ratCfgFlat (rows cols : ℕ) (fuel : ℤ → ℤ → FuelTy) (ws cs : ℚ)
    (stream : ℕ → ℚ) : LoopCfg ℚ :=
  { rows := rows, cols := cols, fuel := fuel, windSpeed := ws,
    travel := ratTravelFlat fuel ws cs,
    spot := ratSpotZero ws stream }

theorem leE_castE_iff (a b : ℚ × ℤ × ℤ) : leE (castE a) (castE b) ↔ leE a b := by
  simp only [leE, castE, Rat.cast_lt, Rat.cast_inj]

theorem ltOpt_cast_iff (a : ℚ) (o : Option ℚ) :
    ltOpt (a : ℝ) (castOpt o) ↔ ltOpt a o := by
  cases o with
  | none => simp [ltOpt, castOpt]
  | some b => simp [ltOpt, castOpt]

theorem orderedInsert_castE (e : ℚ × ℤ × ℤ) (l : List (ℚ × ℤ × ℤ)) :
    (List.orderedInsert leE e l).map castE =
      List.orderedInsert leE (castE e) (l.map castE) := by
  induction l with
  | nil => rfl
  | cons x xs ih =>
    by_cases h : leE e x
    · simp [List.orderedInsert, h, (leE_castE_iff e x).mpr h]
    · have h2 : ¬ leE (castE e) (castE x) := fun hc => h ((leE_castE_iff e x).mp hc)
      simp [List.orderedInsert, h, h2, ih]

theorem foldl_insert_castE (l : List (ℚ × ℤ × ℤ)) :
    ∀ q : List (ℚ × ℤ × ℤ),
      l.foldl (fun acc e => List.orderedInsert leE (castE e) acc) (q.map castE) =
        (l.foldl (fun acc e => List.orderedInsert leE e acc) q).map castE := by
  induction l with
  | nil => intro q; rfl
  | cons x xs ih =>
    intro q
    simp only [List.foldl]
    rw [← orderedInsert_castE, ih]

theorem heapify_castE (l : List (ℚ × ℤ × ℤ)) :
    heapify (l.map castE) = (heapify l).map castE := by
  unfold heapify
  rw [List.foldl_map]
  exact foldl_insert_castE l []

theorem truncInt_cast (q : ℚ) : truncInt ((q : ℝ)) = truncInt q := by
  unfold truncInt
  by_cases h : q < 0
  · rw [if_pos h, if_pos (by exact_mod_cast h : (q : ℝ) < 0), Rat.ceil_cast]
  · rw [if_neg h, if_neg (by exact_mod_cast h : ¬ (q : ℝ) < 0), Rat.floor_cast]

theorem truncInt_intCast {K : Type} [LinearOrderedRing K] [FloorRing K] (n : ℤ) :
    truncInt ((n : K)) = n := by
  unfold truncInt
  split <;> simp

/-- Relation between a computable `ℚ` configuration and the `ℝ` configuration
of a run it transports: same static data, and the two callbacks commute with
the cast (travel only on the offsets the loop feeds it). -/
structure CfgRel (cfgQ : LoopCfg ℚ) (cfgR : LoopCfg ℝ) : Prop where
  rows : cfgR.rows = cfgQ.rows
  cols : cfgR.cols = cfgQ.cols
  fuel : cfgR.fuel = cfgQ.fuel
  ws : cfgR.windSpeed = (cfgQ.windSpeed : ℝ)
  travel : ∀ r c dr dc (mult : ℚ), (dr, dc, mult) ∈ neighborsList ℚ →
    cfgR.travel r c dr dc ((mult : ℝ)) = ((cfgQ.travel r c dr dc mult : ℚ) : ℝ)
  spot : ∀ (t : ℚ) r c i, cfgR.spot ((t : ℝ)) r c i = castSpotPair (cfgQ.spot t r c i)

theorem neighborsList_cast :
    neighborsList ℝ = (neighborsList ℚ).map (fun nb => (nb.1, nb.2.1, ((nb.2.2 : ℚ) : ℝ))) := by
  simp only [neighborsList, List.map]
  norm_num

theorem relaxOne_cast {cfgQ : LoopCfg ℚ} {cfgR : LoopCfg ℝ} (h : CfgRel cfgQ cfgR)
    (t : ℚ) (r c : ℤ) (s : SimState ℚ) (dr dc : ℤ) (mult : ℚ)
    (hnb : (dr, dc, mult) ∈ neighborsList ℚ) :
    relaxOne cfgR (t : ℝ) r c (castState s) (dr, dc, (mult : ℝ)) =
      castState (relaxOne cfgQ t r c s (dr, dc, mult)) := by
  have htr := h.travel r c dr dc mult hnb
  unfold relaxOne
  simp only [castState, h.rows, h.cols, h.fuel, htr]
  by_cases hb : 0 ≤ r + dr ∧ r + dr < ((cfgQ.rows : ℕ) : ℤ) ∧ 0 ≤ c + dc ∧
      c + dc < ((cfgQ.cols : ℕ) : ℤ) ∧ s.visited (r + dr) (c + dc) = false
  · rw [if_pos hb, if_pos hb]
    by_cases hf : cfgQ.fuel (r + dr) (c + dc) = 3
    · rw [if_pos hf, if_pos hf]
    · rw [if_neg hf, if_neg hf]
      have hcast : (t : ℝ) + ((cfgQ.travel r c dr dc mult : ℚ) : ℝ) =
          (((t + cfgQ.travel r c dr dc mult : ℚ)) : ℝ) := by push_cast; ring
      rw [hcast]
      by_cases hlt : ltOpt (t + cfgQ.travel r c dr dc mult) (s.tmap (r + dr) (c + dc))
      · rw [if_pos ((ltOpt_cast_iff _ _).mpr hlt), if_pos hlt]
        dsimp only
        rw [orderedInsert_castE (t + cfgQ.travel r c dr dc mult, r + dr, c + dc) s.pq]
        congr 1
        funext x y
        dsimp only
        by_cases hxy : x = r + dr ∧ y = c + dc
        · rw [if_pos hxy, if_pos hxy]; rfl
        · rw [if_neg hxy, if_neg hxy]
      · rw [if_neg (fun hc => hlt ((ltOpt_cast_iff _ _).mp hc)), if_neg hlt]
  · rw [if_neg hb, if_neg hb]

theorem foldl_relax_cast {cfgQ : LoopCfg ℚ} {cfgR : LoopCfg ℝ} (h : CfgRel cfgQ cfgR)
    (t : ℚ) (r c : ℤ) :
    ∀ L : List (ℤ × ℤ × ℚ), (∀ nb ∈ L, nb ∈ neighborsList ℚ) → ∀ s : SimState ℚ,
      (L.map (fun nb => (nb.1, nb.2.1, ((nb.2.2 : ℚ) : ℝ)))).foldl
          (relaxOne cfgR (t : ℝ) r c) (castState s) =
        castState (L.foldl (relaxOne cfgQ t r c) s) := by
  intro L
  induction L with
  | nil => intro _ s; rfl
  | cons nb L ih =>
    intro hmem s
    obtain ⟨dr, dc, mult⟩ := nb
    simp only [List.map, List.foldl]
    rw [relaxOne_cast h t r c s dr dc mult (hmem _ (List.mem_cons_self _ _))]
    exact ih (fun x hx => hmem x (List.mem_cons_of_mem _ hx)) _

theorem pushCand_cast {cfgQ : LoopCfg ℚ} {cfgR : LoopCfg ℝ} (h : CfgRel cfgQ cfgR)
    (s : SimState ℚ) (st : ℚ) (sr sc : ℤ) :
    pushCand cfgR (castState s) (st : ℝ) sr sc = castState (pushCand cfgQ s st sr sc) := by
  unfold pushCand
  simp only [castState, h.rows, h.cols, h.fuel]
  by_cases hb : 0 ≤ sr ∧ sr < ((cfgQ.rows : ℕ) : ℤ) ∧ 0 ≤ sc ∧ sc < ((cfgQ.cols : ℕ) : ℤ)
  · rw [if_pos hb, if_pos hb]
    by_cases hf : cfgQ.fuel sr sc = 1 ∨ cfgQ.fuel sr sc = 2
    · rw [if_pos hf, if_pos hf]
      by_cases hlt : ltOpt st (s.tmap sr sc)
      · rw [if_pos ((ltOpt_cast_iff _ _).mpr hlt), if_pos hlt]
        dsimp only
        rw [orderedInsert_castE (st, sr, sc) s.pq]
        congr 1
        funext x y
        dsimp only
        by_cases hxy : x = sr ∧ y = sc
        · rw [if_pos hxy, if_pos hxy]; rfl
        · rw [if_neg hxy, if_neg hxy]
      · rw [if_neg (fun hc => hlt ((ltOpt_cast_iff _ _).mp hc)), if_neg hlt]
    · rw [if_neg hf, if_neg hf]
  · rw [if_neg hb, if_neg hb]

theorem castState_setIdx (s : SimState ℚ) (j : ℕ) :
    ({ castState s with rngIdx := j } : SimState ℝ) = castState { s with rngIdx := j } := rfl

theorem step_cast {cfgQ : LoopCfg ℚ} {cfgR : LoopCfg ℝ} (h : CfgRel cfgQ cfgR)
    (mt : ℚ) (s : SimState ℚ) :
    step cfgR (mt : ℝ) (castState s) =
      Option.map (Sum.map castState castState) (step cfgQ mt s) := by
  obtain ⟨tm, vis, pq, pops, idx⟩ := s
  cases pq with
  | nil => rfl
  | cons e rest =>
    obtain ⟨t, r, c⟩ := e
    show step cfgR (mt : ℝ)
        { tmap := fun x y => castOpt (tm x y), visited := vis,
          pq := castE (t, r, c) :: rest.map castE, pops := pops.map castE, rngIdx := idx } = _
    unfold step
    simp only [castE]
    by_cases hmt : mt < t
    · rw [if_pos (by exact_mod_cast hmt : (mt : ℝ) < (t : ℝ)), if_pos hmt]
      simp [castState, castE]
    · rw [if_neg (by exact_mod_cast hmt : ¬ (mt : ℝ) < (t : ℝ)), if_neg hmt]
      by_cases hv : vis r c = true
      · rw [if_pos hv, if_pos hv]
        simp [castState, castE]
      · rw [if_neg hv, if_neg hv]
        have hs₂ : SimState.mk (fun x y => castOpt (tm x y))
            (fun x y => if x = r ∧ y = c then true else vis x y)
            (rest.map castE) (pops.map castE ++ [((t : ℝ), r, c)]) idx =
            castState (SimState.mk tm
              (fun x y => if x = r ∧ y = c then true else vis x y)
              rest (pops ++ [(t, r, c)]) idx) := by
          simp [castState, castE]
        rw [hs₂, neighborsList_cast,
          foldl_relax_cast h t r c (neighborsList ℚ) (fun _ hx => hx) _]
        by_cases hg : cfgQ.fuel r c = 2 ∧ (5 : ℚ) < cfgQ.windSpeed
        · have hgR : cfgR.fuel r c = 2 ∧ (5 : ℝ) < cfgR.windSpeed := by
            refine ⟨by rw [h.fuel]; exact hg.1, ?_⟩
            rw [h.ws]; exact_mod_cast hg.2
          rw [if_pos hgR, if_pos hg]
          have hsp := h.spot t r c
            (List.foldl (relaxOne cfgQ t r c)
              { tmap := tm, visited := fun x y => if x = r ∧ y = c then true else vis x y,
                pq := rest, pops := pops ++ [(t, r, c)], rngIdx := idx }
              (neighborsList ℚ)).rngIdx
          rw [show (castState (List.foldl (relaxOne cfgQ t r c)
              { tmap := tm, visited := fun x y => if x = r ∧ y = c then true else vis x y,
                pq := rest, pops := pops ++ [(t, r, c)], rngIdx := idx }
              (neighborsList ℚ))).rngIdx =
            (List.foldl (relaxOne cfgQ t r c)
              { tmap := tm, visited := fun x y => if x = r ∧ y = c then true else vis x y,
                pq := rest, pops := pops ++ [(t, r, c)], rngIdx := idx }
              (neighborsList ℚ)).rngIdx from rfl, hsp]
          cases hres : cfgQ.spot t r c
            (List.foldl (relaxOne cfgQ t r c)
              { tmap := tm, visited := fun x y => if x = r ∧ y = c then true else vis x y,
                pq := rest, pops := pops ++ [(t, r, c)], rngIdx := idx }
              (neighborsList ℚ)).rngIdx with
          | mk res j =>
            cases res with
            | crash => rfl
            | skip => rfl
            | cand st sr sc =>
              show some (Sum.inl (pushCand cfgR
                  (castState { List.foldl (relaxOne cfgQ t r c)
                    (SimState.mk tm (fun x y => if x = r ∧ y = c then true else vis x y)
                      rest (pops ++ [(t, r, c)]) idx) (neighborsList ℚ) with rngIdx := j })
                  ((st : ℚ) : ℝ) sr sc)) = _
              rw [pushCand_cast h _ st sr sc]
              rfl
        · have hgR : ¬ (cfgR.fuel r c = 2 ∧ (5 : ℝ) < cfgR.windSpeed) := by
            intro hc
            exact hg ⟨by rw [← h.fuel]; exact hc.1, by
              have := hc.2; rw [h.ws] at this; exact_mod_cast this⟩
          rw [if_neg hgR, if_neg hg]
          rfl

theorem loopSim_cast {cfgQ : LoopCfg ℚ} {cfgR : LoopCfg ℝ} (h : CfgRel cfgQ cfgR)
    (mt : ℚ) : ∀ (n : ℕ) (s : SimState ℚ),
    loopSim cfgR (mt : ℝ) n (castState s) =
      Option.map castState (loopSim cfgQ mt n s) := by
  intro n
  induction n with
  | zero => intro s; rfl
  | succ n ih =>
    intro s
    simp only [loopSim]
    rw [step_cast h mt s]
    cases hst : step cfgQ mt s with
    | none => rfl
    | some d =>
      cases d with
      | inr sF => rfl
      | inl s₁ => exact ih s₁

theorem baseRate_cast (f : FuelTy) : ((baseRate f : ℚ) : ℝ) = baseRate f := by
  unfold baseRate; split_ifs <;> norm_num

theorem windSens_cast (f : FuelTy) : ((windSens f : ℚ) : ℝ) = windSens f := by
  unfold windSens; split_ifs <;> norm_num

theorem neighborsMult_pos {dr dc : ℤ} {mult : ℚ}
    (hnb : (dr, dc, mult) ∈ neighborsList ℚ) : 0 < mult := by
  simp only [neighborsList, List.mem_cons, List.not_mem_nil, or_false, Prod.mk.injEq] at hnb
  rcases hnb with ⟨_, _, rfl⟩ | ⟨_, _, rfl⟩ | ⟨_, _, rfl⟩ | ⟨_, _, rfl⟩ |
    ⟨_, _, rfl⟩ | ⟨_, _, rfl⟩ | ⟨_, _, rfl⟩ | ⟨_, _, rfl⟩ <;> norm_num

theorem travelTime_flat (m : FireModel) (wsQ csQ : ℚ)
    (helev : ∀ r c, m.elevation r c = 0) (hwd : m.wind_dir = 0)
    (hws : m.wind_speed = (wsQ : ℝ)) (hcs : m.cell_size = (csQ : ℝ)) (hcspos : 0 < csQ)
    (r c dr dc : ℤ) (mult : ℚ) (hnb : (dr, dc, mult) ∈ neighborsList ℚ) :
    m.travelTime r c dr dc ((mult : ℝ)) =
      ((ratTravelFlat m.fuel wsQ csQ r c dr dc mult : ℚ) : ℝ) := by
  have hmultpos : (0 : ℚ) < mult := neighborsMult_pos hnb
  have hdist : (0 : ℝ) < (csQ : ℝ) * (mult : ℝ) := by
    have h0 : (0 : ℚ) < csQ * mult := mul_pos hcspos hmultpos
    exact_mod_cast h0
  have hatan : atan2 ((0 : ℝ) - 0) ((csQ : ℝ) * (mult : ℝ)) = 0 := by
    unfold atan2
    rw [if_pos hdist]
    norm_num
  have hclip : clip (Real.exp (kSlope * 0)) (1/10) 8 = (1 : ℝ) := by
    unfold clip
    rw [mul_zero, Real.exp_zero]
    norm_num
  unfold FireModel.travelTime ratTravelFlat
  rw [helev, helev, hwd, hws, hcs]
  dsimp only
  rw [hatan, hclip, Real.cos_zero, Real.sin_zero]
  by_cases hw : (0 : ℚ) < wsQ
  · rw [if_pos (by exact_mod_cast hw : (0 : ℝ) < (wsQ : ℝ)), if_pos hw,
      ← baseRate_cast, ← windSens_cast]
    push_cast
    ring_nf
  · rw [if_neg (by exact_mod_cast hw : ¬ (0 : ℝ) < (wsQ : ℝ)), if_neg hw, ← baseRate_cast]
    push_cast
    ring_nf

theorem spotEvent_flat (m : FireModel) (wsQ : ℚ) (streamQ : ℕ → ℚ)
    (hwd : m.wind_dir = 0) (hws : m.wind_speed = (wsQ : ℝ))
    (hstream : ∀ i, streamQ i < 1/50 → streamQ (i + 2) = 0)
    (t : ℚ) (r c : ℤ) (i : ℕ) :
    m.spotEvent (fun n => ((streamQ n : ℚ) : ℝ)) ((t : ℚ) : ℝ) r c i =
      castSpotPair (ratSpotZero wsQ streamQ t r c i) := by
  unfold FireModel.spotEvent ratSpotZero
  dsimp only
  by_cases hu : streamQ i < 1/50
  · have hu2 : ((streamQ i : ℚ) : ℝ) < 1/50 := by
      rw [show ((1 : ℝ)/50) = ((1/50 : ℚ) : ℝ) by norm_num]
      exact Rat.cast_lt.mpr hu
    rw [if_pos hu2, if_pos hu, hws]
    have hhi : windHalfInt ((wsQ : ℝ)) = windHalfInt wsQ := by
      unfold windHalfInt
      rw [show ((wsQ : ℝ) * (1/2)) = ((wsQ * (1/2) : ℚ) : ℝ) by push_cast; ring,
        truncInt_cast]
    rw [hhi]
    by_cases hcr : windHalfInt wsQ ≤ 2
    · rw [if_pos hcr, if_pos hcr]; rfl
    · rw [if_neg hcr, if_neg hcr, hwd, hstream i hu]
      have hd : spotDistPx (windHalfInt wsQ) ((streamQ (i + 1) : ℝ)) =
          spotDistPx (windHalfInt wsQ) (streamQ (i + 1)) := by
        unfold spotDistPx; rw [Rat.floor_cast]
      rw [hd, Rat.cast_zero, add_zero, Real.cos_zero, Real.sin_zero, one_mul,
        zero_mul, sub_zero]
      rw [show ((r : ℝ) + ((spotDistPx (windHalfInt wsQ) (streamQ (i + 1)) : ℤ) : ℝ)) =
        (((r + spotDistPx (windHalfInt wsQ) (streamQ (i + 1)) : ℤ) : ℝ)) by push_cast; ring]
      simp only [truncInt_intCast]
      unfold castSpotPair castSpotRes
      simp only [Prod.mk.injEq, SpotRes.cand.injEq, and_true, true_and]
      push_cast
      ring
  · have hu2 : ¬ ((streamQ i : ℚ) : ℝ) < 1/50 := by
      rw [show ((1 : ℝ)/50) = ((1/50 : ℚ) : ℝ) by norm_num]
      exact fun hlt => hu (Rat.cast_lt.mp hlt)
    rw [if_neg hu2, if_neg hu]
    rfl

theorem cfgRel_flat (m : FireModel) (wsQ csQ : ℚ) (streamQ : ℕ → ℚ)
    (helev : ∀ r c, m.elevation r c = 0) (hwd : m.wind_dir = 0)
    (hws : m.wind_speed = (wsQ : ℝ)) (hcs : m.cell_size = (csQ : ℝ)) (hcspos : 0 < csQ)
    (hstream : ∀ i, streamQ i < 1/50 → streamQ (i + 2) = 0) :
    CfgRel (ratCfgFlat m.rows m.cols m.fuel wsQ csQ streamQ)
      (m.cfg (fun n => ((streamQ n : ℚ) : ℝ))) :=
  { rows := rfl, cols := rfl, fuel := rfl, ws := hws,
    travel := fun r c dr dc mult hnb =>
      travelTime_flat m wsQ csQ helev hwd hws hcs hcspos r c dr dc mult hnb,
    spot := fun t r c i => spotEvent_flat m wsQ streamQ hwd hws hstream t r c i }

theorem initEntries_cast (rows cols : ℕ) (tmQ : ℤ → ℤ → Option ℚ) :
    initEntries rows cols (fun r c => castOpt (tmQ r c)) =
      (initEntries rows cols tmQ).map castE := by
  unfold initEntries
  induction List.range rows with
  | nil => rfl
  | cons x xs ih =>
    rw [List.flatMap_cons, List.flatMap_cons, List.map_append, ih]
    congr 1
    rw [List.map_filterMap]
    apply List.filterMap_congr
    intro c _
    dsimp only [castOpt]
    rw [Option.map_map, Option.map_map]
    rfl

/-- The computable transported form of a flat-terrain, bearing-0 run. -/
def ratRun (rows cols : ℕ) (fuel : ℤ → ℤ → FuelTy) (ws cs : ℚ) (stream : ℕ → ℚ)
    (tm : ℤ → ℤ → Option ℚ) (i : ℕ) (mt : ℚ) : Option (SimState ℚ) :=
  let q := heapify (initEntries rows cols tm)
  loopSim (ratCfgFlat rows cols fuel ws cs stream) mt (loopFuel rows cols q)
    { tmap := tm, visited := fun _ _ => false, pq := q, pops := [], rngIdx := i }

theorem run_simulation_cast (m : FireModel) (wsQ csQ mtQ : ℚ) (streamQ : ℕ → ℚ)
    (tmQ : ℤ → ℤ → Option ℚ)
    (helev : ∀ r c, m.elevation r c = 0) (hwd : m.wind_dir = 0)
    (hws : m.wind_speed = (wsQ : ℝ)) (hcs : m.cell_size = (csQ : ℝ)) (hcspos : 0 < csQ)
    (hstream : ∀ i, streamQ i < 1/50 → streamQ (i + 2) = 0)
    (htm : m.ignition_time = fun r c => castOpt (tmQ r c))
    (i : ℕ) :
    m.run_simulation (fun n => ((streamQ n : ℚ) : ℝ)) i ((mtQ : ℚ) : ℝ) =
      Option.map castState (ratRun m.rows m.cols m.fuel wsQ csQ streamQ tmQ i mtQ) := by
  unfold FireModel.run_simulation ratRun
  dsimp only
  rw [htm, initEntries_cast, heapify_castE]
  rw [show loopFuel m.rows m.cols ((heapify (initEntries m.rows m.cols tmQ)).map castE) =
      loopFuel m.rows m.cols (heapify (initEntries m.rows m.cols tmQ)) by
    unfold loopFuel; rw [List.length_map]]
  rw [show (SimState.mk (fun r c => castOpt (tmQ r c))
      (fun _ _ => false) ((heapify (initEntries m.rows m.cols tmQ)).map castE) [] i) =
      castState (SimState.mk tmQ (fun _ _ => false)
        (heapify (initEntries m.rows m.cols tmQ)) [] i) from rfl]
  exact loopSim_cast (cfgRel_flat m wsQ csQ streamQ helev hwd hws hcs hcspos hstream) mtQ _ _

/-! ### Concrete scenarios

Core `Rat` arithmetic is marked irreducible (it has extern implementations);
re-marking it semireducible lets `decide` evaluate concrete runs. -/

set_option allowUnsafeReducibility true in
attribute [semireducible] Rat.add Rat.sub Rat.mul Rat.inv

/-- The run stream whose draws are all `0`. -/
noncomputable def zeroStream : ℕ → ℝ := fun n => ((((fun _ => 0) : ℕ → ℚ) n : ℚ) : ℝ)

/-- Scenario of the isotropic-baseline test: uniform Forest. -/
def fuelC6 : ℤ → ℤ → FuelTy := fun _ _ => 2

/-- Ignition-time field after seeding `(2, 2)` at time `0`. -/
def tmC6 : ℤ → ℤ → Option ℚ := fun r c => if r = 2 ∧ c = 2 then some 0 else none

/-- The isotropic-baseline model: 5×5, flat, uniform Forest, no wind,
`cell_size = 30`, seeded at `(2, 2)` at time `0` through `ignite`. -/
noncomputable def mC6 : FireModel :=
  (FireModel.init 5 5 (fun _ _ => 0) fuelC6 0 0 30).ignite 2 2 0

theorem mC6_run_eq :
    mC6.run_simulation zeroStream 0 ((1000 : ℚ) : ℝ) =
      Option.map castState (ratRun 5 5 fuelC6 0 30 (fun _ => 0) tmC6 0 1000) := by
  have htm : mC6.ignition_time = fun r c => castOpt (tmC6 r c) := by
    funext r c
    by_cases h : r = 2 ∧ c = 2 <;>
      simp [mC6, FireModel.ignite, FireModel.init, fuelC6, tmC6, castOpt, h]
  exact run_simulation_cast mC6 0 30 1000 (fun _ => 0) tmC6
    (fun _ _ => rfl)
    (zero_mul _)
    (by norm_num [mC6, FireModel.ignite, FireModel.init, fuelC6])
    (by norm_num [mC6, FireModel.ignite, FireModel.init, fuelC6])
    (by norm_num)
    (fun _ _ => rfl)
    htm 0

theorem map_get_eq {A B : Type} (f : A → B) (o : Option A) (h : o.isSome = true) :
    o.map f = some (f (o.get h)) := by
  cases o with
  | none => exact absurd h (by simp)
  | some a => rfl

theorem castOpt_eq_of (o : Option ℚ) (q : ℚ) (x : ℝ) (h : o = some q)
    (hx : (q : ℝ) = x) : castOpt o = some x := by
  rw [h, ← hx]; rfl

theorem castState_tmap_eq (s : SimState ℚ) (a b : ℤ) (q : ℚ) (x : ℝ)
    (h : s.tmap a b = some q) (hx : (q : ℝ) = x) :
    (castState s).tmap a b = some x := castOpt_eq_of _ q x h hx

/-- The transported isotropic-baseline run. -/
def runC6Q : Option (SimState ℚ) := ratRun 5 5 fuelC6 0 30 (fun _ => 0) tmC6 0 1000

theorem runC6Q_isSome : runC6Q.isSome = true := by decide

theorem mC6_run_some :
    mC6.run_simulation zeroStream 0 ((1000 : ℚ) : ℝ) =
      some (castState (runC6Q.get runC6Q_isSome)) := by
  rw [mC6_run_eq]
  exact map_get_eq castState runC6Q runC6Q_isSome

theorem c6_tmap_facts :
    [(runC6Q.get runC6Q_isSome).tmap 2 2, (runC6Q.get runC6Q_isSome).tmap 1 2,
     (runC6Q.get runC6Q_isSome).tmap 3 2, (runC6Q.get runC6Q_isSome).tmap 2 1,
     (runC6Q.get runC6Q_isSome).tmap 2 3, (runC6Q.get runC6Q_isSome).tmap 1 1,
     (runC6Q.get runC6Q_isSome).tmap 1 3, (runC6Q.get runC6Q_isSome).tmap 3 1,
     (runC6Q.get runC6Q_isSome).tmap 3 3] =
      [some 0, some 60, some 60, some 60, some 60,
       some (2121/25), some (2121/25), some (2121/25), some (2121/25)] := by
  decide

theorem c6_visited_facts :
    [(runC6Q.get runC6Q_isSome).visited 1 2, (runC6Q.get runC6Q_isSome).visited 3 2,
     (runC6Q.get runC6Q_isSome).visited 2 1, (runC6Q.get runC6Q_isSome).visited 2 3,
     (runC6Q.get runC6Q_isSome).visited 1 1, (runC6Q.get runC6Q_isSome).visited 1 3,
     (runC6Q.get runC6Q_isSome).visited 3 1, (runC6Q.get runC6Q_isSome).visited 3 3] =
      [true, true, true, true, true, true, true, true] := by
  decide

/-- C6, as stated: the part of the claim giving the diagonal settling time as
`30·√2/0.5` is false on the code: the code's diagonal distance multiplier is
the literal `1.414`, so the diagonal neighbour `(1, 1)` settles at exactly
`30·1.414/0.5 = 84.84`, which is not `30·√2/0.5 ≈ 84.85`. -/
theorem claim_c6_counterexample :
    ∃ out, mC6.run_simulation zeroStream 0 ((1000 : ℚ) : ℝ) = some out ∧
      out.tmap 1 1 = some ((2121 : ℝ)/25) ∧
      (2121 : ℝ)/25 ≠ 30 * Real.sqrt 2 / (1/2) := by
  refine ⟨castState (runC6Q.get runC6Q_isSome), mC6_run_some, ?_, ?_⟩
  · exact castOpt_eq_of _ (2121/25) ((2121 : ℝ)/25)
      (by simpa using congrArg (fun l => l.get? 5) c6_tmap_facts) (by norm_num)
  · intro h
    have h60 : (60 : ℝ) * Real.sqrt 2 = 2121/25 := by rw [h]; ring
    have hs : Real.sqrt 2 = 2121/1500 := by linarith
    have h2 : Real.sqrt 2 ^ 2 = 2 := Real.sq_sqrt (by norm_num)
    rw [hs] at h2
    norm_num at h2

/-- C6, amended: with `windSpeed = 0`, flat elevation, uniform Forest fuel,
`cellSize = 30` and a single seed at `(2,2)` at time 0 on a 5×5 grid, the run
settles each orthogonal neighbour of the seed at time `30/0.5 = 60` minutes
and each diagonal neighbour at time `30·1.414/0.5 = 84.84` minutes exactly
(the code uses the literal `1.414` as diagonal multiplier, not `√2`). -/
theorem claim_c6 :
    ∃ out, mC6.run_simulation zeroStream 0 ((1000 : ℚ) : ℝ) = some out ∧
      out.tmap 2 2 = some 0 ∧
      (∀ p ∈ ([(1, 2), (3, 2), (2, 1), (2, 3)] : List (ℤ × ℤ)),
        out.tmap p.1 p.2 = some 60 ∧ out.visited p.1 p.2 = true) ∧
      (∀ p ∈ ([(1, 1), (1, 3), (3, 1), (3, 3)] : List (ℤ × ℤ)),
        out.tmap p.1 p.2 = some ((2121 : ℝ)/25) ∧ out.visited p.1 p.2 = true) := by
  refine ⟨castState (runC6Q.get runC6Q_isSome), mC6_run_some, ?_, ?_, ?_⟩
  · exact castOpt_eq_of _ 0 0
      (by simpa using congrArg (fun l => l.get? 0) c6_tmap_facts) (by norm_num)
  · intro p hp
    simp only [List.mem_cons, List.not_mem_nil, or_false] at hp
    rcases hp with rfl | rfl | rfl | rfl
    · exact ⟨castState_tmap_eq _ _ _ 60 60
        (by simpa using congrArg (fun l => l.get? 1) c6_tmap_facts) (by norm_num),
        by simpa using congrArg (fun l => l.get? 0) c6_visited_facts⟩
    · exact ⟨castState_tmap_eq _ _ _ 60 60
        (by simpa using congrArg (fun l => l.get? 2) c6_tmap_facts) (by norm_num),
        by simpa using congrArg (fun l => l.get? 1) c6_visited_facts⟩
    · exact ⟨castState_tmap_eq _ _ _ 60 60
        (by simpa using congrArg (fun l => l.get? 3) c6_tmap_facts) (by norm_num),
        by simpa using congrArg (fun l => l.get? 2) c6_visited_facts⟩
    · exact ⟨castState_tmap_eq _ _ _ 60 60
        (by simpa using congrArg (fun l => l.get? 4) c6_tmap_facts) (by norm_num),
        by simpa using congrArg (fun l => l.get? 3) c6_visited_facts⟩
  · intro p hp
    simp only [List.mem_cons, List.not_mem_nil, or_false] at hp
    rcases hp with rfl | rfl | rfl | rfl
    · exact ⟨castState_tmap_eq _ _ _ (2121/25) ((2121 : ℝ)/25)
        (by simpa using congrArg (fun l => l.get? 5) c6_tmap_facts) (by norm_num),
        by simpa using congrArg (fun l => l.get? 4) c6_visited_facts⟩
    · exact ⟨castState_tmap_eq _ _ _ (2121/25) ((2121 : ℝ)/25)
        (by simpa using congrArg (fun l => l.get? 6) c6_tmap_facts) (by norm_num),
        by simpa using congrArg (fun l => l.get? 5) c6_visited_facts⟩
    · exact ⟨castState_tmap_eq _ _ _ (2121/25) ((2121 : ℝ)/25)
        (by simpa using congrArg (fun l => l.get? 7) c6_tmap_facts) (by norm_num),
        by simpa using congrArg (fun l => l.get? 6) c6_visited_facts⟩
    · exact ⟨castState_tmap_eq _ _ _ (2121/25) ((2121 : ℝ)/25)
        (by simpa using congrArg (fun l => l.get? 8) c6_tmap_facts) (by norm_num),
        by simpa using congrArg (fun l => l.get? 7) c6_visited_facts⟩

/-! ### C2: ignite semantics -/

/-- A 1×1 Urban model for exercising `ignite`. -/
noncomputable def mC2 : FireModel :=
  FireModel.init 1 1 (fun _ _ => 0) (fun _ _ => 0) 0 0 30

/-- C2, as stated: `ignite` does not take a minimum.  Igniting the same cell
first at time 5 and then at time 10 leaves the cell at 10, although
`min(current, startTime) = min(5, 10) = 5`. -/
theorem claim_c2_counterexample :
    ((mC2.ignite 0 0 5).ignite 0 0 10).ignition_time 0 0 = some 10 ∧
      (10 : ℝ) ≠ min 5 10 := by
  constructor
  · norm_num [mC2, FireModel.ignite, FireModel.init]
  · norm_num

/-- C2, amended: for every call `ignite(row, col, startTime)`, if the target
cell is in-bounds and its fuel type is not Water the cell's candidate ignition
time becomes `startTime` (an unconditional overwrite, not a minimum);
otherwise the call is a silent no-op leaving the model unchanged. -/
theorem claim_c2 (m : FireModel) (r c : ℤ) (t : ℝ) :
    (((0 ≤ r ∧ r < (m.rows : ℤ) ∧ 0 ≤ c ∧ c < (m.cols : ℤ)) ∧ m.fuel r c ≠ 3) →
      (m.ignite r c t).ignition_time =
        fun x y => if x = r ∧ y = c then some t else m.ignition_time x y) ∧
    (¬ ((0 ≤ r ∧ r < (m.rows : ℤ) ∧ 0 ≤ c ∧ c < (m.cols : ℤ)) ∧ m.fuel r c ≠ 3) →
      m.ignite r c t = m) := by
  constructor
  · intro h
    unfold FireModel.ignite
    rw [if_pos h]
  · intro h
    unfold FireModel.ignite
    rw [if_neg h]

theorem claim_c2_witness :
    (mC2.ignite 0 0 5).ignition_time =
      (fun x y => if x = 0 ∧ y = 0 then some (5 : ℝ) else mC2.ignition_time x y) ∧
    mC2.ignite 1 0 5 = mC2 := by
  constructor
  · exact (claim_c2 mC2 0 0 5).1 (by norm_num [mC2, FireModel.init])
  · exact (claim_c2 mC2 1 0 5).2 (by norm_num [mC2, FireModel.init])

/-! ### C4: the randint crash window -/

/-- Uniform Forest fuel. -/
def fuelForest : ℤ → ℤ → FuelTy := fun _ _ => 2

/-- A single seed at `(0, 0)` at time `0`. -/
def tmSeed00 : ℤ → ℤ → Option ℚ := fun r c => if r = 0 ∧ c = 0 then some 0 else none

/-- The crash witness model: 1×1 Forest, `wind_speed = 5.5`, seeded at the
origin. -/
noncomputable def mC4 : FireModel :=
  (FireModel.init 1 1 (fun _ _ => 0) fuelForest (((11 : ℚ)/2 : ℚ) : ℝ) 0 30).ignite 0 0 0

/-- The transported crash run. -/
def runC4Q : Option (SimState ℚ) := ratRun 1 1 fuelForest (11/2) 30 (fun _ => 0) tmSeed00 0 1000

theorem mC4_run_eq :
    mC4.run_simulation zeroStream 0 ((1000 : ℚ) : ℝ) = Option.map castState runC4Q := by
  have htm : mC4.ignition_time = fun r c => castOpt (tmSeed00 r c) := by
    funext r c
    by_cases h : r = 0 ∧ c = 0 <;>
      simp [mC4, FireModel.ignite, FireModel.init, fuelForest, tmSeed00, castOpt, h]
  exact run_simulation_cast mC4 (11/2) 30 1000 (fun _ => 0) tmSeed00
    (fun _ _ => rfl)
    (zero_mul _)
    (by norm_num [mC4, FireModel.ignite, FireModel.init, fuelForest])
    (by norm_num [mC4, FireModel.ignite, FireModel.init, fuelForest])
    (by norm_num)
    (fun _ _ => rfl)
    htm 0

/-- C4 is wrong about the code: with the well-formed construction input
`wind_speed = 5.5` (a 1×1 Forest grid, flat, `cell_size = 30`) and a seed
placed by `ignite`, `run_simulation` raises `ValueError`: the settled Forest
cell with `wind_speed > 5` passes the 2% Bernoulli draw and then calls
`np.random.randint(2, int(5.5·0.5)) = np.random.randint(2, 2)`, which is an
empty range.  The run returns the crash outcome instead of a field. -/
theorem claim_c4 :
    mC4.run_simulation zeroStream 0 ((1000 : ℚ) : ℝ) = none := by
  rw [mC4_run_eq]
  rw [Option.isNone_iff_eq_none.mp (show runC4Q.isNone = true from by decide)]
  rfl

/-! ### C3: horizon truncation -/

/-- Uniform Grass fuel. -/
def fuelGrass : ℤ → ℤ → FuelTy := fun _ _ => 1

/-- The horizon-truncation counterexample model: 1×2 Grass, no wind, seeded at
`(0, 0)`. -/
noncomputable def mC3 : FireModel :=
  (FireModel.init 1 2 (fun _ _ => 0) fuelGrass 0 0 30).ignite 0 0 0

/-- The transported truncation run. -/
def runC3Q : Option (SimState ℚ) := ratRun 1 2 fuelGrass 0 30 (fun _ => 0) tmSeed00 0 0

theorem mC3_run_eq :
    mC3.run_simulation zeroStream 0 ((0 : ℚ) : ℝ) = Option.map castState runC3Q := by
  have htm : mC3.ignition_time = fun r c => castOpt (tmSeed00 r c) := by
    funext r c
    by_cases h : r = 0 ∧ c = 0 <;>
      simp [mC3, FireModel.ignite, FireModel.init, fuelGrass, tmSeed00, castOpt, h]
  exact run_simulation_cast mC3 0 30 0 (fun _ => 0) tmSeed00
    (fun _ _ => rfl)
    (zero_mul _)
    (by norm_num [mC3, FireModel.ignite, FireModel.init, fuelGrass])
    (by norm_num [mC3, FireModel.ignite, FireModel.init, fuelGrass])
    (by norm_num)
    (fun _ _ => rfl)
    htm 0

theorem runC3Q_isSome : runC3Q.isSome = true := by decide

theorem mC3_run_some :
    mC3.run_simulation zeroStream 0 ((0 : ℚ) : ℝ) =
      some (castState (runC3Q.get runC3Q_isSome)) := by
  rw [mC3_run_eq]
  exact map_get_eq castState runC3Q runC3Q_isSome

/-- C3, as stated: false on the code.  With a single seed at `(0, 0)` at time
0 on a 1×2 Grass grid, `run(maxTime = 0)` settles the seed but also writes the
finite candidate time `20` into the non-seeded neighbour `(0, 1)` while
relaxing the seed's neighbours, so the returned field does not keep that cell
at "never". -/
theorem claim_c3_counterexample :
    ∃ out, mC3.run_simulation zeroStream 0 ((0 : ℚ) : ℝ) = some out ∧
      out.visited 0 1 = false ∧ out.tmap 0 1 = some 20 := by
  refine ⟨castState (runC3Q.get runC3Q_isSome), mC3_run_some, ?_, ?_⟩
  · show (runC3Q.get runC3Q_isSome).visited 0 1 = false
    decide
  · exact castState_tmap_eq _ _ _ 20 20 (by decide) (by norm_num)

/-! ### C1: global randomness across runs -/

/-- Fuel column of the randomness scenario: Forest at row 0, Grass at row 4,
Urban in between. -/
def fuelC1 : ℤ → ℤ → FuelTy := fun r _ => if r = 0 then 2 else if r = 4 then 1 else 0

/-- Draw results of the process-global generator in the randomness scenario:
even positions (Bernoulli draws when consumed by the only Forest cell) are 0,
odd positions are `3/2` up to position 3 and `1/2` afterwards (so the first
spot throws distance 4, a later one would throw distance 3). -/
def streamC1Q : ℕ → ℚ := fun n => if n % 2 = 1 then (if n ≤ 3 then 3/2 else 1/2) else 0

/-- The real-valued view of the global stream. -/
noncomputable def streamC1 : ℕ → ℝ := fun n => ((streamC1Q n : ℚ) : ℝ)

theorem streamC1Q_spec : ∀ i, streamC1Q i < 1/50 → streamC1Q (i + 2) = 0 := by
  intro i h
  unfold streamC1Q at h ⊢
  by_cases hp : i % 2 = 1
  · rw [if_pos hp] at h
    split_ifs at h <;> norm_num at h
  · have hp2 : ¬ (i + 2) % 2 = 1 := by omega
    rw [if_neg hp2]

/-- The randomness-scenario model: 5×1, Forest seed cell over Urban cells with
Grass at the far end, `wind_speed = 10` blowing from the North (towards
increasing row), seeded at `(0, 0)`. -/
noncomputable def mC1 : FireModel :=
  (FireModel.init 5 1 (fun _ _ => 0) fuelC1 (((10 : ℚ) : ℚ) : ℝ) 0 30).ignite 0 0 0

theorem mC1_run_eq (i : ℕ) :
    mC1.run_simulation streamC1 i ((1000 : ℚ) : ℝ) =
      Option.map castState (ratRun 5 1 fuelC1 10 30 streamC1Q tmSeed00 i 1000) := by
  have htm : mC1.ignition_time = fun r c => castOpt (tmSeed00 r c) := by
    funext r c
    by_cases h : r = 0 ∧ c = 0 <;>
      simp [mC1, FireModel.ignite, FireModel.init, fuelC1, tmSeed00, castOpt, h]
  exact run_simulation_cast mC1 10 30 1000 streamC1Q tmSeed00
    (fun _ _ => rfl)
    (zero_mul _)
    (by norm_num [mC1, FireModel.ignite, FireModel.init, fuelC1])
    (by norm_num [mC1, FireModel.ignite, FireModel.init, fuelC1])
    (by norm_num)
    streamC1Q_spec
    htm i

/-- First run of the randomness scenario, transported. -/
def runC1aQ : Option (SimState ℚ) := ratRun 5 1 fuelC1 10 30 streamC1Q tmSeed00 0 1000

/-- Second run of the randomness scenario (the global cursor starts where the
first run left it), transported. -/
def runC1bQ : Option (SimState ℚ) := ratRun 5 1 fuelC1 10 30 streamC1Q tmSeed00 4 1000

theorem runC1aQ_isSome : runC1aQ.isSome = true := by decide

theorem runC1bQ_isSome : runC1bQ.isSome = true := by decide

/-- C1, as stated: false on the code.  The Ember-Spotting randomness is the
process-global `np.random` source; `FireModel.__init__` accepts no generator.
Two runs of identically-constructed models therefore read successive portions
of one shared stream: the first run below ends with the global cursor at 4,
and the second identical run, starting at that cursor, misses the Bernoulli
success and produces a different Ignition-Time Field at cell `(4, 0)`. -/
theorem claim_c1_counterexample :
    ∃ out1 out2, mC1.run_simulation streamC1 0 ((1000 : ℚ) : ℝ) = some out1 ∧
      out1.rngIdx = 4 ∧
      mC1.run_simulation streamC1 4 ((1000 : ℚ) : ℝ) = some out2 ∧
      out1.tmap 4 0 ≠ out2.tmap 4 0 := by
  refine ⟨castState (runC1aQ.get runC1aQ_isSome), castState (runC1bQ.get runC1bQ_isSome),
    ?_, ?_, ?_, ?_⟩
  · rw [mC1_run_eq 0]
    exact map_get_eq castState runC1aQ runC1aQ_isSome
  · show (runC1aQ.get runC1aQ_isSome).rngIdx = 4
    decide
  · rw [mC1_run_eq 4]
    exact map_get_eq castState runC1bQ runC1bQ_isSome
  · have h1 : (castState (runC1aQ.get runC1aQ_isSome)).tmap 4 0 = some (40 : ℝ) :=
      castState_tmap_eq _ _ _ 40 40 (by decide) (by norm_num)
    have h2 : (castState (runC1bQ.get runC1bQ_isSome)).tmap 4 0 = some ((4240 : ℝ)/7) :=
      castState_tmap_eq _ _ _ (4240/7) ((4240 : ℝ)/7) (by decide) (by norm_num)
    rw [h1, h2]
    intro h
    have h3 : (40 : ℝ) = 4240/7 := Option.some.inj h
    norm_num at h3

/-! ### C8: water barriers and ember spotting -/

/-- Chebyshev (8-neighbour) adjacency of two distinct cells. -/
def Adj (p q : ℤ × ℤ) : Prop := p ≠ q ∧ |p.1 - q.1| ≤ 1 ∧ |p.2 - q.2| ≤ 1

/-- A cell usable on a water-free path: in-bounds and not Water. -/
def goodCell (m : FireModel) (p : ℤ × ℤ) : Prop :=
  0 ≤ p.1 ∧ p.1 < (m.rows : ℤ) ∧ 0 ≤ p.2 ∧ p.2 < (m.cols : ℤ) ∧ m.fuel p.1 p.2 ≠ 3

/-- Existence of an 8-connected path of in-bounds, non-Water cells. -/
inductive ReachW (good : ℤ × ℤ → Prop) : ℤ × ℤ → ℤ × ℤ → Prop
  | refl (p : ℤ × ℤ) : good p → ReachW good p p
  | tail (p q r : ℤ × ℤ) : ReachW good p q → Adj q r → good r → ReachW good p r

/-- Fuel column of the barrier scenario: Forest at row 0, Water at row 1,
Grass beyond. -/
def fuelC8 : ℤ → ℤ → FuelTy := fun r _ => if r = 0 then 2 else if r = 1 then 3 else 1

/-- The barrier scenario: 5×1 with a Water wall at row 1, `wind_speed = 10`
from the North, seeded at `(0, 0)`. -/
noncomputable def mC8 : FireModel :=
  (FireModel.init 5 1 (fun _ _ => 0) fuelC8 (((10 : ℚ) : ℚ) : ℝ) 0 30).ignite 0 0 0

/-- The transported barrier run. -/
def runC8Q : Option (SimState ℚ) := ratRun 5 1 fuelC8 10 30 streamC1Q tmSeed00 0 1000

theorem mC8_run_eq :
    mC8.run_simulation streamC1 0 ((1000 : ℚ) : ℝ) = Option.map castState runC8Q := by
  have htm : mC8.ignition_time = fun r c => castOpt (tmSeed00 r c) := by
    funext r c
    by_cases h : r = 0 ∧ c = 0 <;>
      simp [mC8, FireModel.ignite, FireModel.init, fuelC8, tmSeed00, castOpt, h]
  exact run_simulation_cast mC8 10 30 1000 streamC1Q tmSeed00
    (fun _ _ => rfl)
    (zero_mul _)
    (by norm_num [mC8, FireModel.ignite, FireModel.init, fuelC8])
    (by norm_num [mC8, FireModel.ignite, FireModel.init, fuelC8])
    (by norm_num)
    streamC1Q_spec
    htm 0

theorem runC8Q_isSome : runC8Q.isSome = true := by decide

theorem mC8_reach_only_origin :
    ∀ q, ReachW (goodCell mC8) (0, 0) q → q = (0, 0) := by
  intro q h
  induction h with
  | refl _ => rfl
  | tail q r hpq hadj hgood ih =>
    subst ih
    exfalso
    obtain ⟨hne, hr1, hc1⟩ := hadj
    obtain ⟨hb1, hb2, hb3, hb4, hf⟩ := hgood
    have hb2' : r.1 < 5 := by
      have h5 : (mC8.rows : ℤ) = 5 := rfl
      rw [h5] at hb2; exact hb2
    have hb4' : r.2 < 1 := by
      have h1 : (mC8.cols : ℤ) = 1 := rfl
      rw [h1] at hb4; exact hb4
    have hr1' : -1 ≤ (0 : ℤ) - r.1 ∧ (0 : ℤ) - r.1 ≤ 1 := abs_le.mp hr1
    have hc0 : r.2 = 0 := by
      have hc1' : -1 ≤ (0 : ℤ) - r.2 ∧ (0 : ℤ) - r.2 ≤ 1 := abs_le.mp hc1
      omega
    have hr0 : r.1 = 0 ∨ r.1 = 1 := by omega
    rcases hr0 with h0 | h0
    · refine hne ?_
      rw [Prod.ext_iff]
      exact ⟨h0.symm, hc0.symm⟩
    · apply hf
      show fuelC8 r.1 r.2 = 3
      rw [h0]
      rfl

/-- C8, as stated: false on the code.  In the barrier scenario every
8-connected in-bounds water-free path from the only seed `(0, 0)` stays at
`(0, 0)` (the Water cell `(1, 0)` fills the single column), yet the run
assigns the blocked cell `(4, 0)` the finite time 40: the Ember-Spotting
Process jumps the Water wall. -/
theorem claim_c8_counterexample :
    ∃ out, mC8.run_simulation streamC1 0 ((1000 : ℚ) : ℝ) = some out ∧
      (∀ r c, mC8.ignition_time r c ≠ none → r = 0 ∧ c = 0) ∧
      ¬ ReachW (goodCell mC8) (0, 0) (4, 0) ∧
      out.tmap 4 0 = some 40 := by
  refine ⟨castState (runC8Q.get runC8Q_isSome), ?_, ?_, ?_, ?_⟩
  · rw [mC8_run_eq]
    exact map_get_eq castState runC8Q runC8Q_isSome
  · intro r c h
    by_cases hrc : r = 0 ∧ c = 0
    · exact hrc
    · exfalso
      exact h (by simp [mC8, FireModel.ignite, FireModel.init, fuelC8, hrc])
  · intro h
    have := mC8_reach_only_origin _ h
    exact absurd this (by decide)
  · exact castState_tmap_eq _ _ _ 40 40 (by decide) (by norm_num)

/-! ### C5: the spotting-distance sample -/

theorem windHalfInt_ten : windHalfInt ((10 : ℝ)) = 5 := by
  unfold windHalfInt truncInt
  rw [if_neg (by norm_num)]
  norm_num

/-- C5, as stated: false on the code.  At `windSpeed = 10` the claimed support
of the spotting distance is `{2, ..., floor(10·0.5)+1} = {2, ..., 6}`, but the
code computes `randint(2, int(windSpeed·0.5)) + 1`, whose support is
`{3, 4, 5}`: the distance 2 (and 6) is unattainable, while the draw `0` gives
distance 3. -/
theorem claim_c5_counterexample :
    windHalfInt ((10 : ℝ)) = 5 ∧
    (¬ ∃ v : ℝ, spotDistPx (windHalfInt ((10 : ℝ))) v = 2) ∧
    (¬ ∃ v : ℝ, spotDistPx (windHalfInt ((10 : ℝ))) v = 6) ∧
    spotDistPx (windHalfInt ((10 : ℝ))) ((0 : ℝ)) = 3 := by
  refine ⟨windHalfInt_ten, ?_, ?_, ?_⟩
  · rintro ⟨v, hv⟩
    rw [windHalfInt_ten] at hv
    unfold spotDistPx at hv
    have h0 : 0 ≤ ⌊v⌋ % (5 - 2) := Int.emod_nonneg _ (by norm_num)
    have h1 : ⌊v⌋ % (5 - 2) < 3 := Int.emod_lt_of_pos _ (by norm_num)
    omega
  · rintro ⟨v, hv⟩
    rw [windHalfInt_ten] at hv
    unfold spotDistPx at hv
    have h0 : 0 ≤ ⌊v⌋ % (5 - 2) := Int.emod_nonneg _ (by norm_num)
    have h1 : ⌊v⌋ % (5 - 2) < 3 := Int.emod_lt_of_pos _ (by norm_num)
    omega
  · rw [windHalfInt_ten]
    unfold spotDistPx
    norm_num [Int.floor_zero]

/-- C5, amended: when the Ember-Spotting Process fires and
`int(windSpeed·0.5) > 2` (otherwise the draw raises, see C4), the sampled
distance is `randint(2, int(windSpeed·0.5)) + 1`: it equals `3` plus the
uniform randint residue, lies in `{3, ..., int(windSpeed·0.5)}` and attains
every value of that range; the claimed range `{2, ..., int(windSpeed·0.5)+1}`
is shifted down by one from the code's. -/
theorem claim_c5 (ws : ℝ) (v : ℝ) (hws : 5 < ws) (hhi : 2 < windHalfInt ws) :
    spotDistPx (windHalfInt ws) v = 3 + ⌊v⌋ % (windHalfInt ws - 2) ∧
    3 ≤ spotDistPx (windHalfInt ws) v ∧
    spotDistPx (windHalfInt ws) v ≤ windHalfInt ws ∧
    ∀ d : ℤ, 3 ≤ d → d ≤ windHalfInt ws → ∃ w : ℝ, spotDistPx (windHalfInt ws) w = d := by
  have h0 : 0 ≤ ⌊v⌋ % (windHalfInt ws - 2) := Int.emod_nonneg _ (by omega)
  have h1 : ⌊v⌋ % (windHalfInt ws - 2) < windHalfInt ws - 2 :=
    Int.emod_lt_of_pos _ (by omega)
  refine ⟨by unfold spotDistPx; ring, by unfold spotDistPx; omega,
    by unfold spotDistPx; omega, ?_⟩
  intro d hd3 hdhi
  refine ⟨((d - 3 : ℤ) : ℝ), ?_⟩
  unfold spotDistPx
  rw [Int.floor_intCast]
  rw [Int.emod_eq_of_lt (by omega) (by omega)]
  ring

theorem claim_c5_witness :
    (5 : ℝ) < 10 ∧ 2 < windHalfInt ((10 : ℝ)) ∧
    spotDistPx (windHalfInt ((10 : ℝ))) ((7 : ℝ)/2) =
      3 + ⌊((7 : ℝ)/2)⌋ % (windHalfInt ((10 : ℝ)) - 2) := by
  refine ⟨by norm_num, by rw [windHalfInt_ten]; norm_num, ?_⟩
  exact (claim_c5 10 ((7 : ℝ)/2) (by norm_num)
    (by rw [windHalfInt_ten]; norm_num)).1

/-! ### Generic facts about the scheduler loop -/

theorem leE_total {K : Type} [LinearOrder K] :
    ∀ a b : K × ℤ × ℤ, leE a b ∨ leE b a := by
  intro a b
  unfold leE
  rcases lt_trichotomy a.1 b.1 with h | h | h
  · exact Or.inl (Or.inl h)
  · rcases lt_trichotomy a.2.1 b.2.1 with h2 | h2 | h2
    · exact Or.inl (Or.inr ⟨h, Or.inl h2⟩)
    · rcases le_total a.2.2 b.2.2 with h3 | h3
      · exact Or.inl (Or.inr ⟨h, Or.inr ⟨h2, h3⟩⟩)
      · exact Or.inr (Or.inr ⟨h.symm, Or.inr ⟨h2.symm, h3⟩⟩)
    · exact Or.inr (Or.inr ⟨h.symm, Or.inl h2⟩)
  · exact Or.inr (Or.inl h)

instance {K : Type} [LinearOrder K] : IsTotal (K × ℤ × ℤ) leE := ⟨leE_total⟩

theorem leE_trans {K : Type} [LinearOrder K] :
    ∀ a b c : K × ℤ × ℤ, leE a b → leE b c → leE a c := by
  intro a b c hab hbc
  unfold leE at hab hbc ⊢
  rcases hab with h1 | ⟨h1, h1x⟩ <;> rcases hbc with h2 | ⟨h2, h2x⟩
  · exact Or.inl (h1.trans h2)
  · exact Or.inl (h2 ▸ h1)
  · exact Or.inl (h1 ▸ h2)
  · refine Or.inr ⟨h1.trans h2, ?_⟩
    rcases h1x with g1 | ⟨g1, g1x⟩ <;> rcases h2x with g2 | ⟨g2, g2x⟩
    · exact Or.inl (g1.trans g2)
    · exact Or.inl (g2 ▸ g1)
    · exact Or.inl (g1 ▸ g2)
    · exact Or.inr ⟨g1.trans g2, g1x.trans g2x⟩

instance {K : Type} [LinearOrder K] : IsTrans (K × ℤ × ℤ) leE := ⟨leE_trans⟩

theorem leE_of_time_lt {K : Type} [LinearOrder K] {a b : K × ℤ × ℤ} (h : a.1 < b.1) :
    leE a b := Or.inl h

theorem leE_refl {K : Type} [LinearOrder K] (a : K × ℤ × ℤ) : leE a a :=
  Or.inr ⟨rfl, Or.inr ⟨rfl, le_refl _⟩⟩

/-- State after the `heappop` of `(t, r, c)`. -/
def popState {K : Type} (s : SimState K) (t : K) (r c : ℤ)
    (rest : List (K × ℤ × ℤ)) : SimState K :=
  { s with pq := rest, pops := s.pops ++ [(t, r, c)] }

/-- State after additionally marking `(r, c)` visited. -/
def settleState {K : Type} (s : SimState K) (t : K) (r c : ℤ)
    (rest : List (K × ℤ × ℤ)) : SimState K :=
  { popState s t r c rest with
    visited := fun x y => if x = r ∧ y = c then true else s.visited x y }

/-- State after additionally relaxing all 8 neighbours. -/
def relaxedState {K : Type} [LinearOrderedField K] (cfg : LoopCfg K) (s : SimState K)
    (t : K) (r c : ℤ) (rest : List (K × ℤ × ℤ)) : SimState K :=
  (neighborsList K).foldl (relaxOne cfg t r c) (settleState s t r c rest)

theorem step_eq_empty {K : Type} [LinearOrderedField K] (cfg : LoopCfg K) (mt : K)
    (s : SimState K) (hpq : s.pq = []) : step cfg mt s = some (Sum.inr s) := by
  obtain ⟨tm, vis, pq, pops, idx⟩ := s
  subst hpq
  rfl

theorem step_eq_break {K : Type} [LinearOrderedField K] (cfg : LoopCfg K) (mt : K)
    (s : SimState K) (t : K) (r c : ℤ) (rest : List (K × ℤ × ℤ))
    (hpq : s.pq = (t, r, c) :: rest) (hmt : mt < t) :
    step cfg mt s = some (Sum.inr (popState s t r c rest)) := by
  obtain ⟨tm, vis, pq, pops, idx⟩ := s
  subst hpq
  unfold step
  dsimp only
  rw [if_pos hmt]
  rfl

theorem step_eq_stale {K : Type} [LinearOrderedField K] (cfg : LoopCfg K) (mt : K)
    (s : SimState K) (t : K) (r c : ℤ) (rest : List (K × ℤ × ℤ))
    (hpq : s.pq = (t, r, c) :: rest) (hmt : ¬ mt < t) (hv : s.visited r c = true) :
    step cfg mt s = some (Sum.inl (popState s t r c rest)) := by
  obtain ⟨tm, vis, pq, pops, idx⟩ := s
  subst hpq
  unfold step
  dsimp only
  rw [if_neg hmt, if_pos hv]
  rfl

theorem step_eq_settle {K : Type} [LinearOrderedField K] (cfg : LoopCfg K) (mt : K)
    (s : SimState K) (t : K) (r c : ℤ) (rest : List (K × ℤ × ℤ))
    (hpq : s.pq = (t, r, c) :: rest) (hmt : ¬ mt < t) (hv : s.visited r c = false) :
    step cfg mt s =
      (if cfg.fuel r c = 2 ∧ (5 : K) < cfg.windSpeed then
        match cfg.spot t r c (relaxedState cfg s t r c rest).rngIdx with
        | (SpotRes.crash, _) => none
        | (SpotRes.skip, j) =>
            some (Sum.inl { relaxedState cfg s t r c rest with rngIdx := j })
        | (SpotRes.cand st sr sc, j) =>
            some (Sum.inl (pushCand cfg
              { relaxedState cfg s t r c rest with rngIdx := j } st sr sc))
      else some (Sum.inl (relaxedState cfg s t r c rest))) := by
  obtain ⟨tm, vis, pq, pops, idx⟩ := s
  subst hpq
  unfold step
  dsimp only
  rw [if_neg hmt, if_neg (show ¬ vis r c = true by
    simp [show vis r c = false from hv])]
  rfl

/-- Exhaustive description of one loop iteration. -/
theorem step_spec {K : Type} [LinearOrderedField K] (cfg : LoopCfg K) (mt : K)
    (s : SimState K) :
    (s.pq = [] ∧ step cfg mt s = some (Sum.inr s)) ∨
    (∃ t r c rest, s.pq = (t, r, c) :: rest ∧
      ((mt < t ∧ step cfg mt s = some (Sum.inr (popState s t r c rest))) ∨
       (¬ mt < t ∧ s.visited r c = true ∧
          step cfg mt s = some (Sum.inl (popState s t r c rest))) ∨
       (¬ mt < t ∧ s.visited r c = false ∧
         ((¬ (cfg.fuel r c = 2 ∧ (5 : K) < cfg.windSpeed) ∧
            step cfg mt s = some (Sum.inl (relaxedState cfg s t r c rest))) ∨
          ((cfg.fuel r c = 2 ∧ (5 : K) < cfg.windSpeed) ∧
            ((∃ j, cfg.spot t r c (relaxedState cfg s t r c rest).rngIdx =
                (SpotRes.crash, j) ∧ step cfg mt s = none) ∨
             (∃ j, cfg.spot t r c (relaxedState cfg s t r c rest).rngIdx =
                (SpotRes.skip, j) ∧
                step cfg mt s =
                  some (Sum.inl { relaxedState cfg s t r c rest with rngIdx := j })) ∨
             (∃ st sr sc j,
                cfg.spot t r c (relaxedState cfg s t r c rest).rngIdx =
                  (SpotRes.cand st sr sc, j) ∧
                step cfg mt s =
                  some (Sum.inl (pushCand cfg
                    { relaxedState cfg s t r c rest with rngIdx := j } st sr sc))))))))) := by
  rcases hpq : s.pq with _ | ⟨⟨t, r, c⟩, rest⟩
  · exact Or.inl ⟨rfl, step_eq_empty cfg mt s hpq⟩
  · refine Or.inr ⟨t, r, c, rest, rfl, ?_⟩
    by_cases hmt : mt < t
    · exact Or.inl ⟨hmt, step_eq_break cfg mt s t r c rest hpq hmt⟩
    · by_cases hv : s.visited r c = true
      · exact Or.inr (Or.inl ⟨hmt, hv, step_eq_stale cfg mt s t r c rest hpq hmt hv⟩)
      · have hv2 : s.visited r c = false := by simpa using hv
        refine Or.inr (Or.inr ⟨hmt, hv2, ?_⟩)
        have hse := step_eq_settle cfg mt s t r c rest hpq hmt hv2
        by_cases hg : cfg.fuel r c = 2 ∧ (5 : K) < cfg.windSpeed
        · rw [if_pos hg] at hse
          refine Or.inr ⟨hg, ?_⟩
          rcases hsp : cfg.spot t r c (relaxedState cfg s t r c rest).rngIdx with ⟨res, j⟩
          rw [hsp] at hse
          cases res with
          | crash => exact Or.inl ⟨j, rfl, hse⟩
          | skip => exact Or.inr (Or.inl ⟨j, rfl, hse⟩)
          | cand st sr sc => exact Or.inr (Or.inr ⟨st, sr, sc, j, rfl, hse⟩)
        · rw [if_neg hg] at hse
          exact Or.inl ⟨hg, hse⟩

theorem loopSim_zero {K : Type} [LinearOrderedField K] (cfg : LoopCfg K) (mt : K)
    (s : SimState K) : loopSim cfg mt 0 s = some s := rfl

theorem loopSim_succ {K : Type} [LinearOrderedField K] (cfg : LoopCfg K) (mt : K)
    (n : ℕ) (s : SimState K) :
    loopSim cfg mt (n + 1) s =
      match step cfg mt s with
      | none => none
      | some (Sum.inr sF) => some sF
      | some (Sum.inl s₁) => loopSim cfg mt n s₁ := rfl

/-- Any property preserved by the two non-crashing step outcomes holds of the
final state of a run. -/
theorem loopSim_inv {K : Type} [LinearOrderedField K] (cfg : LoopCfg K) (mt : K)
    (P : SimState K → Prop)
    (hl : ∀ s s₁, P s → step cfg mt s = some (Sum.inl s₁) → P s₁)
    (hr : ∀ s sF, P s → step cfg mt s = some (Sum.inr sF) → P sF) :
    ∀ n s sF, P s → loopSim cfg mt n s = some sF → P sF := by
  intro n
  induction n with
  | zero =>
    intro s sF hP h
    rw [loopSim_zero] at h
    cases h
    exact hP
  | succ n ih =>
    intro s sF hP h
    rw [loopSim_succ] at h
    cases hst : step cfg mt s with
    | none => rw [hst] at h; cases h
    | some d =>
      cases d with
      | inr sG => rw [hst] at h; cases h; exact hr s sF hP hst
      | inl s₁ => rw [hst] at h; exact ih s₁ sF (hl s s₁ hP hst) h

theorem relaxOne_visited {K : Type} [LinearOrderedField K] (cfg : LoopCfg K) (t : K)
    (r c : ℤ) (s : SimState K) (nb : ℤ × ℤ × K) :
    (relaxOne cfg t r c s nb).visited = s.visited := by
  unfold relaxOne
  dsimp only
  split_ifs <;> rfl

theorem relaxOne_pops {K : Type} [LinearOrderedField K] (cfg : LoopCfg K) (t : K)
    (r c : ℤ) (s : SimState K) (nb : ℤ × ℤ × K) :
    (relaxOne cfg t r c s nb).pops = s.pops := by
  unfold relaxOne
  dsimp only
  split_ifs <;> rfl

theorem relaxOne_rngIdx {K : Type} [LinearOrderedField K] (cfg : LoopCfg K) (t : K)
    (r c : ℤ) (s : SimState K) (nb : ℤ × ℤ × K) :
    (relaxOne cfg t r c s nb).rngIdx = s.rngIdx := by
  unfold relaxOne
  dsimp only
  split_ifs <;> rfl

/-- One neighbour relaxation is a no-op or a guarded update-and-push. -/
theorem relaxOne_cases {K : Type} [LinearOrderedField K] (cfg : LoopCfg K) (t : K)
    (r c : ℤ) (s : SimState K) (nb : ℤ × ℤ × K) :
    relaxOne cfg t r c s nb = s ∨
    (0 ≤ r + nb.1 ∧ r + nb.1 < (cfg.rows : ℤ) ∧ 0 ≤ c + nb.2.1 ∧
     c + nb.2.1 < (cfg.cols : ℤ) ∧
     s.visited (r + nb.1) (c + nb.2.1) = false ∧ cfg.fuel (r + nb.1) (c + nb.2.1) ≠ 3 ∧
     ltOpt (t + cfg.travel r c nb.1 nb.2.1 nb.2.2) (s.tmap (r + nb.1) (c + nb.2.1)) ∧
     relaxOne cfg t r c s nb =
       { s with tmap := (fun x y => if x = r + nb.1 ∧ y = c + nb.2.1
                  then some (t + cfg.travel r c nb.1 nb.2.1 nb.2.2) else s.tmap x y),
                pq := List.orderedInsert leE
                  (t + cfg.travel r c nb.1 nb.2.1 nb.2.2, r + nb.1, c + nb.2.1) s.pq }) := by
  unfold relaxOne
  dsimp only
  by_cases h1 : 0 ≤ r + nb.1 ∧ r + nb.1 < (cfg.rows : ℤ) ∧ 0 ≤ c + nb.2.1 ∧
      c + nb.2.1 < (cfg.cols : ℤ) ∧ s.visited (r + nb.1) (c + nb.2.1) = false
  · rw [if_pos h1]
    by_cases h2 : cfg.fuel (r + nb.1) (c + nb.2.1) = 3
    · rw [if_pos h2]
      exact Or.inl rfl
    · rw [if_neg h2]
      by_cases h3 : ltOpt (t + cfg.travel r c nb.1 nb.2.1 nb.2.2)
          (s.tmap (r + nb.1) (c + nb.2.1))
      · rw [if_pos h3]
        exact Or.inr ⟨h1.1, h1.2.1, h1.2.2.1, h1.2.2.2.1, h1.2.2.2.2, h2, h3, rfl⟩
      · rw [if_neg h3]
        exact Or.inl rfl
  · rw [if_neg h1]
    exact Or.inl rfl

theorem pushCand_visited {K : Type} [LinearOrderedField K] (cfg : LoopCfg K)
    (s : SimState K) (st : K) (sr sc : ℤ) :
    (pushCand cfg s st sr sc).visited = s.visited := by
  unfold pushCand
  split_ifs <;> rfl

theorem pushCand_pops {K : Type} [LinearOrderedField K] (cfg : LoopCfg K)
    (s : SimState K) (st : K) (sr sc : ℤ) :
    (pushCand cfg s st sr sc).pops = s.pops := by
  unfold pushCand
  split_ifs <;> rfl

theorem pushCand_rngIdx {K : Type} [LinearOrderedField K] (cfg : LoopCfg K)
    (s : SimState K) (st : K) (sr sc : ℤ) :
    (pushCand cfg s st sr sc).rngIdx = s.rngIdx := by
  unfold pushCand
  split_ifs <;> rfl

/-- An ember-spot push is a no-op or a guarded update-and-push. -/
theorem pushCand_cases {K : Type} [LinearOrderedField K] (cfg : LoopCfg K)
    (s : SimState K) (st : K) (sr sc : ℤ) :
    pushCand cfg s st sr sc = s ∨
    (0 ≤ sr ∧ sr < (cfg.rows : ℤ) ∧ 0 ≤ sc ∧ sc < (cfg.cols : ℤ) ∧
     (cfg.fuel sr sc = 1 ∨ cfg.fuel sr sc = 2) ∧ ltOpt st (s.tmap sr sc) ∧
     pushCand cfg s st sr sc =
       { s with tmap := (fun x y => if x = sr ∧ y = sc then some st else s.tmap x y),
                pq := List.orderedInsert leE (st, sr, sc) s.pq }) := by
  unfold pushCand
  by_cases h1 : 0 ≤ sr ∧ sr < (cfg.rows : ℤ) ∧ 0 ≤ sc ∧ sc < (cfg.cols : ℤ)
  · rw [if_pos h1]
    by_cases h2 : cfg.fuel sr sc = 1 ∨ cfg.fuel sr sc = 2
    · rw [if_pos h2]
      by_cases h3 : ltOpt st (s.tmap sr sc)
      · rw [if_pos h3]
        exact Or.inr ⟨h1.1, h1.2.1, h1.2.2.1, h1.2.2.2, h2, h3, rfl⟩
      · rw [if_neg h3]
        exact Or.inl rfl
    · rw [if_neg h2]
      exact Or.inl rfl
  · rw [if_neg h1]
    exact Or.inl rfl

/-- Property preservation along the neighbour fold. -/
theorem foldl_relax_ind {K : Type} [LinearOrderedField K] (cfg : LoopCfg K) (t : K)
    (r c : ℤ) (P : SimState K → Prop)
    (hP : ∀ s nb, nb ∈ neighborsList K → P s → P (relaxOne cfg t r c s nb)) :
    ∀ L : List (ℤ × ℤ × K), (∀ nb ∈ L, nb ∈ neighborsList K) →
      ∀ s, P s → P (L.foldl (relaxOne cfg t r c) s) := by
  intro L
  induction L with
  | nil => intro _ s hs; exact hs
  | cons nb L ih =>
    intro hmem s hs
    exact ih (fun x hx => hmem x (List.mem_cons_of_mem _ hx)) _
      (hP s nb (hmem nb (List.mem_cons_self _ _)) hs)

theorem foldl_relax_visited {K : Type} [LinearOrderedField K] (cfg : LoopCfg K) (t : K)
    (r c : ℤ) : ∀ (L : List (ℤ × ℤ × K)) (s : SimState K),
    ((L.foldl (relaxOne cfg t r c) s).visited) = s.visited := by
  intro L
  induction L with
  | nil => intro s; rfl
  | cons nb L ih =>
    intro s
    rw [List.foldl_cons, ih, relaxOne_visited]

theorem foldl_relax_pops {K : Type} [LinearOrderedField K] (cfg : LoopCfg K) (t : K)
    (r c : ℤ) : ∀ (L : List (ℤ × ℤ × K)) (s : SimState K),
    ((L.foldl (relaxOne cfg t r c) s).pops) = s.pops := by
  intro L
  induction L with
  | nil => intro s; rfl
  | cons nb L ih =>
    intro s
    rw [List.foldl_cons, ih, relaxOne_pops]

theorem foldl_relax_rngIdx {K : Type} [LinearOrderedField K] (cfg : LoopCfg K) (t : K)
    (r c : ℤ) : ∀ (L : List (ℤ × ℤ × K)) (s : SimState K),
    ((L.foldl (relaxOne cfg t r c) s).rngIdx) = s.rngIdx := by
  intro L
  induction L with
  | nil => intro s; rfl
  | cons nb L ih =>
    intro s
    rw [List.foldl_cons, ih, relaxOne_rngIdx]

/-! ### C7 and C10: pop order

Every entry pushed while settling a cell popped at time `t` carries a time
strictly above `t` (travel times to non-Water neighbours are positive, ember
flight times are at least 10 minutes), so the invariant that the pop trace
followed by the queue is `leE`-sorted is preserved by every iteration. -/

/-- Positivity conditions on a scheduler configuration: travel to a non-Water
neighbour takes positive time, and an ember candidate lands strictly after
the settlement that threw it. -/
structure CfgPos {K : Type} [LinearOrderedField K] (cfg : LoopCfg K) : Prop where
  travel_pos : ∀ (r c : ℤ) (nb : ℤ × ℤ × K), nb ∈ neighborsList K →
    cfg.fuel (r + nb.1) (c + nb.2.1) ≠ 3 → 0 < cfg.travel r c nb.1 nb.2.1 nb.2.2
  spot_gt : ∀ (t : K) (r c : ℤ) (i : ℕ) (st : K) (sr sc : ℤ) (j : ℕ),
    cfg.spot t r c i = (SpotRes.cand st sr sc, j) → t < st

theorem foldl_orderedInsert_sorted {K : Type} [LinearOrder K]
    (l : List (K × ℤ × ℤ)) : ∀ q : List (K × ℤ × ℤ), List.Sorted leE q →
      List.Sorted leE (l.foldl (fun q e => List.orderedInsert leE e q) q) := by
  induction l with
  | nil => intro q hq; exact hq
  | cons e l ih =>
    intro q hq
    rw [List.foldl_cons]
    exact ih _ (List.Sorted.orderedInsert e q hq)

theorem heapify_sorted {K : Type} [LinearOrder K] (l : List (K × ℤ × ℤ)) :
    List.Sorted leE (heapify l) :=
  foldl_orderedInsert_sorted l [] List.sorted_nil

theorem pairwise_pop {K : Type} [LinearOrder K] {s : SimState K} {t : K} {r c : ℤ}
    {rest : List (K × ℤ × ℤ)} (hpq : s.pq = (t, r, c) :: rest)
    (h : List.Pairwise leE (s.pops ++ s.pq)) :
    List.Pairwise leE ((popState s t r c rest).pops ++ (popState s t r c rest).pq) := by
  unfold popState
  dsimp only
  rw [List.append_assoc, List.singleton_append, ← hpq]
  exact h

/-- Inserting an entry `leE`-above the whole pop trace preserves sortedness of
trace-plus-queue. -/
theorem pairwise_insert_above {K : Type} [LinearOrder K]
    {pops pq : List (K × ℤ × ℤ)} {p e : K × ℤ × ℤ}
    (h : List.Pairwise leE (pops ++ pq)) (hlast : ∀ x ∈ pops, leE x p)
    (hpe : leE p e) :
    List.Pairwise leE (pops ++ List.orderedInsert leE e pq) := by
  rw [List.pairwise_append] at h ⊢
  obtain ⟨h1, h2, h3⟩ := h
  refine ⟨h1, List.Sorted.orderedInsert e pq h2, ?_⟩
  intro a ha b hb
  rcases (List.mem_orderedInsert leE).mp hb with rfl | hb
  · exact leE_trans _ _ _ (hlast a ha) hpe
  · exact h3 a ha b hb

theorem relax_fold_pairwise {K : Type} [LinearOrderedField K] {cfg : LoopCfg K}
    (hpos : CfgPos cfg) (t : K) (r c : ℤ) :
    ∀ L : List (ℤ × ℤ × K), (∀ nb ∈ L, nb ∈ neighborsList K) →
      ∀ s : SimState K,
        List.Pairwise leE (s.pops ++ s.pq) → (∀ x ∈ s.pops, leE x (t, r, c)) →
        List.Pairwise leE ((L.foldl (relaxOne cfg t r c) s).pops ++
            (L.foldl (relaxOne cfg t r c) s).pq) ∧
          ∀ x ∈ (L.foldl (relaxOne cfg t r c) s).pops, leE x (t, r, c) := by
  intro L
  induction L with
  | nil => intro _ s h1 h2; exact ⟨h1, h2⟩
  | cons nb L ih =>
    intro hmem s h1 h2
    rw [List.foldl_cons]
    have hone : List.Pairwise leE ((relaxOne cfg t r c s nb).pops ++
          (relaxOne cfg t r c s nb).pq) ∧
        ∀ x ∈ (relaxOne cfg t r c s nb).pops, leE x (t, r, c) := by
      rcases relaxOne_cases cfg t r c s nb with heq | ⟨_, _, _, _, _, hf, _, heq⟩
      · rw [heq]; exact ⟨h1, h2⟩
      · rw [heq]
        have htr : (0 : K) < cfg.travel r c nb.1 nb.2.1 nb.2.2 :=
          hpos.travel_pos r c nb (hmem nb (List.mem_cons_self _ _)) hf
        exact ⟨pairwise_insert_above h1 h2
          (leE_of_time_lt (lt_add_of_pos_right t htr)), h2⟩
    exact ih (fun x hx => hmem x (List.mem_cons_of_mem _ hx)) _ hone.1 hone.2

theorem step_pairwise {K : Type} [LinearOrderedField K] {cfg : LoopCfg K}
    (hpos : CfgPos cfg) (mt : K) (s : SimState K)
    (h : List.Pairwise leE (s.pops ++ s.pq)) :
    ∀ d : SimState K ⊕ SimState K, step cfg mt s = some d →
      List.Pairwise leE ((Sum.elim id id d).pops ++ (Sum.elim id id d).pq) := by
  intro d hd
  rcases step_spec cfg mt s with ⟨hpq, he⟩ | ⟨t, r, c, rest, hpq, hc⟩
  · rw [he] at hd
    injection hd with hd
    subst hd
    exact h
  · rcases hc with ⟨hmt, he⟩ | ⟨hmt, hv, he⟩ | ⟨hmt, hv, hrest⟩
    · rw [he] at hd
      injection hd with hd
      subst hd
      exact pairwise_pop hpq h
    · rw [he] at hd
      injection hd with hd
      subst hd
      exact pairwise_pop hpq h
    · have hset1 : List.Pairwise leE ((settleState s t r c rest).pops ++
          (settleState s t r c rest).pq) := pairwise_pop hpq h
      have hx : ∀ x ∈ (settleState s t r c rest).pops, leE x (t, r, c) := by
        intro x hx
        rcases List.mem_append.mp hx with hx | hx
        · exact (List.pairwise_append.mp h).2.2 x hx (t, r, c)
            (by rw [hpq]; exact List.mem_cons_self _ _)
        · rcases List.mem_singleton.mp hx with rfl
          exact leE_refl _
      have hfold := relax_fold_pairwise hpos t r c (neighborsList K)
        (fun _ hx => hx) (settleState s t r c rest) hset1 hx
      rcases hrest with ⟨hg, he⟩ | ⟨hg, hsp⟩
      · rw [he] at hd
        injection hd with hd
        subst hd
        exact hfold.1
      · rcases hsp with ⟨j, hspeq, he⟩ | ⟨j, hspeq, he⟩ | ⟨st, sr, sc, j, hspeq, he⟩
        · rw [he] at hd
          exact Option.noConfusion hd
        · rw [he] at hd
          injection hd with hd
          subst hd
          exact hfold.1
        · rw [he] at hd
          injection hd with hd
          subst hd
          have hst : t < st := hpos.spot_gt t r c _ st sr sc j hspeq
          rcases pushCand_cases cfg
              { relaxedState cfg s t r c rest with rngIdx := j } st sr sc with
            heq | ⟨_, _, _, _, _, _, heq⟩
          · rw [heq]; exact hfold.1
          · rw [heq]
            exact pairwise_insert_above hfold.1 hfold.2 (leE_of_time_lt hst)

theorem baseRate_pos {K : Type} [LinearOrderedField K] {f : FuelTy} (hf : f ≠ 3) :
    0 < (baseRate f : K) := by
  unfold baseRate
  split_ifs <;> norm_num

theorem travelTime_pos (m : FireModel) (hcs : 0 < m.cell_size)
    (r c dr dc : ℤ) (mult : ℝ) (hmult : 0 < mult)
    (hf : m.fuel (r + dr) (c + dc) ≠ 3) :
    0 < m.travelTime r c dr dc mult := by
  unfold FireModel.travelTime
  dsimp only
  apply div_pos (mul_pos hcs hmult)
  apply mul_pos (mul_pos (baseRate_pos hf) ?_) ?_
  · unfold clip
    exact lt_max_of_lt_left (by norm_num)
  · split_ifs
    · exact lt_max_of_lt_left (by norm_num)
    · norm_num

theorem neighborsMult_pos_real {dr dc : ℤ} {mult : ℝ}
    (hnb : (dr, dc, mult) ∈ neighborsList ℝ) : 0 < mult := by
  simp only [neighborsList, List.mem_cons, List.not_mem_nil, or_false,
    Prod.mk.injEq] at hnb
  rcases hnb with ⟨_, _, rfl⟩ | ⟨_, _, rfl⟩ | ⟨_, _, rfl⟩ | ⟨_, _, rfl⟩ |
    ⟨_, _, rfl⟩ | ⟨_, _, rfl⟩ | ⟨_, _, rfl⟩ | ⟨_, _, rfl⟩ <;> norm_num

theorem spotEvent_gt (m : FireModel) (stream : ℕ → ℝ)
    (hstream : ∀ n, 0 < 10 + stream n * 20)
    (t : ℝ) (r c : ℤ) (i : ℕ) (st : ℝ) (sr sc : ℤ) (j : ℕ)
    (h : m.spotEvent stream t r c i = (SpotRes.cand st sr sc, j)) : t < st := by
  unfold FireModel.spotEvent at h
  dsimp only at h
  split_ifs at h with h1 h2
  · exact absurd h (by simp)
  · simp only [Prod.mk.injEq, SpotRes.cand.injEq] at h
    obtain ⟨⟨hst, -, -⟩, -⟩ := h
    rw [← hst]
    have := hstream (i + 3)
    linarith
  · exact absurd h (by simp)

/-- The real model satisfies the positivity conditions whenever the cell size
is positive and every modelled flight-time draw `10 + 20·v` is positive (true
of every `np.random.random()` output, whose range is `[0, 1)`). -/
theorem cfgPos_real (m : FireModel) (stream : ℕ → ℝ) (hcs : 0 < m.cell_size)
    (hstream : ∀ n, 0 < 10 + stream n * 20) : CfgPos (m.cfg stream) := by
  constructor
  · intro r c nb hnb hf
    obtain ⟨dr, dc, mult⟩ := nb
    exact travelTime_pos m hcs r c dr dc mult (neighborsMult_pos_real hnb) hf
  · intro t r c i st sr sc j hsp
    exact spotEvent_gt m stream hstream t r c i st sr sc j hsp

/-- The pop trace of a completed run, followed by the leftover queue, is
`leE`-sorted. -/
theorem run_pops_pairwise (m : FireModel) (stream : ℕ → ℝ) (i : ℕ) (mt : ℝ)
    (hcs : 0 < m.cell_size) (hstream : ∀ n, 0 < 10 + stream n * 20) (s : SimState ℝ)
    (h : m.run_simulation stream i mt = some s) :
    List.Pairwise leE (s.pops ++ s.pq) := by
  have hpos := cfgPos_real m stream hcs hstream
  unfold FireModel.run_simulation at h
  dsimp only at h
  refine loopSim_inv (m.cfg stream) mt
    (fun x => List.Pairwise leE (x.pops ++ x.pq))
    (fun x x₁ hP hst => step_pairwise hpos mt x hP (Sum.inl x₁) hst)
    (fun x xF hP hst => step_pairwise hpos mt x hP (Sum.inr xF) hst)
    _ _ s ?_ h
  simpa using heapify_sorted (initEntries m.rows m.cols m.ignition_time)

/-- C7: for every completed run of `run_simulation` (positive cell size, every
modelled flight-time draw `10 + 20·v` positive, as holds for all
`np.random.random()` outputs), the sequence of event times popped from the
priority queue — ember-spotting pushes included — is non-decreasing. -/
theorem claim_c7 (m : FireModel) (stream : ℕ → ℝ) (i : ℕ) (mt : ℝ)
    (hcs : 0 < m.cell_size) (hstream : ∀ n, 0 < 10 + stream n * 20) (s : SimState ℝ)
    (h : m.run_simulation stream i mt = some s) :
    List.Chain' (· ≤ ·) (s.pops.map Prod.fst) := by
  have hp : List.Pairwise leE s.pops :=
    (List.pairwise_append.mp (run_pops_pairwise m stream i mt hcs hstream s h)).1
  rw [List.chain'_map]
  exact (hp.imp (fun hab => hab.elim le_of_lt (fun hx => le_of_eq hx.1))).chain'

theorem claim_c7_witness :
    List.Chain' (· ≤ ·)
      (((castState (runC6Q.get runC6Q_isSome)).pops).map Prod.fst) :=
  claim_c7 mC6 zeroStream 0 ((1000 : ℚ) : ℝ)
    (by norm_num [mC6, FireModel.ignite, FireModel.init, fuelC6])
    (fun n => by norm_num [zeroStream])
    _ mC6_run_some

/-- C10: the scheduler pops equal-time events in ascending row order and, for
equal rows, in ascending column order: the pop trace of every completed run is
sorted in the lexicographic `(time, row, col)` order `leE` used by the heap. -/
theorem claim_c10 (m : FireModel) (stream : ℕ → ℝ) (i : ℕ) (mt : ℝ)
    (hcs : 0 < m.cell_size) (hstream : ∀ n, 0 < 10 + stream n * 20) (s : SimState ℝ)
    (h : m.run_simulation stream i mt = some s) :
    List.Pairwise leE s.pops :=
  (List.pairwise_append.mp (run_pops_pairwise m stream i mt hcs hstream s h)).1

theorem claim_c10_witness :
    List.Pairwise leE (castState (runC6Q.get runC6Q_isSome)).pops :=
  claim_c10 mC6 zeroStream 0 ((1000 : ℚ) : ℝ)
    (by norm_num [mC6, FireModel.ignite, FireModel.init, fuelC6])
    (fun n => by norm_num [zeroStream])
    _ mC6_run_some

/-! ### C9: no randomness without strong wind, and C1: stream determinism

When `wind_speed ≤ 5` the ember-spotting guard `fuel == 2 and wind_speed > 5`
is never true, so the loop never consults the random source and never moves
the rng cursor; the run is a function of the non-random inputs alone.  More
generally, a run only reads the global stream from its starting cursor
onwards, and the cursor never moves backwards. -/

/-- Overwrite the rng cursor of a state. -/
def setIdx {K : Type} (s : SimState K) (k : ℕ) : SimState K := { s with rngIdx := k }

theorem relaxOne_setIdx_congr {K : Type} [LinearOrderedField K] {cfg cfg' : LoopCfg K}
    (hrows : cfg'.rows = cfg.rows) (hcols : cfg'.cols = cfg.cols)
    (hfuel : cfg'.fuel = cfg.fuel) (htravel : cfg'.travel = cfg.travel)
    (t : K) (r c : ℤ) (s : SimState K) (k : ℕ) (nb : ℤ × ℤ × K) :
    relaxOne cfg' t r c (setIdx s k) nb = setIdx (relaxOne cfg t r c s nb) k := by
  obtain ⟨rows₁, cols₁, fuel₁, ws₁, travel₁, spot₁⟩ := cfg
  obtain ⟨rows₂, cols₂, fuel₂, ws₂, travel₂, spot₂⟩ := cfg'
  dsimp only at hrows hcols hfuel htravel
  subst hrows hcols hfuel htravel
  unfold relaxOne setIdx
  dsimp only
  split_ifs <;> rfl

theorem foldl_relax_setIdx_congr {K : Type} [LinearOrderedField K]
    {cfg cfg' : LoopCfg K}
    (hrows : cfg'.rows = cfg.rows) (hcols : cfg'.cols = cfg.cols)
    (hfuel : cfg'.fuel = cfg.fuel) (htravel : cfg'.travel = cfg.travel)
    (t : K) (r c : ℤ) :
    ∀ (L : List (ℤ × ℤ × K)) (s : SimState K) (k : ℕ),
      L.foldl (relaxOne cfg' t r c) (setIdx s k) =
        setIdx (L.foldl (relaxOne cfg t r c) s) k := by
  intro L
  induction L with
  | nil => intro s k; rfl
  | cons nb L ih =>
    intro s k
    rw [List.foldl_cons, List.foldl_cons,
      relaxOne_setIdx_congr hrows hcols hfuel htravel t r c s k nb]
    exact ih _ k

theorem step_guardFalse_congr {K : Type} [LinearOrderedField K] {cfg cfg' : LoopCfg K}
    (hrows : cfg'.rows = cfg.rows) (hcols : cfg'.cols = cfg.cols)
    (hfuel : cfg'.fuel = cfg.fuel) (htravel : cfg'.travel = cfg.travel)
    (hws : cfg'.windSpeed = cfg.windSpeed) (hns : ¬ (5 : K) < cfg.windSpeed)
    (mt : K) (s : SimState K) (k : ℕ) :
    step cfg' mt (setIdx s k) =
      (step cfg mt s).map
        (Sum.map (fun x => setIdx x k) (fun x => setIdx x k)) := by
  rcases hpq : s.pq with _ | ⟨⟨t, r, c⟩, rest⟩
  · rw [step_eq_empty cfg' mt (setIdx s k) hpq, step_eq_empty cfg mt s hpq]
    rfl
  · by_cases hmt : mt < t
    · rw [step_eq_break cfg' mt (setIdx s k) t r c rest hpq hmt,
        step_eq_break cfg mt s t r c rest hpq hmt]
      rfl
    · by_cases hv : s.visited r c = true
      · rw [step_eq_stale cfg' mt (setIdx s k) t r c rest hpq hmt hv,
          step_eq_stale cfg mt s t r c rest hpq hmt hv]
        rfl
      · have hv2 : s.visited r c = false := by simpa using hv
        rw [step_eq_settle cfg' mt (setIdx s k) t r c rest hpq hmt hv2,
          step_eq_settle cfg mt s t r c rest hpq hmt hv2,
          if_neg (fun hgc : cfg'.fuel r c = 2 ∧ (5 : K) < cfg'.windSpeed =>
            hns (hws ▸ hgc.2)),
          if_neg (fun hgc : cfg.fuel r c = 2 ∧ (5 : K) < cfg.windSpeed =>
            hns hgc.2)]
        have hrel : relaxedState cfg' (setIdx s k) t r c rest =
            setIdx (relaxedState cfg s t r c rest) k := by
          unfold relaxedState
          rw [show settleState (setIdx s k) t r c rest =
            setIdx (settleState s t r c rest) k from rfl]
          exact foldl_relax_setIdx_congr hrows hcols hfuel htravel t r c
            (neighborsList K) _ k
        rw [hrel]
        rfl

theorem loopSim_guardFalse_congr {K : Type} [LinearOrderedField K]
    {cfg cfg' : LoopCfg K}
    (hrows : cfg'.rows = cfg.rows) (hcols : cfg'.cols = cfg.cols)
    (hfuel : cfg'.fuel = cfg.fuel) (htravel : cfg'.travel = cfg.travel)
    (hws : cfg'.windSpeed = cfg.windSpeed) (hns : ¬ (5 : K) < cfg.windSpeed)
    (mt : K) :
    ∀ (n : ℕ) (s : SimState K) (k : ℕ),
      loopSim cfg' mt n (setIdx s k) =
        (loopSim cfg mt n s).map (fun x => setIdx x k) := by
  intro n
  induction n with
  | zero => intro s k; rfl
  | succ n ih =>
    intro s k
    rw [loopSim_succ, loopSim_succ,
      step_guardFalse_congr hrows hcols hfuel htravel hws hns mt s k]
    cases hst : step cfg mt s with
    | none => rfl
    | some d =>
      cases d with
      | inr sF => rfl
      | inl s₁ => exact ih s₁ k

theorem step_guardFalse_ne_none {K : Type} [LinearOrderedField K] {cfg : LoopCfg K}
    (hns : ¬ (5 : K) < cfg.windSpeed) (mt : K) (s : SimState K) :
    step cfg mt s ≠ none := by
  rcases step_spec cfg mt s with ⟨_, he⟩ | ⟨t, r, c, rest, hpq, hc⟩
  · rw [he]; simp
  · rcases hc with ⟨_, he⟩ | ⟨_, _, he⟩ | ⟨_, _, hrest⟩
    · rw [he]; simp
    · rw [he]; simp
    · rcases hrest with ⟨_, he⟩ | ⟨hg, _⟩
      · rw [he]; simp
      · exact absurd hg.2 hns

theorem loopSim_guardFalse_isSome {K : Type} [LinearOrderedField K] {cfg : LoopCfg K}
    (hns : ¬ (5 : K) < cfg.windSpeed) (mt : K) :
    ∀ (n : ℕ) (s : SimState K), (loopSim cfg mt n s).isSome = true := by
  intro n
  induction n with
  | zero => intro s; rfl
  | succ n ih =>
    intro s
    rw [loopSim_succ]
    cases hst : step cfg mt s with
    | none => exact absurd hst (step_guardFalse_ne_none hns mt s)
    | some d =>
      cases d with
      | inr sF => rfl
      | inl s₁ => exact ih s₁

/-- C9: when `windSpeed ≤ 5` the ember-spotting guard never fires, so a run
consumes no randomness — the returned state's rng cursor is the starting
cursor — and two runs on identical non-random inputs return identical
ignition-time fields, visited sets, queues and pop traces, whatever their
random streams and starting cursors. -/
theorem claim_c9 (m : FireModel) (hws : m.wind_speed ≤ 5)
    (stream1 stream2 : ℕ → ℝ) (i1 i2 : ℕ) (mt : ℝ) :
    ∃ s1 s2 : SimState ℝ,
      m.run_simulation stream1 i1 mt = some s1 ∧
      m.run_simulation stream2 i2 mt = some s2 ∧
      s1.rngIdx = i1 ∧ s2.rngIdx = i2 ∧ s1.tmap = s2.tmap ∧
      s1.visited = s2.visited ∧ s1.pq = s2.pq ∧ s1.pops = s2.pops := by
  have hns : ¬ (5 : ℝ) < (m.cfg stream1).windSpeed := not_lt.mpr hws
  obtain ⟨s1, hs1⟩ := Option.isSome_iff_exists.mp
    (loopSim_guardFalse_isSome hns mt
      (loopFuel m.rows m.cols (heapify (initEntries m.rows m.cols m.ignition_time)))
      ⟨m.ignition_time, fun _ _ => false,
        heapify (initEntries m.rows m.cols m.ignition_time), [], i1⟩)
  have hrun1 : m.run_simulation stream1 i1 mt = some s1 := hs1
  have h21 := @loopSim_guardFalse_congr ℝ _ (m.cfg stream1) (m.cfg stream2)
    rfl rfl rfl rfl rfl hns mt
    (loopFuel m.rows m.cols (heapify (initEntries m.rows m.cols m.ignition_time)))
    ⟨m.ignition_time, fun _ _ => false,
      heapify (initEntries m.rows m.cols m.ignition_time), [], i1⟩ i2
  have hrun2 : m.run_simulation stream2 i2 mt = some (setIdx s1 i2) := by
    show loopSim (m.cfg stream2) mt _ _ = _
    rw [show (⟨m.ignition_time, fun _ _ => false,
        heapify (initEntries m.rows m.cols m.ignition_time), [], i2⟩ : SimState ℝ) =
      setIdx ⟨m.ignition_time, fun _ _ => false,
        heapify (initEntries m.rows m.cols m.ignition_time), [], i1⟩ i2 from rfl]
    rw [h21, hs1]
    rfl
  have h11 := @loopSim_guardFalse_congr ℝ _ (m.cfg stream1) (m.cfg stream1)
    rfl rfl rfl rfl rfl hns mt
    (loopFuel m.rows m.cols (heapify (initEntries m.rows m.cols m.ignition_time)))
    ⟨m.ignition_time, fun _ _ => false,
      heapify (initEntries m.rows m.cols m.ignition_time), [], i1⟩ i1
  have hidx1 : s1.rngIdx = i1 := by
    rw [show setIdx ⟨m.ignition_time, fun _ _ => false,
        heapify (initEntries m.rows m.cols m.ignition_time), [], i1⟩ i1 =
      (⟨m.ignition_time, fun _ _ => false,
        heapify (initEntries m.rows m.cols m.ignition_time), [], i1⟩ : SimState ℝ)
      from rfl, hs1] at h11
    have := Option.some.inj h11
    exact congrArg SimState.rngIdx this
  exact ⟨s1, setIdx s1 i2, hrun1, hrun2, hidx1, rfl, rfl, rfl, rfl, rfl⟩

theorem claim_c9_witness :
    ∃ s1 s2 : SimState ℝ,
      mC3.run_simulation zeroStream 0 0 = some s1 ∧
      mC3.run_simulation (fun _ => (1 : ℝ)) 7 0 = some s2 ∧
      s1.rngIdx = 0 ∧ s2.rngIdx = 7 ∧ s1.tmap = s2.tmap ∧
      s1.visited = s2.visited ∧ s1.pq = s2.pq ∧ s1.pops = s2.pops :=
  claim_c9 mC3
    (by norm_num [mC3, FireModel.ignite, FireModel.init, fuelGrass])
    zeroStream (fun _ => (1 : ℝ)) 0 7 0

theorem spotEvent_congr (m : FireModel) (st1 st2 : ℕ → ℝ) (t : ℝ) (r c : ℤ) (i : ℕ)
    (h : ∀ j, i ≤ j → st1 j = st2 j) :
    m.spotEvent st1 t r c i = m.spotEvent st2 t r c i := by
  unfold FireModel.spotEvent
  rw [h i le_rfl, h (i + 1) (by omega), h (i + 2) (by omega), h (i + 3) (by omega)]

theorem spotEvent_idx_ge (m : FireModel) (stream : ℕ → ℝ) (t : ℝ) (r c : ℤ) (i : ℕ)
    (res : SpotRes ℝ) (j : ℕ) (h : m.spotEvent stream t r c i = (res, j)) :
    i ≤ j := by
  unfold FireModel.spotEvent at h
  dsimp only at h
  split_ifs at h <;> simp only [Prod.mk.injEq] at h <;> omega

theorem pushCand_cfg_congr {K : Type} [LinearOrderedField K] {cfg cfg' : LoopCfg K}
    (hrows : cfg'.rows = cfg.rows) (hcols : cfg'.cols = cfg.cols)
    (hfuel : cfg'.fuel = cfg.fuel) (s : SimState K) (st : K) (sr sc : ℤ) :
    pushCand cfg' s st sr sc = pushCand cfg s st sr sc := by
  obtain ⟨rows₁, cols₁, fuel₁, ws₁, travel₁, spot₁⟩ := cfg
  obtain ⟨rows₂, cols₂, fuel₂, ws₂, travel₂, spot₂⟩ := cfg'
  dsimp only at hrows hcols hfuel
  subst hrows hcols hfuel
  rfl

theorem relaxedState_rngIdx {K : Type} [LinearOrderedField K] (cfg : LoopCfg K)
    (s : SimState K) (t : K) (r c : ℤ) (rest : List (K × ℤ × ℤ)) :
    (relaxedState cfg s t r c rest).rngIdx = s.rngIdx := by
  unfold relaxedState
  rw [foldl_relax_rngIdx]
  rfl

theorem relaxedState_cfg_congr (m : FireModel) (st1 st2 : ℕ → ℝ) (s : SimState ℝ)
    (t : ℝ) (r c : ℤ) (rest : List (ℝ × ℤ × ℤ)) :
    relaxedState (m.cfg st2) s t r c rest = relaxedState (m.cfg st1) s t r c rest := by
  have h1 := @foldl_relax_setIdx_congr ℝ _ (m.cfg st1) (m.cfg st2)
    rfl rfl rfl rfl t r c (neighborsList ℝ) (settleState s t r c rest) s.rngIdx
  rw [show setIdx (settleState s t r c rest) s.rngIdx =
    settleState s t r c rest from rfl] at h1
  show (neighborsList ℝ).foldl (relaxOne (m.cfg st2) t r c) (settleState s t r c rest) =
    (neighborsList ℝ).foldl (relaxOne (m.cfg st1) t r c) (settleState s t r c rest)
  rw [h1, show s.rngIdx = ((neighborsList ℝ).foldl (relaxOne (m.cfg st1) t r c)
      (settleState s t r c rest)).rngIdx from
    (foldl_relax_rngIdx (m.cfg st1) t r c (neighborsList ℝ)
      (settleState s t r c rest)).symm]
  rfl

theorem step_stream_congr (m : FireModel) (st1 st2 : ℕ → ℝ) (mt : ℝ) (s : SimState ℝ)
    (hagree : ∀ j, s.rngIdx ≤ j → st1 j = st2 j) :
    step (m.cfg st2) mt s = step (m.cfg st1) mt s := by
  rcases hpq : s.pq with _ | ⟨⟨t, r, c⟩, rest⟩
  · rw [step_eq_empty _ mt s hpq, step_eq_empty _ mt s hpq]
  · by_cases hmt : mt < t
    · rw [step_eq_break _ mt s t r c rest hpq hmt,
        step_eq_break _ mt s t r c rest hpq hmt]
    · by_cases hv : s.visited r c = true
      · rw [step_eq_stale _ mt s t r c rest hpq hmt hv,
          step_eq_stale _ mt s t r c rest hpq hmt hv]
      · have hv2 : s.visited r c = false := by simpa using hv
        rw [step_eq_settle _ mt s t r c rest hpq hmt hv2,
          step_eq_settle _ mt s t r c rest hpq hmt hv2,
          relaxedState_cfg_congr m st1 st2 s t r c rest]
        by_cases hg : (m.cfg st1).fuel r c = 2 ∧ (5 : ℝ) < (m.cfg st1).windSpeed
        · have hg2 : (m.cfg st2).fuel r c = 2 ∧ (5 : ℝ) < (m.cfg st2).windSpeed := hg
          rw [if_pos hg2, if_pos hg]
          have hidx : (relaxedState (m.cfg st1) s t r c rest).rngIdx = s.rngIdx :=
            relaxedState_rngIdx (m.cfg st1) s t r c rest
          have hsp : (m.cfg st2).spot t r c
                ((relaxedState (m.cfg st1) s t r c rest).rngIdx) =
              (m.cfg st1).spot t r c
                ((relaxedState (m.cfg st1) s t r c rest).rngIdx) :=
            (spotEvent_congr m st1 st2 t r c _
              (fun j hj => hagree j (hidx ▸ hj))).symm
          rw [hsp]
          rcases hspr : (m.cfg st1).spot t r c
              ((relaxedState (m.cfg st1) s t r c rest).rngIdx) with ⟨res, j⟩
          cases res with
          | crash => rfl
          | skip => rfl
          | cand cst csr csc =>
            dsimp only
            rw [@pushCand_cfg_congr ℝ _ (m.cfg st1) (m.cfg st2) rfl rfl rfl]
        · have hg2 : ¬ ((m.cfg st2).fuel r c = 2 ∧ (5 : ℝ) < (m.cfg st2).windSpeed) := hg
          rw [if_neg hg2, if_neg hg]

theorem step_rngIdx_ge {K : Type} [LinearOrderedField K] (cfg : LoopCfg K)
    (hspot : ∀ (t : K) (r c : ℤ) (i : ℕ) (res : SpotRes K) (j : ℕ),
      cfg.spot t r c i = (res, j) → i ≤ j)
    (mt : K) (s : SimState K) :
    ∀ d, step cfg mt s = some d → s.rngIdx ≤ (Sum.elim id id d).rngIdx := by
  intro d hd
  rcases step_spec cfg mt s with ⟨hpq, he⟩ | ⟨t, r, c, rest, hpq, hc⟩
  · rw [he] at hd
    injection hd with hd
    subst hd
    exact le_refl _
  · rcases hc with ⟨hmt, he⟩ | ⟨hmt, hv, he⟩ | ⟨hmt, hv, hrest⟩
    · rw [he] at hd; injection hd with hd; subst hd; exact le_refl _
    · rw [he] at hd; injection hd with hd; subst hd; exact le_refl _
    · rcases hrest with ⟨hg, he⟩ | ⟨hg, hsp⟩
      · rw [he] at hd; injection hd with hd; subst hd
        exact le_of_eq (relaxedState_rngIdx cfg s t r c rest).symm
      · rcases hsp with ⟨j, hspeq, he⟩ | ⟨j, hspeq, he⟩ | ⟨cst, csr, csc, j, hspeq, he⟩
        · rw [he] at hd; exact Option.noConfusion hd
        · rw [he] at hd; injection hd with hd; subst hd
          have := hspot t r c _ _ j hspeq
          rw [relaxedState_rngIdx cfg s t r c rest] at this
          exact this
        · rw [he] at hd; injection hd with hd; subst hd
          have h1 := hspot t r c _ _ j hspeq
          rw [relaxedState_rngIdx cfg s t r c rest] at h1
          have h2 : (pushCand cfg
              { relaxedState cfg s t r c rest with rngIdx := j } cst csr csc).rngIdx =
              j := pushCand_rngIdx cfg _ cst csr csc
          exact le_of_le_of_eq h1 h2.symm

theorem loopSim_stream_congr (m : FireModel) (st1 st2 : ℕ → ℝ) (mt : ℝ) :
    ∀ (n : ℕ) (s : SimState ℝ), (∀ j, s.rngIdx ≤ j → st1 j = st2 j) →
      loopSim (m.cfg st2) mt n s = loopSim (m.cfg st1) mt n s := by
  intro n
  induction n with
  | zero => intro s _; rfl
  | succ n ih =>
    intro s hagree
    rw [loopSim_succ, loopSim_succ, step_stream_congr m st1 st2 mt s hagree]
    cases hst : step (m.cfg st1) mt s with
    | none => rfl
    | some d =>
      cases d with
      | inr sF => rfl
      | inl s₁ =>
        have hge := step_rngIdx_ge (m.cfg st1)
          (fun t r c i res j h => spotEvent_idx_ge m st1 t r c i res j h)
          mt s (Sum.inl s₁) hst
        exact ih s₁ (fun j hj => hagree j (le_trans hge hj))

/-- C1 (amended): the randomness of a run comes from the process-global
generator, modelled by the pair (stream, starting cursor); a run is a function
of that state: two runs of the same model from the same cursor whose streams
agree at every index from that cursor onwards return identical results. -/
theorem claim_c1 (m : FireModel) (stream1 stream2 : ℕ → ℝ) (i : ℕ) (mt : ℝ)
    (hagree : ∀ j, i ≤ j → stream1 j = stream2 j) :
    m.run_simulation stream1 i mt = m.run_simulation stream2 i mt := by
  unfold FireModel.run_simulation
  dsimp only
  exact (loopSim_stream_congr m stream1 stream2 mt _ _
    (fun j hj => hagree j hj)).symm

/-- A stream that differs from the all-zero stream strictly below index 5
and agrees with it from index 5 onwards. -/
noncomputable def streamC1alt : ℕ → ℝ := fun n => if n < 5 then 37 else zeroStream n

theorem claim_c1_witness :
    mC6.run_simulation zeroStream 5 ((1000 : ℚ) : ℝ) =
      mC6.run_simulation streamC1alt 5 ((1000 : ℚ) : ℝ) :=
  claim_c1 mC6 zeroStream streamC1alt 5 ((1000 : ℚ) : ℝ)
    (fun j hj => by simp [streamC1alt, Nat.not_lt.mpr hj])

/-! ### Queue drain: the fuel `loopFuel` always suffices

Each iteration pops one entry; a settlement pushes at most 9 new entries but
permanently settles one in-bounds cell.  The measure
`pq.length + 9 * (#unsettled in-bounds cells)` therefore drops at every
continuing iteration, so a run of `loopFuel` iterations always ends in a
`Sum.inr` exit (empty queue or horizon break), never by running out of fuel. -/

theorem mem_foldl_orderedInsert {K : Type} [LinearOrder K] :
    ∀ (l q : List (K × ℤ × ℤ)) (e : K × ℤ × ℤ),
      (e ∈ l.foldl (fun q x => List.orderedInsert leE x q) q ↔ e ∈ q ∨ e ∈ l) := by
  intro l
  induction l with
  | nil => intro q e; simp
  | cons x l ih =>
    intro q e
    rw [List.foldl_cons, ih, List.mem_orderedInsert, List.mem_cons]
    tauto

theorem mem_heapify {K : Type} [LinearOrder K] (l : List (K × ℤ × ℤ))
    (e : K × ℤ × ℤ) : e ∈ heapify l ↔ e ∈ l := by
  unfold heapify
  rw [mem_foldl_orderedInsert]
  simp

theorem mem_initEntries {K : Type} (rows cols : ℕ) (tm : ℤ → ℤ → Option K)
    (t : K) (r c : ℤ) :
    (t, r, c) ∈ initEntries rows cols tm ↔
      0 ≤ r ∧ r < (rows : ℤ) ∧ 0 ≤ c ∧ c < (cols : ℤ) ∧ tm r c = some t := by
  unfold initEntries
  rw [List.mem_flatMap]
  constructor
  · rintro ⟨rn, hrn, hmem⟩
    rw [List.mem_filterMap] at hmem
    obtain ⟨cn, hcn, hopt⟩ := hmem
    simp only [List.mem_range] at hrn
    simp only [List.pure_def, List.bind_eq_flatMap, List.mem_flatMap, List.mem_range,
      List.mem_singleton] at hcn
    obtain ⟨cn2, hcn2, rfl⟩ := hcn
    rcases htm : tm (rn : ℤ) (cn2 : ℤ) with _ | v
    · rw [htm] at hopt; exact absurd hopt (by simp)
    · rw [htm] at hopt
      simp only [Option.map_some', Option.some.injEq, Prod.mk.injEq] at hopt
      obtain ⟨hv, hr, hc⟩ := hopt
      subst hr
      subst hc
      subst hv
      exact ⟨by omega, by omega, by omega, by omega, htm⟩
  · rintro ⟨hr0, hrlt, hc0, hclt, htm⟩
    refine ⟨r.toNat, by rw [List.mem_range]; omega, ?_⟩
    rw [List.mem_filterMap]
    refine ⟨c, ?_, ?_⟩
    · simp only [List.pure_def, List.bind_eq_flatMap, List.mem_flatMap, List.mem_range,
        List.mem_singleton]
      exact ⟨c.toNat, by omega, by omega⟩
    · rw [show ((r.toNat : ℕ) : ℤ) = r by omega, htm]
      rfl

/-- The number of in-bounds cells not yet settled. -/
def unvis (rows cols : ℕ) (vis : ℤ → ℤ → Bool) : ℕ :=
  ((Finset.range rows ×ˢ Finset.range cols).filter
    (fun p => vis (p.1 : ℤ) (p.2 : ℤ) = false)).card

theorem unvis_le (rows cols : ℕ) (vis : ℤ → ℤ → Bool) :
    unvis rows cols vis ≤ rows * cols := by
  unfold unvis
  exact (Finset.card_filter_le _ _).trans
    (le_of_eq (by rw [Finset.card_product, Finset.card_range, Finset.card_range]))

theorem unvis_allFalse (rows cols : ℕ) :
    unvis rows cols (fun _ _ => false) = rows * cols := by
  unfold unvis
  rw [Finset.filter_true_of_mem (fun p _ => rfl), Finset.card_product,
    Finset.card_range, Finset.card_range]

theorem unvis_update (rows cols : ℕ) (vis : ℤ → ℤ → Bool) (r c : ℤ)
    (hb : 0 ≤ r ∧ r < (rows : ℤ) ∧ 0 ≤ c ∧ c < (cols : ℤ)) (hv : vis r c = false)
    (vis' : ℤ → ℤ → Bool)
    (hvis' : ∀ x y, vis' x y = if x = r ∧ y = c then true else vis x y) :
    unvis rows cols vis' + 1 = unvis rows cols vis := by
  obtain ⟨hr0, hrlt, hc0, hclt⟩ := hb
  unfold unvis
  have hmem : (r.toNat, c.toNat) ∈
      (Finset.range rows ×ˢ Finset.range cols).filter
        (fun p => vis (p.1 : ℤ) (p.2 : ℤ) = false) := by
    rw [Finset.mem_filter, Finset.mem_product, Finset.mem_range, Finset.mem_range]
    refine ⟨⟨by omega, by omega⟩, ?_⟩
    rw [show ((r.toNat : ℕ) : ℤ) = r by omega, show ((c.toNat : ℕ) : ℤ) = c by omega]
    exact hv
  have hset : (Finset.range rows ×ˢ Finset.range cols).filter
      (fun p => vis' (p.1 : ℤ) (p.2 : ℤ) = false) =
      ((Finset.range rows ×ˢ Finset.range cols).filter
        (fun p => vis (p.1 : ℤ) (p.2 : ℤ) = false)).erase (r.toNat, c.toNat) := by
    ext p
    rw [Finset.mem_erase, Finset.mem_filter, Finset.mem_filter, hvis']
    constructor
    · rintro ⟨hp, hcond⟩
      by_cases hpc : (p.1 : ℤ) = r ∧ (p.2 : ℤ) = c
      · rw [if_pos hpc] at hcond
        exact absurd hcond (by simp)
      · rw [if_neg hpc] at hcond
        refine ⟨?_, hp, hcond⟩
        intro hpe
        apply hpc
        rw [hpe]
        exact ⟨by omega, by omega⟩
    · rintro ⟨hne, hp, hcond⟩
      refine ⟨hp, ?_⟩
      have hpc : ¬ ((p.1 : ℤ) = r ∧ (p.2 : ℤ) = c) := by
        rintro ⟨hx, hy⟩
        apply hne
        obtain ⟨p1, p2⟩ := p
        rw [Prod.mk.injEq]
        exact ⟨by omega, by omega⟩
      rw [if_neg hpc]
      exact hcond
  rw [hset]
  exact Finset.card_erase_add_one hmem

/-- The termination measure of the `while pq` loop. -/
def meas {K : Type} (rows cols : ℕ) (s : SimState K) : ℕ :=
  s.pq.length + 9 * unvis rows cols s.visited

theorem relaxOne_pq_length {K : Type} [LinearOrderedField K] (cfg : LoopCfg K)
    (t : K) (r c : ℤ) (s : SimState K) (nb : ℤ × ℤ × K) :
    (relaxOne cfg t r c s nb).pq.length ≤ s.pq.length + 1 := by
  rcases relaxOne_cases cfg t r c s nb with heq | ⟨_, _, _, _, _, _, _, heq⟩
  · rw [heq]; omega
  · rw [heq]
    dsimp only
    rw [List.orderedInsert_length]

theorem foldl_relax_pq_length {K : Type} [LinearOrderedField K] (cfg : LoopCfg K)
    (t : K) (r c : ℤ) :
    ∀ (L : List (ℤ × ℤ × K)) (s : SimState K),
      (L.foldl (relaxOne cfg t r c) s).pq.length ≤ s.pq.length + L.length := by
  intro L
  induction L with
  | nil => intro s; simp
  | cons nb L ih =>
    intro s
    rw [List.foldl_cons]
    calc (L.foldl (relaxOne cfg t r c) (relaxOne cfg t r c s nb)).pq.length
        ≤ (relaxOne cfg t r c s nb).pq.length + L.length := ih _
      _ ≤ s.pq.length + 1 + L.length := by
          have := relaxOne_pq_length cfg t r c s nb
          omega
      _ = s.pq.length + (nb :: L).length := by
          rw [List.length_cons]
          omega

theorem pushCand_pq_length {K : Type} [LinearOrderedField K] (cfg : LoopCfg K)
    (s : SimState K) (st : K) (sr sc : ℤ) :
    (pushCand cfg s st sr sc).pq.length ≤ s.pq.length + 1 := by
  rcases pushCand_cases cfg s st sr sc with heq | ⟨_, _, _, _, _, _, heq⟩
  · rw [heq]; omega
  · rw [heq]
    dsimp only
    rw [List.orderedInsert_length]

theorem step_inl_meas {K : Type} [LinearOrderedField K] (cfg : LoopCfg K) (mt : K)
    (s s₁ : SimState K)
    (hA : ∀ e ∈ s.pq, 0 ≤ e.2.1 ∧ e.2.1 < (cfg.rows : ℤ) ∧
      0 ≤ e.2.2 ∧ e.2.2 < (cfg.cols : ℤ))
    (h : step cfg mt s = some (Sum.inl s₁)) :
    meas cfg.rows cfg.cols s₁ < meas cfg.rows cfg.cols s := by
  rcases step_spec cfg mt s with ⟨hpq, he⟩ | ⟨t, r, c, rest, hpq, hc⟩
  · rw [he] at h
    injection h with h
    exact Sum.noConfusion h
  · have hlen : s.pq.length = rest.length + 1 := by rw [hpq, List.length_cons]
    rcases hc with ⟨hmt, he⟩ | ⟨hmt, hv, he⟩ | ⟨hmt, hv, hrest⟩
    · rw [he] at h
      injection h with h
      exact Sum.noConfusion h
    · rw [he] at h
      injection h with h
      injection h with h
      subst h
      unfold meas popState
      dsimp only
      omega
    · have hb : 0 ≤ r ∧ r < (cfg.rows : ℤ) ∧ 0 ≤ c ∧ c < (cfg.cols : ℤ) :=
        hA (t, r, c) (by rw [hpq]; exact List.mem_cons_self _ _)
      have hu : unvis cfg.rows cfg.cols (settleState s t r c rest).visited + 1 =
          unvis cfg.rows cfg.cols s.visited :=
        unvis_update cfg.rows cfg.cols s.visited r c hb hv _ (fun _ _ => rfl)
      have hvisR : (relaxedState cfg s t r c rest).visited =
          (settleState s t r c rest).visited := by
        unfold relaxedState
        exact foldl_relax_visited cfg t r c (neighborsList K) _
      have hlenR : (relaxedState cfg s t r c rest).pq.length ≤ rest.length + 8 := by
        unfold relaxedState
        have h1 := foldl_relax_pq_length cfg t r c (neighborsList K)
          (settleState s t r c rest)
        have h2 : (settleState s t r c rest).pq.length = rest.length := rfl
        have h3 : (neighborsList K).length = 8 := rfl
        omega
      have huR : unvis cfg.rows cfg.cols (relaxedState cfg s t r c rest).visited + 1 =
          unvis cfg.rows cfg.cols s.visited := by rw [hvisR]; exact hu
      rcases hrest with ⟨hg, he⟩ | ⟨hg, hsp⟩
      · rw [he] at h
        injection h with h
        injection h with h
        subst h
        unfold meas
        omega
      · rcases hsp with ⟨j, hspeq, he⟩ | ⟨j, hspeq, he⟩ | ⟨cst, csr, csc, j, hspeq, he⟩
        · rw [he] at h
          exact Option.noConfusion h
        · rw [he] at h
          injection h with h
          injection h with h
          subst h
          unfold meas
          have hq : ({ relaxedState cfg s t r c rest with rngIdx := j } :
              SimState K).pq.length ≤ rest.length + 8 := hlenR
          have hw : unvis cfg.rows cfg.cols
              ({ relaxedState cfg s t r c rest with rngIdx := j } :
                SimState K).visited + 1 = unvis cfg.rows cfg.cols s.visited := huR
          omega
        · rw [he] at h
          injection h with h
          injection h with h
          subst h
          unfold meas
          have hq : (pushCand cfg
              { relaxedState cfg s t r c rest with rngIdx := j } cst csr csc).pq.length ≤
              rest.length + 9 := by
            have h1 := pushCand_pq_length cfg
              { relaxedState cfg s t r c rest with rngIdx := j } cst csr csc
            have h2 : ({ relaxedState cfg s t r c rest with rngIdx := j } :
                SimState K).pq.length ≤ rest.length + 8 := hlenR
            omega
          have hw : unvis cfg.rows cfg.cols
              (pushCand cfg { relaxedState cfg s t r c rest with rngIdx := j }
                cst csr csc).visited + 1 = unvis cfg.rows cfg.cols s.visited := by
            rw [pushCand_visited]
            exact huR
          omega

/-- A run that ends regularly (with fuel to spare) ends through a `Sum.inr`
exit of `step`, from a state satisfying any invariant preserved by the
continuing steps. -/
theorem loopSim_final {K : Type} [LinearOrderedField K] (cfg : LoopCfg K) (mt : K)
    (P : SimState K → Prop)
    (hP : ∀ s s₁, P s → step cfg mt s = some (Sum.inl s₁) → P s₁)
    (hA : ∀ s, P s → ∀ e ∈ s.pq, 0 ≤ e.2.1 ∧ e.2.1 < (cfg.rows : ℤ) ∧
      0 ≤ e.2.2 ∧ e.2.2 < (cfg.cols : ℤ)) :
    ∀ (n : ℕ) (s sF : SimState K), P s →
      meas cfg.rows cfg.cols s < n → loopSim cfg mt n s = some sF →
      ∃ s₀, P s₀ ∧ step cfg mt s₀ = some (Sum.inr sF) := by
  intro n
  induction n with
  | zero => intro s sF _ hm _; omega
  | succ n ih =>
    intro s sF hPs hm hrun
    rw [loopSim_succ] at hrun
    cases hst : step cfg mt s with
    | none => rw [hst] at hrun; cases hrun
    | some d =>
      cases d with
      | inr sG =>
        rw [hst] at hrun
        cases hrun
        exact ⟨s, hPs, hst⟩
      | inl s₁ =>
        rw [hst] at hrun
        have hdec := step_inl_meas cfg mt s s₁ (hA s hPs) hst
        exact ih s₁ sF (hP s s₁ hPs hst) (by omega) hrun

/-! ### C3 (amended): a zero-horizon run settles exactly the seeds -/

/-- In-bounds predicate for a cell of a configuration's grid. -/
def InB {K : Type} (cfg : LoopCfg K) (r c : ℤ) : Prop :=
  0 ≤ r ∧ r < (cfg.rows : ℤ) ∧ 0 ≤ c ∧ c < (cfg.cols : ℤ)

/-- Core invariant of a zero-horizon run over a field whose seeds all carry
time `0`: queue entries are in-bounds with nonnegative times, time-`0`
entries sit on seed cells, settled cells are seed cells, seed cells keep
time `0`, non-seed cells hold `none` or a positive candidate, and every
unsettled in-bounds seed cell still has its entry queued. -/
def ZeroInvCore {K : Type} [LinearOrderedField K] (cfg : LoopCfg K)
    (tm0 : ℤ → ℤ → Option K) (s : SimState K) : Prop :=
  (∀ e ∈ s.pq, 0 ≤ e.1 ∧ InB cfg e.2.1 e.2.2) ∧
  (∀ e ∈ s.pq, e.1 = 0 → tm0 e.2.1 e.2.2 = some 0) ∧
  (∀ r c : ℤ, s.visited r c = true → tm0 r c = some 0) ∧
  (∀ r c : ℤ, tm0 r c = some 0 → s.tmap r c = some 0) ∧
  (∀ r c : ℤ, tm0 r c = none → s.tmap r c = none ∨ ∃ u, s.tmap r c = some u ∧ 0 < u) ∧
  (∀ r c : ℤ, InB cfg r c → tm0 r c = some 0 →
    s.visited r c = true ∨ ((0 : K), r, c) ∈ s.pq)

/-- The zero-horizon run invariant: the core, plus sortedness of the pop
trace and queue. -/
def ZeroRunInv {K : Type} [LinearOrderedField K] (cfg : LoopCfg K)
    (tm0 : ℤ → ℤ → Option K) (s : SimState K) : Prop :=
  ZeroInvCore cfg tm0 s ∧ List.Pairwise leE (s.pops ++ s.pq)

theorem relaxOne_zeroInv {K : Type} [LinearOrderedField K] {cfg : LoopCfg K}
    (hpos : CfgPos cfg) (tm0 : ℤ → ℤ → Option K) (r c : ℤ)
    (nb : ℤ × ℤ × K) (hnb : nb ∈ neighborsList K) (s : SimState K)
    (h : ZeroInvCore cfg tm0 s) :
    ZeroInvCore cfg tm0 (relaxOne cfg (0 : K) r c s nb) := by
  rcases relaxOne_cases cfg 0 r c s nb with heq | ⟨hb1, hb2, hb3, hb4, hvna, hfna, hlt, heq⟩
  · rw [heq]; exact h
  · obtain ⟨hA, hB, hC, hD, hE, hF⟩ := h
    have htpos : 0 < cfg.travel r c nb.1 nb.2.1 nb.2.2 := hpos.travel_pos r c nb hnb hfna
    rw [heq]
    refine ⟨?_, ?_, ?_, ?_, ?_, ?_⟩
    · intro e he
      dsimp only at he
      rcases (List.mem_orderedInsert leE).mp he with rfl | he
      · exact ⟨by dsimp only; linarith, ⟨hb1, hb2, hb3, hb4⟩⟩
      · exact hA e he
    · intro e he ht0
      dsimp only at he
      rcases (List.mem_orderedInsert leE).mp he with rfl | he
      · exfalso
        have h1 : (0 : K) + cfg.travel r c nb.1 nb.2.1 nb.2.2 = 0 := ht0
        linarith
      · exact hB e he ht0
    · intro x y hv
      exact hC x y hv
    · intro x y hxy
      dsimp only
      by_cases hcnd : x = r + nb.1 ∧ y = c + nb.2.1
      · exfalso
        obtain ⟨hx, hy⟩ := hcnd
        subst hx
        subst hy
        rw [hD _ _ hxy] at hlt
        have h1 : (0 : K) + cfg.travel r c nb.1 nb.2.1 nb.2.2 < 0 := hlt
        linarith
      · rw [if_neg hcnd]
        exact hD x y hxy
    · intro x y hxy
      dsimp only
      by_cases hcnd : x = r + nb.1 ∧ y = c + nb.2.1
      · rw [if_pos hcnd]
        exact Or.inr ⟨_, rfl, by linarith⟩
      · rw [if_neg hcnd]
        exact hE x y hxy
    · intro x y hIn h0
      rcases hF x y hIn h0 with hv | hq
      · exact Or.inl hv
      · exact Or.inr (by dsimp only; exact (List.mem_orderedInsert leE).mpr (Or.inr hq))

theorem pushCand_zeroInv {K : Type} [LinearOrderedField K] {cfg : LoopCfg K}
    (tm0 : ℤ → ℤ → Option K) (s : SimState K) (st : K) (sr sc : ℤ) (hst : 0 < st)
    (h : ZeroInvCore cfg tm0 s) :
    ZeroInvCore cfg tm0 (pushCand cfg s st sr sc) := by
  rcases pushCand_cases cfg s st sr sc with heq | ⟨hb1, hb2, hb3, hb4, hfu, hlt, heq⟩
  · rw [heq]; exact h
  · obtain ⟨hA, hB, hC, hD, hE, hF⟩ := h
    rw [heq]
    refine ⟨?_, ?_, ?_, ?_, ?_, ?_⟩
    · intro e he
      dsimp only at he
      rcases (List.mem_orderedInsert leE).mp he with rfl | he
      · exact ⟨by dsimp only; linarith, ⟨hb1, hb2, hb3, hb4⟩⟩
      · exact hA e he
    · intro e he ht0
      dsimp only at he
      rcases (List.mem_orderedInsert leE).mp he with rfl | he
      · exfalso
        have h1 : st = 0 := ht0
        linarith
      · exact hB e he ht0
    · intro x y hv
      exact hC x y hv
    · intro x y hxy
      dsimp only
      by_cases hcnd : x = sr ∧ y = sc
      · exfalso
        obtain ⟨hx, hy⟩ := hcnd
        subst hx
        subst hy
        rw [hD _ _ hxy] at hlt
        have h1 : st < 0 := hlt
        linarith
      · rw [if_neg hcnd]
        exact hD x y hxy
    · intro x y hxy
      dsimp only
      by_cases hcnd : x = sr ∧ y = sc
      · rw [if_pos hcnd]
        exact Or.inr ⟨st, rfl, hst⟩
      · rw [if_neg hcnd]
        exact hE x y hxy
    · intro x y hIn h0
      rcases hF x y hIn h0 with hv | hq
      · exact Or.inl hv
      · exact Or.inr (by dsimp only; exact (List.mem_orderedInsert leE).mpr (Or.inr hq))

theorem zeroRunInv_step {K : Type} [LinearOrderedField K] {cfg : LoopCfg K}
    (hpos : CfgPos cfg) (tm0 : ℤ → ℤ → Option K) (s s₁ : SimState K)
    (hs : ZeroRunInv cfg tm0 s) (h : step cfg (0 : K) s = some (Sum.inl s₁)) :
    ZeroRunInv cfg tm0 s₁ := by
  obtain ⟨⟨hA, hB, hC, hD, hE, hF⟩, hG⟩ := hs
  have hG₁ : List.Pairwise leE (s₁.pops ++ s₁.pq) :=
    step_pairwise hpos 0 s hG (Sum.inl s₁) h
  refine ⟨?_, hG₁⟩
  rcases step_spec cfg 0 s with ⟨hpq, he⟩ | ⟨t, r, c, rest, hpq, hc⟩
  · rw [he] at h
    injection h with h
    exact Sum.noConfusion h
  · rcases hc with ⟨hmt, he⟩ | ⟨hmt, hv, he⟩ | ⟨hmt, hv, hrest⟩
    · rw [he] at h
      injection h with h
      exact Sum.noConfusion h
    · rw [he] at h
      injection h with h
      injection h with h
      subst h
      refine ⟨?_, ?_, hC, hD, hE, ?_⟩
      · intro e he2
        exact hA e (by rw [hpq]; exact List.mem_cons_of_mem _ he2)
      · intro e he2 ht0
        exact hB e (by rw [hpq]; exact List.mem_cons_of_mem _ he2) ht0
      · intro x y hIn h0
        rcases hF x y hIn h0 with hv2 | hq
        · exact Or.inl hv2
        · rw [hpq] at hq
          rcases List.mem_cons.mp hq with heq2 | hq2
          · have hx : x = r := congrArg (fun e => e.2.1) heq2
            have hy : y = c := congrArg (fun e => e.2.2) heq2
            subst hx
            subst hy
            exact Or.inl hv
          · exact Or.inr hq2
    · have ht00 : 0 ≤ t := (hA (t, r, c) (by rw [hpq]; exact List.mem_cons_self _ _)).1
      have ht0 : t = 0 := le_antisymm (not_lt.mp hmt) ht00
      subst ht0
      have hInBrc : InB cfg r c :=
        (hA (0, r, c) (by rw [hpq]; exact List.mem_cons_self _ _)).2
      have hseedrc : tm0 r c = some 0 :=
        hB (0, r, c) (by rw [hpq]; exact List.mem_cons_self _ _) rfl
      have hsettle : ZeroInvCore cfg tm0 (settleState s 0 r c rest) := by
        refine ⟨?_, ?_, ?_, hD, hE, ?_⟩
        · intro e he2
          exact hA e (by rw [hpq]; exact List.mem_cons_of_mem _ he2)
        · intro e he2 het
          exact hB e (by rw [hpq]; exact List.mem_cons_of_mem _ he2) het
        · intro x y hv2
          have hv3 : (if x = r ∧ y = c then true else s.visited x y) = true := hv2
          by_cases hcnd : x = r ∧ y = c
          · obtain ⟨hx, hy⟩ := hcnd
            subst hx
            subst hy
            exact hseedrc
          · rw [if_neg hcnd] at hv3
            exact hC x y hv3
        · intro x y hIn h0
          rcases hF x y hIn h0 with hv2 | hq
          · refine Or.inl ?_
            show (if x = r ∧ y = c then true else s.visited x y) = true
            by_cases hcnd : x = r ∧ y = c
            · rw [if_pos hcnd]
            · rw [if_neg hcnd]; exact hv2
          · rw [hpq] at hq
            rcases List.mem_cons.mp hq with heq2 | hq2
            · have hx : x = r := congrArg (fun e => e.2.1) heq2
              have hy : y = c := congrArg (fun e => e.2.2) heq2
              refine Or.inl ?_
              show (if x = r ∧ y = c then true else s.visited x y) = true
              rw [if_pos ⟨hx, hy⟩]
            · exact Or.inr hq2
      have hrelax : ZeroInvCore cfg tm0 (relaxedState cfg s 0 r c rest) := by
        unfold relaxedState
        exact foldl_relax_ind cfg 0 r c (ZeroInvCore cfg tm0)
          (fun s' nb hnb hP => relaxOne_zeroInv hpos tm0 r c nb hnb s' hP)
          (neighborsList K) (fun _ hx => hx) _ hsettle
      rcases hrest with ⟨hg, he⟩ | ⟨hg, hsp⟩
      · rw [he] at h
        injection h with h
        injection h with h
        subst h
        exact hrelax
      · rcases hsp with ⟨j, hspeq, he⟩ | ⟨j, hspeq, he⟩ | ⟨cst, csr, csc, j, hspeq, he⟩
        · rw [he] at h
          exact Option.noConfusion h
        · rw [he] at h
          injection h with h
          injection h with h
          subst h
          exact hrelax
        · rw [he] at h
          injection h with h
          injection h with h
          subst h
          have hst : (0 : K) < cst := hpos.spot_gt 0 r c _ cst csr csc j hspeq
          exact pushCand_zeroInv tm0 _ cst csr csc hst hrelax

theorem zeroRunInv_init {K : Type} [LinearOrderedField K] (cfg : LoopCfg K)
    (tm0 : ℤ → ℤ → Option K) (i : ℕ)
    (hseed : ∀ r c : ℤ, tm0 r c = none ∨ tm0 r c = some 0) :
    ZeroRunInv cfg tm0
      ⟨tm0, fun _ _ => false, heapify (initEntries cfg.rows cfg.cols tm0), [], i⟩ := by
  constructor
  · refine ⟨?_, ?_, ?_, ?_, ?_, ?_⟩
    · intro e he
      obtain ⟨et, er, ec⟩ := e
      rw [show (SimState.mk tm0 (fun _ _ => false)
          (heapify (initEntries cfg.rows cfg.cols tm0)) [] i).pq =
        heapify (initEntries cfg.rows cfg.cols tm0) from rfl, mem_heapify,
        mem_initEntries] at he
      obtain ⟨h1, h2, h3, h4, h5⟩ := he
      rcases hseed er ec with h6 | h6
      · rw [h6] at h5; exact absurd h5 (by simp)
      · rw [h6] at h5
        have h7 : (0 : K) = et := Option.some.inj h5
        exact ⟨by rw [← h7], ⟨h1, h2, h3, h4⟩⟩
    · intro e he het
      obtain ⟨et, er, ec⟩ := e
      rw [show (SimState.mk tm0 (fun _ _ => false)
          (heapify (initEntries cfg.rows cfg.cols tm0)) [] i).pq =
        heapify (initEntries cfg.rows cfg.cols tm0) from rfl, mem_heapify,
        mem_initEntries] at he
      have het2 : et = 0 := het
      rw [← het2]
      exact he.2.2.2.2
    · intro r c hv
      exact absurd hv (by simp)
    · intro r c h0
      exact h0
    · intro r c h0
      exact Or.inl h0
    · intro r c hIn h0
      refine Or.inr ?_
      show ((0 : K), r, c) ∈ heapify (initEntries cfg.rows cfg.cols tm0)
      rw [mem_heapify, mem_initEntries]
      exact ⟨hIn.1, hIn.2.1, hIn.2.2.1, hIn.2.2.2, h0⟩
  · simpa using heapify_sorted (initEntries cfg.rows cfg.cols tm0)

theorem run_zero_final (m : FireModel) (stream : ℕ → ℝ) (i : ℕ)
    (hcs : 0 < m.cell_size) (hstream : ∀ n, 0 < 10 + stream n * 20)
    (hseed : ∀ r c : ℤ, m.ignition_time r c = none ∨ m.ignition_time r c = some 0)
    (s : SimState ℝ) (h : m.run_simulation stream i 0 = some s) :
    ∃ s₀, ZeroRunInv (m.cfg stream) m.ignition_time s₀ ∧
      step (m.cfg stream) 0 s₀ = some (Sum.inr s) := by
  have hpos := cfgPos_real m stream hcs hstream
  refine loopSim_final (m.cfg stream) 0 (ZeroRunInv (m.cfg stream) m.ignition_time)
    (fun x x₁ hP hst => zeroRunInv_step hpos m.ignition_time x x₁ hP hst)
    (fun x hP e he => (hP.1.1 e he).2)
    (loopFuel m.rows m.cols (heapify (initEntries m.rows m.cols m.ignition_time)))
    ⟨m.ignition_time, fun _ _ => false,
      heapify (initEntries m.rows m.cols m.ignition_time), [], i⟩ s
    (zeroRunInv_init (m.cfg stream) m.ignition_time i hseed) ?_ h
  show meas m.rows m.cols
      (⟨m.ignition_time, fun _ _ => false,
        heapify (initEntries m.rows m.cols m.ignition_time), [], i⟩ : SimState ℝ) <
    loopFuel m.rows m.cols (heapify (initEntries m.rows m.cols m.ignition_time))
  unfold meas loopFuel
  rw [show (SimState.mk m.ignition_time (fun _ _ => false)
      (heapify (initEntries m.rows m.cols m.ignition_time)) [] i).visited =
    (fun _ _ => false) from rfl,
    show (SimState.mk m.ignition_time (fun _ _ => false)
      (heapify (initEntries m.rows m.cols m.ignition_time)) [] i).pq =
    heapify (initEntries m.rows m.cols m.ignition_time) from rfl, unvis_allFalse]
  omega

/-- C3 (amended): a zero-horizon run of a grid seeded (only) at time `0`
settles exactly the seeded in-bounds cells, each keeping its seed time `0`;
a non-seeded cell ends at "never" or at a finite strictly positive candidate
time written by the relaxation of a settled seed's neighbourhood. -/
theorem claim_c3 (m : FireModel) (stream : ℕ → ℝ) (i : ℕ)
    (hcs : 0 < m.cell_size) (hstream : ∀ n, 0 < 10 + stream n * 20)
    (hseed : ∀ r c : ℤ, m.ignition_time r c = none ∨ m.ignition_time r c = some 0)
    (s : SimState ℝ) (h : m.run_simulation stream i 0 = some s) :
    ∀ r c : ℤ,
      ((0 ≤ r ∧ r < (m.rows : ℤ) ∧ 0 ≤ c ∧ c < (m.cols : ℤ)) →
        (s.visited r c = true ↔ m.ignition_time r c = some 0)) ∧
      (m.ignition_time r c = some 0 → s.tmap r c = some 0) ∧
      (m.ignition_time r c = none →
        s.tmap r c = none ∨ ∃ u, s.tmap r c = some u ∧ 0 < u) := by
  obtain ⟨s₀, ⟨⟨hA, hB, hC, hD, hE, hF⟩, hG⟩, hstep⟩ :=
    run_zero_final m stream i hcs hstream hseed s h
  rcases step_spec (m.cfg stream) 0 s₀ with ⟨hpq0, he⟩ | ⟨t, r0, c0, rest, hpq0, hc⟩
  · rw [he] at hstep
    injection hstep with hstep
    injection hstep with hstep
    subst hstep
    intro r c
    refine ⟨fun hIn => ⟨fun hv => hC r c hv, fun h0 => ?_⟩,
      fun h0 => hD r c h0, fun h0 => hE r c h0⟩
    rcases hF r c hIn h0 with hv | hq
    · exact hv
    · rw [hpq0] at hq
      exact absurd hq (List.not_mem_nil _)
  · rcases hc with ⟨hmt, he⟩ | ⟨hmt, hv, he⟩ | ⟨hmt, hv2, hrest⟩
    · rw [he] at hstep
      injection hstep with hstep
      injection hstep with hstep
      subst hstep
      intro r c
      refine ⟨fun hIn => ⟨fun hv => hC r c hv, fun h0 => ?_⟩,
        fun h0 => hD r c h0, fun h0 => hE r c h0⟩
      rcases hF r c hIn h0 with hv | hq
      · exact hv
      · exfalso
        have hsort : List.Pairwise leE s₀.pq := (List.pairwise_append.mp hG).2.1
        rw [hpq0] at hsort hq
        rcases List.mem_cons.mp hq with heq2 | hq2
        · have h1 : (0 : ℝ) = t := congrArg Prod.fst heq2
          linarith
        · have hle : leE (t, r0, c0) ((0 : ℝ), r, c) :=
            (List.pairwise_cons.mp hsort).1 _ hq2
          rcases hle with hlt2 | ⟨heq3, -⟩
          · have h1 : t < (0 : ℝ) := hlt2
            linarith
          · have h1 : t = (0 : ℝ) := heq3
            linarith
    · rw [he] at hstep
      injection hstep with hstep
      exact Sum.noConfusion hstep
    · rcases hrest with ⟨hg, he⟩ | ⟨hg, hsp⟩
      · rw [he] at hstep
        injection hstep with hstep
        exact Sum.noConfusion hstep
      · rcases hsp with ⟨j, hq1, he⟩ | ⟨j, hq1, he⟩ | ⟨cst, csr, csc, j, hq1, he⟩
        · rw [he] at hstep
          exact Option.noConfusion hstep
        · rw [he] at hstep
          injection hstep with hstep
          exact Sum.noConfusion hstep
        · rw [he] at hstep
          injection hstep with hstep
          exact Sum.noConfusion hstep

theorem claim_c3_witness :
    ((0 ≤ (0 : ℤ) ∧ (0 : ℤ) < (mC3.rows : ℤ) ∧ 0 ≤ (1 : ℤ) ∧ (1 : ℤ) < (mC3.cols : ℤ)) →
      ((castState (runC3Q.get runC3Q_isSome)).visited 0 1 = true ↔
        mC3.ignition_time 0 1 = some 0)) ∧
    (mC3.ignition_time 0 1 = some 0 →
      (castState (runC3Q.get runC3Q_isSome)).tmap 0 1 = some 0) ∧
    (mC3.ignition_time 0 1 = none →
      (castState (runC3Q.get runC3Q_isSome)).tmap 0 1 = none ∨
        ∃ u, (castState (runC3Q.get runC3Q_isSome)).tmap 0 1 = some u ∧ 0 < u) :=
  claim_c3 mC3 zeroStream 0
    (by norm_num [mC3, FireModel.ignite, FireModel.init, fuelGrass])
    (fun n => by norm_num [zeroStream])
    (fun r c => by
      by_cases hrc : r = 0 ∧ c = 0
      · exact Or.inr (by simp [mC3, FireModel.ignite, FireModel.init, fuelGrass, hrc])
      · exact Or.inl (by simp [mC3, FireModel.ignite, FireModel.init, fuelGrass, hrc]))
    (castState (runC3Q.get runC3Q_isSome))
    (by rw [show (0 : ℝ) = ((0 : ℚ) : ℝ) by norm_num]; exact mC3_run_some)
    0 1

/-! ### C8 (amended): water barriers -/

theorem baseRate_ge {K : Type} [LinearOrderedField K] {f : FuelTy} (hf : f ≠ 3) :
    (1 : K)/10 ≤ baseRate f := by
  unfold baseRate
  split_ifs <;> norm_num

theorem neighborsMult_le_real {dr dc : ℤ} {mult : ℝ}
    (hnb : (dr, dc, mult) ∈ neighborsList ℝ) : mult ≤ 1414/1000 := by
  simp only [neighborsList, List.mem_cons, List.not_mem_nil, or_false,
    Prod.mk.injEq] at hnb
  rcases hnb with ⟨_, _, rfl⟩ | ⟨_, _, rfl⟩ | ⟨_, _, rfl⟩ | ⟨_, _, rfl⟩ |
    ⟨_, _, rfl⟩ | ⟨_, _, rfl⟩ | ⟨_, _, rfl⟩ | ⟨_, _, rfl⟩ <;> norm_num

/-- The travel time of any neighbour edge is at most `1414 · cellSize`: the
distance is at most `cellSize · 1.414` and the rate denominator is at least
`(1/10)³`. -/
theorem travelTime_le (m : FireModel) (hcs : 0 < m.cell_size)
    (r c dr dc : ℤ) (mult : ℝ) (hm1 : mult ≤ 1414/1000)
    (hf : m.fuel (r + dr) (c + dc) ≠ 3) :
    m.travelTime r c dr dc mult ≤ 1414 * m.cell_size := by
  unfold FireModel.travelTime
  dsimp only
  have hbase : (1 : ℝ)/10 ≤ baseRate (m.fuel (r + dr) (c + dc)) := baseRate_ge hf
  have hslope : (1 : ℝ)/10 ≤ clip (Real.exp (kSlope *
      atan2 (m.elevation (r + dr) (c + dc) - m.elevation r c) (m.cell_size * mult)))
      (1/10) 8 := le_max_left _ _
  have hwind : (1 : ℝ)/10 ≤
      (if 0 < m.wind_speed then
        max (1/10) (1 + windSens (m.fuel (r + dr) (c + dc)) * m.wind_speed *
          ((Real.cos m.wind_dir * (dr : ℝ) + (- Real.sin m.wind_dir) * (dc : ℝ)) / mult))
      else 1) := by
    split_ifs
    · exact le_max_left _ _
    · norm_num
  have hdenom : (1 : ℝ)/1000 ≤ baseRate (m.fuel (r + dr) (c + dc)) *
      clip (Real.exp (kSlope *
        atan2 (m.elevation (r + dr) (c + dc) - m.elevation r c) (m.cell_size * mult)))
        (1/10) 8 *
      (if 0 < m.wind_speed then
        max (1/10) (1 + windSens (m.fuel (r + dr) (c + dc)) * m.wind_speed *
          ((Real.cos m.wind_dir * (dr : ℝ) + (- Real.sin m.wind_dir) * (dc : ℝ)) / mult))
      else 1) := by
    have hab := mul_le_mul hbase hslope (by norm_num) (by linarith)
    norm_num at hab
    have habc := mul_le_mul hab hwind (by norm_num) (by linarith)
    exact le_trans (by norm_num) habc
  have hdist : m.cell_size * mult ≤ m.cell_size * (1414/1000) :=
    mul_le_mul_of_nonneg_left hm1 (le_of_lt hcs)
  calc m.cell_size * mult / (baseRate (m.fuel (r + dr) (c + dc)) *
        clip (Real.exp (kSlope *
          atan2 (m.elevation (r + dr) (c + dc) - m.elevation r c) (m.cell_size * mult)))
          (1/10) 8 *
        (if 0 < m.wind_speed then
          max (1/10) (1 + windSens (m.fuel (r + dr) (c + dc)) * m.wind_speed *
            ((Real.cos m.wind_dir * (dr : ℝ) + (- Real.sin m.wind_dir) * (dc : ℝ)) / mult))
        else 1))
      ≤ (m.cell_size * (1414/1000)) / (1/1000) := by
        apply div_le_div₀ (by positivity) hdist (by norm_num) hdenom
    _ = 1414 * m.cell_size := by ring

/-- Chebyshev adjacency is exactly displacement by one of the 8 neighbour
offsets. -/
theorem adj_exists_nb (q p : ℤ × ℤ) (h : Adj q p) :
    ∃ nb ∈ neighborsList ℝ, p.1 = q.1 + nb.1 ∧ p.2 = q.2 + nb.2.1 := by
  obtain ⟨hne, hr, hc⟩ := h
  have hr2 : -1 ≤ q.1 - p.1 ∧ q.1 - p.1 ≤ 1 := abs_le.mp hr
  have hc2 : -1 ≤ q.2 - p.2 ∧ q.2 - p.2 ≤ 1 := abs_le.mp hc
  have hne2 : ¬ (p.1 = q.1 ∧ p.2 = q.2) := by
    intro hcon
    exact hne (Prod.ext hcon.1.symm hcon.2.symm)
  have hdr : p.1 = q.1 - 1 ∨ p.1 = q.1 ∨ p.1 = q.1 + 1 := by omega
  have hdc : p.2 = q.2 - 1 ∨ p.2 = q.2 ∨ p.2 = q.2 + 1 := by omega
  rcases hdr with h1 | h1 | h1 <;> rcases hdc with h2 | h2 | h2
  · exact ⟨(-1, -1, 1414/1000), by simp [neighborsList],
      by dsimp only; omega, by dsimp only; omega⟩
  · exact ⟨(-1, 0, 1), by simp [neighborsList],
      by dsimp only; omega, by dsimp only; omega⟩
  · exact ⟨(-1, 1, 1414/1000), by simp [neighborsList],
      by dsimp only; omega, by dsimp only; omega⟩
  · exact ⟨(0, -1, 1), by simp [neighborsList],
      by dsimp only; omega, by dsimp only; omega⟩
  · exact absurd ⟨h1, h2⟩ hne2
  · exact ⟨(0, 1, 1), by simp [neighborsList],
      by dsimp only; omega, by dsimp only; omega⟩
  · exact ⟨(1, -1, 1414/1000), by simp [neighborsList],
      by dsimp only; omega, by dsimp only; omega⟩
  · exact ⟨(1, 0, 1), by simp [neighborsList],
      by dsimp only; omega, by dsimp only; omega⟩
  · exact ⟨(1, 1, 1414/1000), by simp [neighborsList],
      by dsimp only; omega, by dsimp only; omega⟩

/-- Neither relaxation nor spotting ever writes a Water cell. -/
def FuelPreserve {K : Type} [LinearOrderedField K] (cfg : LoopCfg K)
    (tminit : ℤ → ℤ → Option K) (s : SimState K) : Prop :=
  ∀ r c : ℤ, cfg.fuel r c = 3 → s.tmap r c = tminit r c

theorem relaxOne_fuelPreserve {K : Type} [LinearOrderedField K] {cfg : LoopCfg K}
    (tminit : ℤ → ℤ → Option K) (t : K) (r c : ℤ) (nb : ℤ × ℤ × K)
    (s : SimState K) (h : FuelPreserve cfg tminit s) :
    FuelPreserve cfg tminit (relaxOne cfg t r c s nb) := by
  rcases relaxOne_cases cfg t r c s nb with heq | ⟨_, _, _, _, _, hfna, _, heq⟩
  · rw [heq]; exact h
  · rw [heq]
    intro x y hf
    dsimp only
    rw [if_neg ?_]
    · exact h x y hf
    · rintro ⟨hx, hy⟩
      subst hx
      subst hy
      exact hfna hf

theorem pushCand_fuelPreserve {K : Type} [LinearOrderedField K] {cfg : LoopCfg K}
    (tminit : ℤ → ℤ → Option K) (st : K) (sr sc : ℤ)
    (s : SimState K) (h : FuelPreserve cfg tminit s) :
    FuelPreserve cfg tminit (pushCand cfg s st sr sc) := by
  rcases pushCand_cases cfg s st sr sc with heq | ⟨_, _, _, _, hfu, _, heq⟩
  · rw [heq]; exact h
  · rw [heq]
    intro x y hf
    dsimp only
    rw [if_neg ?_]
    · exact h x y hf
    · rintro ⟨hx, hy⟩
      subst hx
      subst hy
      rcases hfu with h1 | h1 <;> rw [h1] at hf <;> exact absurd hf (by norm_num)

theorem step_fuelPreserve {K : Type} [LinearOrderedField K] {cfg : LoopCfg K}
    (tminit : ℤ → ℤ → Option K) (mt : K) (s : SimState K)
    (h : FuelPreserve cfg tminit s) :
    ∀ d, step cfg mt s = some d → FuelPreserve cfg tminit (Sum.elim id id d) := by
  intro d hd
  rcases step_spec cfg mt s with ⟨hpq, he⟩ | ⟨t, r, c, rest, hpq, hc⟩
  · rw [he] at hd
    injection hd with hd
    subst hd
    exact h
  · have hrelax : FuelPreserve cfg tminit (relaxedState cfg s t r c rest) := by
      unfold relaxedState
      exact foldl_relax_ind cfg t r c (FuelPreserve cfg tminit)
        (fun s' nb _ hP => relaxOne_fuelPreserve tminit t r c nb s' hP)
        (neighborsList K) (fun _ hx => hx) _ h
    rcases hc with ⟨hmt, he⟩ | ⟨hmt, hv, he⟩ | ⟨hmt, hv, hrest⟩
    · rw [he] at hd
      injection hd with hd
      subst hd
      exact h
    · rw [he] at hd
      injection hd with hd
      subst hd
      exact h
    · rcases hrest with ⟨hg, he⟩ | ⟨hg, hsp⟩
      · rw [he] at hd
        injection hd with hd
        subst hd
        exact hrelax
      · rcases hsp with ⟨j, hq1, he⟩ | ⟨j, hq1, he⟩ | ⟨cst, csr, csc, j, hq1, he⟩
        · rw [he] at hd
          exact Option.noConfusion hd
        · rw [he] at hd
          injection hd with hd
          subst hd
          exact hrelax
        · rw [he] at hd
          injection hd with hd
          subst hd
          exact pushCand_fuelPreserve tminit cst csr csc _ hrelax

/-- A run never changes the ignition-time entry of a Water cell, whatever the
wind speed and the random stream. -/
theorem run_water_tmap (m : FireModel) (stream : ℕ → ℝ) (i : ℕ) (mt : ℝ)
    (s : SimState ℝ) (h : m.run_simulation stream i mt = some s) :
    ∀ r c : ℤ, m.fuel r c = 3 → s.tmap r c = m.ignition_time r c := by
  unfold FireModel.run_simulation at h
  dsimp only at h
  exact loopSim_inv (m.cfg stream) mt (FuelPreserve (m.cfg stream) m.ignition_time)
    (fun x x₁ hP hst => step_fuelPreserve m.ignition_time mt x hP (Sum.inl x₁) hst)
    (fun x xF hP hst => step_fuelPreserve m.ignition_time mt x hP (Sum.inr xF) hst)
    _ _ s (fun _ _ _ => rfl) h

theorem adj_offset (r c dr dc : ℤ) (h1 : |dr| ≤ 1) (h2 : |dc| ≤ 1)
    (h3 : ¬ (dr = 0 ∧ dc = 0)) : Adj (r, c) (r + dr, c + dc) := by
  refine ⟨?_, ?_, ?_⟩
  · intro hcon
    rw [Prod.mk.injEq] at hcon
    obtain ⟨ha, hb⟩ := hcon
    exact h3 ⟨by omega, by omega⟩
  · dsimp only
    rw [show r - (r + dr) = -dr by ring, abs_neg]
    exact h1
  · dsimp only
    rw [show c - (c + dc) = -dc by ring, abs_neg]
    exact h2

theorem nb_adj (r c : ℤ) {nb : ℤ × ℤ × ℝ} (hnb : nb ∈ neighborsList ℝ) :
    Adj (r, c) (r + nb.1, c + nb.2.1) := by
  obtain ⟨dr, dc, mu⟩ := nb
  simp only [neighborsList, List.mem_cons, List.not_mem_nil, or_false,
    Prod.mk.injEq] at hnb
  rcases hnb with ⟨rfl, rfl, -⟩ | ⟨rfl, rfl, -⟩ | ⟨rfl, rfl, -⟩ | ⟨rfl, rfl, -⟩ |
    ⟨rfl, rfl, -⟩ | ⟨rfl, rfl, -⟩ | ⟨rfl, rfl, -⟩ | ⟨rfl, rfl, -⟩ <;>
    exact adj_offset r c _ _ (by norm_num) (by norm_num) (by norm_num)

theorem relaxOne_tmap_mono {K : Type} [LinearOrderedField K] (cfg : LoopCfg K)
    (t : K) (r c : ℤ) (s : SimState K) (nb : ℤ × ℤ × K) (x y : ℤ)
    (h : s.tmap x y ≠ none) : (relaxOne cfg t r c s nb).tmap x y ≠ none := by
  rcases relaxOne_cases cfg t r c s nb with heq | ⟨_, _, _, _, _, _, _, heq⟩
  · rw [heq]; exact h
  · rw [heq]
    dsimp only
    by_cases hcnd : x = r + nb.1 ∧ y = c + nb.2.1
    · rw [if_pos hcnd]; simp
    · rw [if_neg hcnd]; exact h

theorem foldl_relax_tmap_mono {K : Type} [LinearOrderedField K] (cfg : LoopCfg K)
    (t : K) (r c : ℤ) :
    ∀ (L : List (ℤ × ℤ × K)) (s : SimState K) (x y : ℤ),
      s.tmap x y ≠ none → (L.foldl (relaxOne cfg t r c) s).tmap x y ≠ none := by
  intro L
  induction L with
  | nil => intro s x y h; exact h
  | cons nb L ih =>
    intro s x y h
    rw [List.foldl_cons]
    exact ih _ x y (relaxOne_tmap_mono cfg t r c s nb x y h)

/-- Relaxing a neighbour leaves its cell with a finite candidate whenever the
cell is in-bounds and non-Water: either the relaxation writes it, or it was
already finite (a `none` cell always passes the `<` test against `np.inf`),
or it was already settled (and settled cells are finite). -/
theorem relaxOne_establishes {K : Type} [LinearOrderedField K] (cfg : LoopCfg K)
    (t : K) (r c : ℤ) (s : SimState K) (nb : ℤ × ℤ × K)
    (hb : 0 ≤ r + nb.1 ∧ r + nb.1 < (cfg.rows : ℤ) ∧ 0 ≤ c + nb.2.1 ∧
      c + nb.2.1 < (cfg.cols : ℤ))
    (hfu : cfg.fuel (r + nb.1) (c + nb.2.1) ≠ 3)
    (hvs : s.visited (r + nb.1) (c + nb.2.1) = true →
      s.tmap (r + nb.1) (c + nb.2.1) ≠ none) :
    (relaxOne cfg t r c s nb).tmap (r + nb.1) (c + nb.2.1) ≠ none := by
  unfold relaxOne
  dsimp only
  by_cases hv : s.visited (r + nb.1) (c + nb.2.1) = false
  · rw [if_pos ⟨hb.1, hb.2.1, hb.2.2.1, hb.2.2.2, hv⟩, if_neg hfu]
    by_cases hlt : ltOpt (t + cfg.travel r c nb.1 nb.2.1 nb.2.2)
        (s.tmap (r + nb.1) (c + nb.2.1))
    · rw [if_pos hlt]
      dsimp only
      rw [if_pos ⟨rfl, rfl⟩]
      simp
    · rw [if_neg hlt]
      intro hnone
      rw [hnone] at hlt
      exact hlt trivial
  · rw [if_neg (fun hcon => hv hcon.2.2.2.2)]
    exact hvs (by simpa using hv)

/-- Invariant of a no-spotting run, for the water-barrier path properties:
queue entries are in-bounds and point at finite cells; settled cells are
finite; finite in-bounds cells are settled or queued; every good neighbour of
a settled cell is finite; queue times respect the `1414·cellSize`-per-level
bound; seed cells stay finite; and every finite cell is reachable from a seed
over good cells. -/
structure DInv (m : FireModel) (stream : ℕ → ℝ) (M0 : ℝ) (s : SimState ℝ) : Prop where
  inb : ∀ e ∈ s.pq, InB (m.cfg stream) e.2.1 e.2.2
  qsome : ∀ e ∈ s.pq, s.tmap e.2.1 e.2.2 ≠ none
  vsome : ∀ r c : ℤ, s.visited r c = true → s.tmap r c ≠ none
  entry : ∀ r c : ℤ, InB (m.cfg stream) r c → s.tmap r c ≠ none →
    s.visited r c = true ∨ ∃ u, (u, r, c) ∈ s.pq
  nbdone : ∀ r c : ℤ, s.visited r c = true → ∀ nb ∈ neighborsList ℝ,
    goodCell m (r + nb.1, c + nb.2.1) → s.tmap (r + nb.1) (c + nb.2.1) ≠ none
  tbound : ∀ e ∈ s.pq,
    e.1 + (unvis m.rows m.cols s.visited : ℝ) * (1414 * m.cell_size) ≤
      M0 + (((m.rows * m.cols : ℕ) : ℝ) + 1) * (1414 * m.cell_size)
  seedsome : ∀ r c : ℤ, m.ignition_time r c ≠ none → s.tmap r c ≠ none
  reach : ∀ r c : ℤ, s.tmap r c ≠ none →
    ∃ p₀, m.ignition_time p₀.1 p₀.2 ≠ none ∧ ReachW (goodCell m) p₀ (r, c)

/-- The per-neighbour fold of a settlement at `(r, c)` (popped at time `t`)
preserves the core of `DInv` and establishes finiteness of every good
neighbour of `(r, c)`. -/
theorem relax_fold_dinv (m : FireModel) (stream : ℕ → ℝ) (M0 : ℝ)
    (hcs : 0 < m.cell_size) (t : ℝ) (r c : ℤ)
    (hreachc : ∃ p₀, m.ignition_time p₀.1 p₀.2 ≠ none ∧
      ReachW (goodCell m) p₀ (r, c)) :
    ∀ L : List (ℤ × ℤ × ℝ), (∀ nb ∈ L, nb ∈ neighborsList ℝ) →
    ∀ s : SimState ℝ,
      (∀ e ∈ s.pq, InB (m.cfg stream) e.2.1 e.2.2) →
      (∀ e ∈ s.pq, s.tmap e.2.1 e.2.2 ≠ none) →
      (∀ x y : ℤ, s.visited x y = true → s.tmap x y ≠ none) →
      (∀ x y : ℤ, InB (m.cfg stream) x y → s.tmap x y ≠ none →
        s.visited x y = true ∨ ∃ u, (u, x, y) ∈ s.pq) →
      (∀ e ∈ s.pq,
        e.1 + (unvis m.rows m.cols s.visited : ℝ) * (1414 * m.cell_size) ≤
          M0 + (((m.rows * m.cols : ℕ) : ℝ) + 1) * (1414 * m.cell_size)) →
      (∀ x y : ℤ, m.ignition_time x y ≠ none → s.tmap x y ≠ none) →
      (∀ x y : ℤ, s.tmap x y ≠ none →
        ∃ p₀, m.ignition_time p₀.1 p₀.2 ≠ none ∧ ReachW (goodCell m) p₀ (x, y)) →
      (t + ((unvis m.rows m.cols s.visited : ℝ) + 1) * (1414 * m.cell_size) ≤
        M0 + (((m.rows * m.cols : ℕ) : ℝ) + 1) * (1414 * m.cell_size)) →
      ((L.foldl (relaxOne (m.cfg stream) t r c) s).visited = s.visited ∧
       (∀ e ∈ (L.foldl (relaxOne (m.cfg stream) t r c) s).pq,
         InB (m.cfg stream) e.2.1 e.2.2) ∧
       (∀ e ∈ (L.foldl (relaxOne (m.cfg stream) t r c) s).pq,
         (L.foldl (relaxOne (m.cfg stream) t r c) s).tmap e.2.1 e.2.2 ≠ none) ∧
       (∀ x y : ℤ, (L.foldl (relaxOne (m.cfg stream) t r c) s).visited x y = true →
         (L.foldl (relaxOne (m.cfg stream) t r c) s).tmap x y ≠ none) ∧
       (∀ x y : ℤ, InB (m.cfg stream) x y →
         (L.foldl (relaxOne (m.cfg stream) t r c) s).tmap x y ≠ none →
         (L.foldl (relaxOne (m.cfg stream) t r c) s).visited x y = true ∨
           ∃ u, (u, x, y) ∈ (L.foldl (relaxOne (m.cfg stream) t r c) s).pq) ∧
       (∀ e ∈ (L.foldl (relaxOne (m.cfg stream) t r c) s).pq,
         e.1 + (unvis m.rows m.cols
             (L.foldl (relaxOne (m.cfg stream) t r c) s).visited : ℝ) *
             (1414 * m.cell_size) ≤
           M0 + (((m.rows * m.cols : ℕ) : ℝ) + 1) * (1414 * m.cell_size)) ∧
       (∀ x y : ℤ, m.ignition_time x y ≠ none →
         (L.foldl (relaxOne (m.cfg stream) t r c) s).tmap x y ≠ none) ∧
       (∀ x y : ℤ, (L.foldl (relaxOne (m.cfg stream) t r c) s).tmap x y ≠ none →
         ∃ p₀, m.ignition_time p₀.1 p₀.2 ≠ none ∧ ReachW (goodCell m) p₀ (x, y)) ∧
       (∀ nb ∈ L, goodCell m (r + nb.1, c + nb.2.1) →
         (L.foldl (relaxOne (m.cfg stream) t r c) s).tmap
           (r + nb.1) (c + nb.2.1) ≠ none)) := by
  intro L
  induction L with
  | nil =>
    intro _ s h1 h2 h3 h4 h6 h7 h8 hT
    exact ⟨rfl, h1, h2, h3, h4, h6, h7, h8, fun nb hnb => absurd hnb (List.not_mem_nil _)⟩
  | cons nb L ih =>
    intro hmem s h1 h2 h3 h4 h6 h7 h8 hT
    rw [List.foldl_cons]
    have hnb : nb ∈ neighborsList ℝ := hmem nb (List.mem_cons_self _ _)
    have hvis1 : (relaxOne (m.cfg stream) t r c s nb).visited = s.visited :=
      relaxOne_visited (m.cfg stream) t r c s nb
    have hone : (∀ e ∈ (relaxOne (m.cfg stream) t r c s nb).pq,
          InB (m.cfg stream) e.2.1 e.2.2) ∧
        (∀ e ∈ (relaxOne (m.cfg stream) t r c s nb).pq,
          (relaxOne (m.cfg stream) t r c s nb).tmap e.2.1 e.2.2 ≠ none) ∧
        (∀ x y : ℤ, (relaxOne (m.cfg stream) t r c s nb).visited x y = true →
          (relaxOne (m.cfg stream) t r c s nb).tmap x y ≠ none) ∧
        (∀ x y : ℤ, InB (m.cfg stream) x y →
          (relaxOne (m.cfg stream) t r c s nb).tmap x y ≠ none →
          (relaxOne (m.cfg stream) t r c s nb).visited x y = true ∨
            ∃ u, (u, x, y) ∈ (relaxOne (m.cfg stream) t r c s nb).pq) ∧
        (∀ e ∈ (relaxOne (m.cfg stream) t r c s nb).pq,
          e.1 + (unvis m.rows m.cols s.visited : ℝ) * (1414 * m.cell_size) ≤
            M0 + (((m.rows * m.cols : ℕ) : ℝ) + 1) * (1414 * m.cell_size)) ∧
        (∀ x y : ℤ, m.ignition_time x y ≠ none →
          (relaxOne (m.cfg stream) t r c s nb).tmap x y ≠ none) ∧
        (∀ x y : ℤ, (relaxOne (m.cfg stream) t r c s nb).tmap x y ≠ none →
          ∃ p₀, m.ignition_time p₀.1 p₀.2 ≠ none ∧ ReachW (goodCell m) p₀ (x, y)) := by
      rcases relaxOne_cases (m.cfg stream) t r c s nb with heq |
        ⟨hb1, hb2, hb3, hb4, hvna, hfna, hlt, heq⟩
      · rw [heq]
        exact ⟨h1, h2, h3, h4, h6, h7, h8⟩
      · have htr : (m.cfg stream).travel r c nb.1 nb.2.1 nb.2.2 ≤ 1414 * m.cell_size :=
          travelTime_le m hcs r c nb.1 nb.2.1 nb.2.2 (neighborsMult_le_real hnb) hfna
        rw [heq]
        refine ⟨?_, ?_, ?_, ?_, ?_, ?_, ?_⟩
        · intro e he
          dsimp only at he
          rcases (List.mem_orderedInsert leE).mp he with rfl | he
          · exact ⟨hb1, hb2, hb3, hb4⟩
          · exact h1 e he
        · intro e he
          dsimp only at he ⊢
          rcases (List.mem_orderedInsert leE).mp he with rfl | he
          · rw [if_pos ⟨rfl, rfl⟩]
            simp
          · by_cases hcnd : e.2.1 = r + nb.1 ∧ e.2.2 = c + nb.2.1
            · rw [if_pos hcnd]; simp
            · rw [if_neg hcnd]; exact h2 e he
        · intro x y hv
          dsimp only
          by_cases hcnd : x = r + nb.1 ∧ y = c + nb.2.1
          · rw [if_pos hcnd]; simp
          · rw [if_neg hcnd]; exact h3 x y hv
        · intro x y hIn htm
          dsimp only at htm ⊢
          by_cases hcnd : x = r + nb.1 ∧ y = c + nb.2.1
          · refine Or.inr ⟨t + (m.cfg stream).travel r c nb.1 nb.2.1 nb.2.2, ?_⟩
            obtain ⟨hx, hy⟩ := hcnd
            rw [hx, hy]
            exact (List.mem_orderedInsert leE).mpr (Or.inl rfl)
          · rw [if_neg hcnd] at htm
            rcases h4 x y hIn htm with hv | ⟨u, hu⟩
            · exact Or.inl hv
            · exact Or.inr ⟨u, (List.mem_orderedInsert leE).mpr (Or.inr hu)⟩
        · intro e he
          dsimp only at he
          rcases (List.mem_orderedInsert leE).mp he with rfl | he
          · dsimp only
            have hu0 : (0 : ℝ) ≤ (unvis m.rows m.cols s.visited : ℝ) :=
              Nat.cast_nonneg _
            linarith
          · exact h6 e he
        · intro x y hig
          dsimp only
          by_cases hcnd : x = r + nb.1 ∧ y = c + nb.2.1
          · rw [if_pos hcnd]; simp
          · rw [if_neg hcnd]; exact h7 x y hig
        · intro x y htm
          dsimp only at htm
          by_cases hcnd : x = r + nb.1 ∧ y = c + nb.2.1
          · obtain ⟨p₀, hp₀, hRW⟩ := hreachc
            obtain ⟨hx, hy⟩ := hcnd
            rw [hx, hy]
            refine ⟨p₀, hp₀, ReachW.tail p₀ (r, c) (r + nb.1, c + nb.2.1) hRW
              (nb_adj r c hnb) ?_⟩
            exact ⟨hb1, hb2, hb3, hb4, hfna⟩
          · rw [if_neg hcnd] at htm
            exact h8 x y htm
    obtain ⟨k1, k2, k3, k4, k6, k7, k8⟩ := hone
    have hrest := ih (fun x hx => hmem x (List.mem_cons_of_mem _ hx))
      (relaxOne (m.cfg stream) t r c s nb) k1 k2 k3 k4
      (by rw [hvis1]; exact k6) (by exact k7) k8
      (by rw [hvis1]; exact hT)
    obtain ⟨j0, j1, j2, j3, j4, j6, j7, j8, jcov⟩ := hrest
    refine ⟨by rw [j0, hvis1], j1, j2, j3, j4, by rw [j0, hvis1] at j6 ⊢; exact j6,
      j7, j8, ?_⟩
    intro nb' hnb' hgood
    rcases List.mem_cons.mp hnb' with rfl | hnb'
    · refine foldl_relax_tmap_mono (m.cfg stream) t r c L _ _ _ ?_
      refine relaxOne_establishes (m.cfg stream) t r c s nb'
        ⟨hgood.1, hgood.2.1, hgood.2.2.1, hgood.2.2.2.1⟩ hgood.2.2.2.2 ?_
      exact fun hv => h3 _ _ hv
    · exact jcov nb' hnb' hgood

theorem dinv_step (m : FireModel) (stream : ℕ → ℝ) (M0 : ℝ) (hcs : 0 < m.cell_size)
    (hws : ¬ (5 : ℝ) < (m.cfg stream).windSpeed) (mt : ℝ) (s s₁ : SimState ℝ)
    (hs : DInv m stream M0 s) (h : step (m.cfg stream) mt s = some (Sum.inl s₁)) :
    DInv m stream M0 s₁ := by
  obtain ⟨hA, hQ, hV, hE, hN, hT, hS, hR⟩ := hs
  rcases step_spec (m.cfg stream) mt s with ⟨hpq, he⟩ | ⟨t, r, c, rest, hpq, hc⟩
  · rw [he] at h
    injection h with h
    exact Sum.noConfusion h
  · rcases hc with ⟨hmt, he⟩ | ⟨hmt, hv, he⟩ | ⟨hmt, hv, hrest⟩
    · rw [he] at h
      injection h with h
      exact Sum.noConfusion h
    · rw [he] at h
      injection h with h
      injection h with h
      subst h
      refine ⟨?_, ?_, hV, ?_, hN, ?_, hS, hR⟩
      · intro e he2
        exact hA e (by rw [hpq]; exact List.mem_cons_of_mem _ he2)
      · intro e he2
        exact hQ e (by rw [hpq]; exact List.mem_cons_of_mem _ he2)
      · intro x y hIn htm
        rcases hE x y hIn htm with hvv | ⟨u, hu⟩
        · exact Or.inl hvv
        · rw [hpq] at hu
          rcases List.mem_cons.mp hu with heq2 | hu2
          · have hx : x = r := congrArg (fun e => e.2.1) heq2
            have hy : y = c := congrArg (fun e => e.2.2) heq2
            rw [hx, hy]
            exact Or.inl hv
          · exact Or.inr ⟨u, hu2⟩
      · intro e he2
        exact hT e (by rw [hpq]; exact List.mem_cons_of_mem _ he2)
    · have hheadmem : (t, r, c) ∈ s.pq := by
        rw [hpq]; exact List.mem_cons_self _ _
      have hInBrc : InB (m.cfg stream) r c := hA (t, r, c) hheadmem
      have htmrc : s.tmap r c ≠ none := hQ (t, r, c) hheadmem
      have hreachc := hR r c htmrc
      have hu : unvis m.rows m.cols (settleState s t r c rest).visited + 1 =
          unvis m.rows m.cols s.visited :=
        unvis_update m.rows m.cols s.visited r c hInBrc hv _ (fun _ _ => rfl)
      have huR : (unvis m.rows m.cols (settleState s t r c rest).visited : ℝ) + 1 =
          (unvis m.rows m.cols s.visited : ℝ) := by exact_mod_cast hu
      have hB0 : (0 : ℝ) ≤ 1414 * m.cell_size := by linarith
      have hfold := relax_fold_dinv m stream M0 hcs t r c hreachc (neighborsList ℝ)
        (fun _ hx => hx) (settleState s t r c rest)
        (fun e he2 => hA e (by rw [hpq]; exact List.mem_cons_of_mem _ he2))
        (fun e he2 => hQ e (by rw [hpq]; exact List.mem_cons_of_mem _ he2))
        (fun x y hv2 => by
          have hv3 : (if x = r ∧ y = c then true else s.visited x y) = true := hv2
          by_cases hcnd : x = r ∧ y = c
          · obtain ⟨hx, hy⟩ := hcnd
            rw [hx, hy]
            exact htmrc
          · rw [if_neg hcnd] at hv3
            exact hV x y hv3)
        (fun x y hIn htm => by
          rcases hE x y hIn htm with hvv | ⟨u, hu2⟩
          · refine Or.inl ?_
            show (if x = r ∧ y = c then true else s.visited x y) = true
            by_cases hcnd : x = r ∧ y = c
            · rw [if_pos hcnd]
            · rw [if_neg hcnd]; exact hvv
          · rw [hpq] at hu2
            rcases List.mem_cons.mp hu2 with heq2 | hu3
            · have hx : x = r := congrArg (fun e => e.2.1) heq2
              have hy : y = c := congrArg (fun e => e.2.2) heq2
              refine Or.inl ?_
              show (if x = r ∧ y = c then true else s.visited x y) = true
              rw [if_pos ⟨hx, hy⟩]
            · exact Or.inr ⟨u, hu3⟩)
        (fun e he2 => by
          have h1 := hT e (by rw [hpq]; exact List.mem_cons_of_mem _ he2)
          have h2 : (0 : ℝ) ≤ (unvis m.rows m.cols s.visited : ℝ) := Nat.cast_nonneg _
          nlinarith [huR])
        hS hR
        (by
          have h1 := hT (t, r, c) hheadmem
          have h2 : ((t, r, c).1 : ℝ) = t := rfl
          rw [huR]
          exact h1)
      obtain ⟨j0, j1, j2, j3, j4, j6, j7, j8, jcov⟩ := hfold
      rcases hrest with ⟨hg, he⟩ | ⟨hg, hsp⟩
      · rw [he] at h
        injection h with h
        injection h with h
        subst h
        refine ⟨j1, j2, j3, j4, ?_, j6, j7, j8⟩
        intro x y hvx nb hnb hgood
        have hvx2 : (settleState s t r c rest).visited x y = true := by
          rw [← j0]; exact hvx
        have hvx3 : (if x = r ∧ y = c then true else s.visited x y) = true := hvx2
        by_cases hcnd : x = r ∧ y = c
        · obtain ⟨hx, hy⟩ := hcnd
          rw [hx, hy]
          rw [hx, hy] at hgood
          exact jcov nb hnb hgood
        · rw [if_neg hcnd] at hvx3
          have hold := hN x y hvx3 nb hnb hgood
          exact foldl_relax_tmap_mono (m.cfg stream) t r c (neighborsList ℝ)
            (settleState s t r c rest) _ _ hold
      · exact absurd hg.2 hws

/-- A bound on the in-bounds seed times of a model. -/
noncomputable def seedBound (m : FireModel) : ℝ :=
  (insert (0 : ℝ) ((Finset.range m.rows ×ˢ Finset.range m.cols).image
    (fun p => (m.ignition_time (p.1 : ℤ) (p.2 : ℤ)).getD 0))).max'
    (Finset.insert_nonempty _ _)

theorem seedBound_spec (m : FireModel) :
    ∀ (r c : ℤ) (u : ℝ), 0 ≤ r → r < (m.rows : ℤ) → 0 ≤ c → c < (m.cols : ℤ) →
      m.ignition_time r c = some u → u ≤ seedBound m := by
  intro r c u h1 h2 h3 h4 htm
  apply Finset.le_max'
  apply Finset.mem_insert_of_mem
  rw [Finset.mem_image]
  refine ⟨(r.toNat, c.toNat), ?_, ?_⟩
  · rw [Finset.mem_product, Finset.mem_range, Finset.mem_range]
    exact ⟨by omega, by omega⟩
  · rw [show ((r.toNat : ℕ) : ℤ) = r by omega,
      show ((c.toNat : ℕ) : ℤ) = c by omega, htm]
    rfl

theorem dinv_init (m : FireModel) (stream : ℕ → ℝ) (M0 : ℝ) (hcs : 0 < m.cell_size)
    (hseedgood : ∀ r c : ℤ, m.ignition_time r c ≠ none → goodCell m (r, c))
    (hM0 : ∀ (r c : ℤ) (u : ℝ), 0 ≤ r → r < (m.rows : ℤ) → 0 ≤ c →
      c < (m.cols : ℤ) → m.ignition_time r c = some u → u ≤ M0) (i : ℕ) :
    DInv m stream M0
      ⟨m.ignition_time, fun _ _ => false,
        heapify (initEntries m.rows m.cols m.ignition_time), [], i⟩ := by
  constructor
  · intro e he
    obtain ⟨et, er, ec⟩ := e
    rw [show (SimState.mk m.ignition_time (fun _ _ => false)
        (heapify (initEntries m.rows m.cols m.ignition_time)) [] i).pq =
      heapify (initEntries m.rows m.cols m.ignition_time) from rfl, mem_heapify,
      mem_initEntries] at he
    exact ⟨he.1, he.2.1, he.2.2.1, he.2.2.2.1⟩
  · intro e he
    obtain ⟨et, er, ec⟩ := e
    rw [show (SimState.mk m.ignition_time (fun _ _ => false)
        (heapify (initEntries m.rows m.cols m.ignition_time)) [] i).pq =
      heapify (initEntries m.rows m.cols m.ignition_time) from rfl, mem_heapify,
      mem_initEntries] at he
    show m.ignition_time er ec ≠ none
    rw [he.2.2.2.2]
    simp
  · intro r c hv
    exact absurd hv (by simp)
  · intro r c hIn htm
    rcases hex : m.ignition_time r c with _ | u
    · exact absurd hex htm
    · refine Or.inr ⟨u, ?_⟩
      show (u, r, c) ∈ heapify (initEntries m.rows m.cols m.ignition_time)
      rw [mem_heapify, mem_initEntries]
      exact ⟨hIn.1, hIn.2.1, hIn.2.2.1, hIn.2.2.2, hex⟩
  · intro r c hv
    exact absurd hv (by simp)
  · intro e he
    obtain ⟨et, er, ec⟩ := e
    rw [show (SimState.mk m.ignition_time (fun _ _ => false)
        (heapify (initEntries m.rows m.cols m.ignition_time)) [] i).pq =
      heapify (initEntries m.rows m.cols m.ignition_time) from rfl, mem_heapify,
      mem_initEntries] at he
    obtain ⟨h1, h2, h3, h4, h5⟩ := he
    have hM := hM0 er ec et h1 h2 h3 h4 h5
    rw [show (SimState.mk m.ignition_time (fun _ _ => false)
        (heapify (initEntries m.rows m.cols m.ignition_time)) [] i).visited =
      (fun _ _ => false) from rfl, unvis_allFalse]
    have hB0 : (0 : ℝ) ≤ 1414 * m.cell_size := by linarith
    have h6 : ((et, er, ec).1 : ℝ) = et := rfl
    rw [h6]
    nlinarith
  · intro r c htm
    exact htm
  · intro r c htm
    exact ⟨(r, c), htm, ReachW.refl _ (hseedgood r c htm)⟩

theorem run_dinv_final (m : FireModel) (stream : ℕ → ℝ) (i : ℕ) (mt : ℝ) (M0 : ℝ)
    (hcs : 0 < m.cell_size) (hws : m.wind_speed ≤ 5)
    (hseedgood : ∀ r c : ℤ, m.ignition_time r c ≠ none → goodCell m (r, c))
    (hM0 : ∀ (r c : ℤ) (u : ℝ), 0 ≤ r → r < (m.rows : ℤ) → 0 ≤ c →
      c < (m.cols : ℤ) → m.ignition_time r c = some u → u ≤ M0)
    (s : SimState ℝ) (h : m.run_simulation stream i mt = some s) :
    ∃ s₀, DInv m stream M0 s₀ ∧ step (m.cfg stream) mt s₀ = some (Sum.inr s) := by
  have hws2 : ¬ (5 : ℝ) < (m.cfg stream).windSpeed := not_lt.mpr hws
  refine loopSim_final (m.cfg stream) mt (DInv m stream M0)
    (fun x x₁ hP hst => dinv_step m stream M0 hcs hws2 mt x x₁ hP hst)
    (fun x hP e he => hP.inb e he)
    (loopFuel m.rows m.cols (heapify (initEntries m.rows m.cols m.ignition_time)))
    ⟨m.ignition_time, fun _ _ => false,
      heapify (initEntries m.rows m.cols m.ignition_time), [], i⟩ s
    (dinv_init m stream M0 hcs hseedgood hM0 i) ?_ h
  show meas m.rows m.cols
      (⟨m.ignition_time, fun _ _ => false,
        heapify (initEntries m.rows m.cols m.ignition_time), [], i⟩ : SimState ℝ) <
    loopFuel m.rows m.cols (heapify (initEntries m.rows m.cols m.ignition_time))
  unfold meas loopFuel
  rw [show (SimState.mk m.ignition_time (fun _ _ => false)
      (heapify (initEntries m.rows m.cols m.ignition_time)) [] i).visited =
    (fun _ _ => false) from rfl,
    show (SimState.mk m.ignition_time (fun _ _ => false)
      (heapify (initEntries m.rows m.cols m.ignition_time)) [] i).pq =
    heapify (initEntries m.rows m.cols m.ignition_time) from rfl, unvis_allFalse]
  omega

/-- A `Sum.inr` exit of `step` is an empty-queue exit or a horizon break. -/
theorem step_inr_cases {K : Type} [LinearOrderedField K] (cfg : LoopCfg K) (mt : K)
    (s₀ sF : SimState K) (h : step cfg mt s₀ = some (Sum.inr sF)) :
    (s₀.pq = [] ∧ sF = s₀) ∨
    (∃ t r c rest, s₀.pq = (t, r, c) :: rest ∧ mt < t ∧
      sF = popState s₀ t r c rest) := by
  rcases step_spec cfg mt s₀ with ⟨hpq, he⟩ | ⟨t, r, c, rest, hpq, hc⟩
  · rw [he] at h
    injection h with h
    injection h with h
    exact Or.inl ⟨hpq, h.symm⟩
  · rcases hc with ⟨hmt, he⟩ | ⟨hmt, hv, he⟩ | ⟨hmt, hv, hrest⟩
    · rw [he] at h
      injection h with h
      injection h with h
      exact Or.inr ⟨t, r, c, rest, hpq, hmt, h.symm⟩
    · rw [he] at h
      injection h with h
      exact Sum.noConfusion h
    · rcases hrest with ⟨hg, he⟩ | ⟨hg, hsp⟩
      · rw [he] at h
        injection h with h
        exact Sum.noConfusion h
      · rcases hsp with ⟨j, hq1, he⟩ | ⟨j, hq1, he⟩ | ⟨cst, csr, csc, j, hq1, he⟩ <;>
          rw [he] at h
        · exact Option.noConfusion h
        · injection h with h
          exact Sum.noConfusion h
        · injection h with h
          exact Sum.noConfusion h

/-- C8 (amended).  First, Water is never written: `ignite` silently skips
Water cells (and leaves the fuel raster unchanged), and a run never changes
the ignition-time entry of a Water cell — relaxation and ember spotting both
refuse Water targets.  Second, with `windSpeed ≤ 5` (so the Ember-Spotting
Process cannot fire) and seeds on good (in-bounds, non-Water) cells: every
cell whose final time is finite is 8-connected to a seed by an in-bounds
water-free path, so a fully water-blocked target stays "never"; and
conversely every target with such a path from a seed is settled with a finite
time whenever `maxTime ≥ M0 + (rows·cols + 1)·1414·cellSize` for any bound
`M0` on the in-bounds seed times.  (With `windSpeed > 5` ember spotting can
jump a Water wall: see the counterexample.) -/
theorem claim_c8 (m : FireModel) (stream : ℕ → ℝ) (i : ℕ) (mt : ℝ)
    (hcs : 0 < m.cell_size) :
    (∀ (r' c' : ℤ) (t₀ : ℝ), (m.ignite r' c' t₀).fuel = m.fuel ∧
      ∀ r c : ℤ, m.fuel r c = 3 →
        (m.ignite r' c' t₀).ignition_time r c = m.ignition_time r c) ∧
    (∀ s, m.run_simulation stream i mt = some s →
      ∀ r c : ℤ, m.fuel r c = 3 → s.tmap r c = m.ignition_time r c) ∧
    (m.wind_speed ≤ 5 →
      (∀ r c : ℤ, m.ignition_time r c ≠ none → goodCell m (r, c)) →
      ∀ s, m.run_simulation stream i mt = some s →
        (∀ r c : ℤ, s.tmap r c ≠ none →
          ∃ p₀, m.ignition_time p₀.1 p₀.2 ≠ none ∧
            ReachW (goodCell m) p₀ (r, c)) ∧
        (∀ M0 : ℝ,
          (∀ (r c : ℤ) (u : ℝ), 0 ≤ r → r < (m.rows : ℤ) → 0 ≤ c →
            c < (m.cols : ℤ) → m.ignition_time r c = some u → u ≤ M0) →
          M0 + (((m.rows * m.cols : ℕ) : ℝ) + 1) * (1414 * m.cell_size) ≤ mt →
          ∀ p₀ p : ℤ × ℤ, m.ignition_time p₀.1 p₀.2 ≠ none →
            ReachW (goodCell m) p₀ p →
            s.visited p.1 p.2 = true ∧ s.tmap p.1 p.2 ≠ none)) := by
  refine ⟨?_, ?_, ?_⟩
  · intro r' c' t₀
    unfold FireModel.ignite
    split_ifs with hcnd
    · refine ⟨rfl, ?_⟩
      intro r c hf
      dsimp only
      rw [if_neg ?_]
      rintro ⟨hx, hy⟩
      exact hcnd.2 (hx ▸ hy ▸ hf)
    · exact ⟨rfl, fun _ _ _ => rfl⟩
  · intro s hs r c hf
    exact run_water_tmap m stream i mt s hs r c hf
  · intro hws hseedgood s hrun
    constructor
    · obtain ⟨s₀, hD, hstep⟩ := run_dinv_final m stream i mt (seedBound m) hcs hws
        hseedgood (fun r c u h1 h2 h3 h4 h5 => seedBound_spec m r c u h1 h2 h3 h4 h5)
        s hrun
      rcases step_inr_cases _ _ _ _ hstep with ⟨hpq0, rfl⟩ |
        ⟨t, r0, c0, rest, hpq0, hmt0, rfl⟩
      · exact fun r c htm => hD.reach r c htm
      · exact fun r c htm => hD.reach r c htm
    · intro M0 hM0 hmt p₀ p hp₀ hRW
      obtain ⟨s₀, hD, hstep⟩ := run_dinv_final m stream i mt M0 hcs hws
        hseedgood hM0 s hrun
      rcases step_inr_cases _ _ _ _ hstep with ⟨hpq0, rfl⟩ |
        ⟨t, r0, c0, rest, hpq0, hmt0, rfl⟩
      · have main : ∀ q₀ q : ℤ × ℤ, ReachW (goodCell m) q₀ q →
            m.ignition_time q₀.1 q₀.2 ≠ none →
            s.visited q.1 q.2 = true ∧ s.tmap q.1 q.2 ≠ none := by
          intro q₀ q hRW2
          induction hRW2 with
          | refl hg =>
            intro hq₀
            have htm : s.tmap q₀.1 q₀.2 ≠ none := hD.seedsome q₀.1 q₀.2 hq₀
            have hin : InB (m.cfg stream) q₀.1 q₀.2 :=
              ⟨hg.1, hg.2.1, hg.2.2.1, hg.2.2.2.1⟩
            rcases hD.entry q₀.1 q₀.2 hin htm with hv | ⟨u, hu⟩
            · exact ⟨hv, htm⟩
            · rw [hpq0] at hu
              exact absurd hu (List.not_mem_nil _)
          | tail q w hRW3 hadj hg ih =>
            intro hq₀
            have ihr := ih hq₀
            obtain ⟨nb, hnb, he1, he2⟩ := adj_exists_nb q w hadj
            have herq : w = (q.1 + nb.1, q.2 + nb.2.1) := Prod.ext he1 he2
            have htmr : s.tmap w.1 w.2 ≠ none := by
              rw [herq]
              exact hD.nbdone q.1 q.2 ihr.1 nb hnb (by rw [← herq]; exact hg)
            have hin : InB (m.cfg stream) w.1 w.2 :=
              ⟨hg.1, hg.2.1, hg.2.2.1, hg.2.2.2.1⟩
            rcases hD.entry w.1 w.2 hin htmr with hv | ⟨u, hu⟩
            · exact ⟨hv, htmr⟩
            · rw [hpq0] at hu
              exact absurd hu (List.not_mem_nil _)
        exact main p₀ p hRW hp₀
      · exfalso
        have h1 := hD.tbound (t, r0, c0) (by rw [hpq0]; exact List.mem_cons_self _ _)
        have h2 : (0 : ℝ) ≤ (unvis m.rows m.cols s₀.visited : ℝ) * (1414 * m.cell_size) :=
          mul_nonneg (Nat.cast_nonneg _) (by linarith)
        have h3 : ((t, r0, c0).1 : ℝ) = t := rfl
        rw [h3] at h1
        linarith

theorem claim_c8_witness :
    (∀ (r' c' : ℤ) (t₀ : ℝ), (mC6.ignite r' c' t₀).fuel = mC6.fuel ∧
      ∀ r c : ℤ, mC6.fuel r c = 3 →
        (mC6.ignite r' c' t₀).ignition_time r c = mC6.ignition_time r c) ∧
    (∀ s, mC6.run_simulation zeroStream 0 ((1000 : ℚ) : ℝ) = some s →
      ∀ r c : ℤ, mC6.fuel r c = 3 → s.tmap r c = mC6.ignition_time r c) ∧
    (mC6.wind_speed ≤ 5 →
      (∀ r c : ℤ, mC6.ignition_time r c ≠ none → goodCell mC6 (r, c)) →
      ∀ s, mC6.run_simulation zeroStream 0 ((1000 : ℚ) : ℝ) = some s →
        (∀ r c : ℤ, s.tmap r c ≠ none →
          ∃ p₀, mC6.ignition_time p₀.1 p₀.2 ≠ none ∧
            ReachW (goodCell mC6) p₀ (r, c)) ∧
        (∀ M0 : ℝ,
          (∀ (r c : ℤ) (u : ℝ), 0 ≤ r → r < (mC6.rows : ℤ) → 0 ≤ c →
            c < (mC6.cols : ℤ) → mC6.ignition_time r c = some u → u ≤ M0) →
          M0 + (((mC6.rows * mC6.cols : ℕ) : ℝ) + 1) * (1414 * mC6.cell_size) ≤
            ((1000 : ℚ) : ℝ) →
          ∀ p₀ p : ℤ × ℤ, mC6.ignition_time p₀.1 p₀.2 ≠ none →
            ReachW (goodCell mC6) p₀ p →
            s.visited p.1 p.2 = true ∧ s.tmap p.1 p.2 ≠ none)) :=
  claim_c8 mC6 zeroStream 0 ((1000 : ℚ) : ℝ)
    (by norm_num [mC6, FireModel.ignite, FireModel.init, fuelC6])

end Wildfire